import Mathlib

/-!
# Local de Bruijn graph assembler (`src/main/c/assembler.c`)

Shallow embedding of the graph builder, the pruner, the contig enumerator and
the two-pass driver.

Conventions of the embedding.
* A C string is represented by the list of its bytes before the terminator
  (a byte is a `Nat`); `strcmp(a, b) == 0` is equality of these lists.
* A pointer into the node arena is the index of the slot in allocation order;
  a pointer into the read pool is the index of the read slot.
* The `#define`d assembly constants are the fields of `Params`, so that the
  small scenarios (`K = 3`, `L = 5`) can be evaluated next to the defaults.
* `exit(-1)` is the result `none`.
-/

namespace Abra

/-- Assembly constants: `READ_LENGTH`, `KMER`, `MIN_CONTIG_LENGTH`,
`MIN_NODE_FREQUENCY`, `MAX_CONTIG_SIZE`. -/
structure Params where
  READ_LENGTH : Nat
  KMER : Nat
  MIN_CONTIG_LENGTH : Nat
  MIN_NODE_FREQUENCY : Nat
  MAX_CONTIG_SIZE : Nat
  deriving DecidableEq, Repr

/-- The values of the `#define`s in the source. -/
def defaultParams : Params := ⟨100, 63, 101, 3, 10000⟩

def NODES_PER_BLOCK : Nat := 10000
def MAX_NODE_BLOCKS : Nat := 50000
def KMERS_PER_BLOCK : Nat := 10000
def MAX_KMER_BLOCKS : Nat := 50000
def READS_PER_BLOCK : Nat := 10000
def MAX_READ_BLOCKS : Nat := 10000

/-- Return codes of `build_contigs` (`OK 0`, `-1`, `-2`, `-3`). -/
inductive Status where
  | OK
  | TOO_MANY_PATHS_FROM_ROOT
  | TOO_MANY_CONTIGS
  | STOPPED_ON_REPEAT
  deriving DecidableEq, Repr

/-- The `struct node`: `seq` is the k-mer the slot points to, `toNodes` and
`fromNodes` are the linked lists (head first) of node pointers,
`contributingRead` is the read pointer. -/
structure node where
  seq : List Nat
  frequency : Int
  toNodes : List Nat
  fromNodes : List Nat
  contributingRead : Nat
  hasMultipleUniqueReads : Bool
  deriving DecidableEq, Repr

instance : Inhabited node := ⟨⟨[], 0, [], [], 0, false⟩⟩

/-- The memory of one assembly: the node arena, the hash map `nodes`
(entries in iteration order), the read pool, and the block and slot counters
of the three pools. -/
structure Graph where
  arena : List node
  table : List (List Nat × Nat)
  reads : List (List Nat)
  node_block_idx : Nat
  node_idx : Nat
  kmer_block_idx : Nat
  kmer_idx : Nat
  read_block_idx : Nat
  read_idx : Nat
  deriving DecidableEq, Repr

/-- The state after `init_pool` and the creation of the empty map. -/
def init_pool : Graph := ⟨[], [], [], 0, 0, 0, 0, 0, 0⟩

/-- Dereference of a node pointer. -/
def Graph.nodeAt (g : Graph) (i : Nat) : node := g.arena.getD i default

/-- Store through a node pointer. -/
def Graph.setNode (g : Graph) (i : Nat) (n : node) : Graph :=
  { g with arena := g.arena.set i n }

/-- Signed 32-bit wrap-around of an `int`. -/
def wrapInt (x : Int) : Int := (x + 2147483648) % 4294967296 - 2147483648

/-- The function `compare` on two read pointers: same pointer, or equal
bytes. -/
def compare (g : Graph) (s1 s2 : Nat) : Bool :=
  s1 == s2 || g.reads.getD s1 [] == g.reads.getD s2 []

/-- The function `allocate_read` followed by the `memcpy` of the token into
the slot: the new read pointer. -/
def allocate_read (g : Graph) (read : List Nat) : Option (Graph × Nat) :=
  if g.read_block_idx > MAX_READ_BLOCKS then none
  else
    let g1 := if g.read_idx ≥ READS_PER_BLOCK
      then { g with read_block_idx := g.read_block_idx + 1, read_idx := 0 }
      else g
    some ({ g1 with reads := g1.reads ++ [read], read_idx := g1.read_idx + 1 },
          g1.reads.length)

/-- The function `allocate_kmer`: only the counters matter, the slot content
is carried by the caller. -/
def allocate_kmer (g : Graph) : Option Graph :=
  if g.kmer_block_idx > MAX_KMER_BLOCKS then none
  else
    let g1 := if g.kmer_idx ≥ KMERS_PER_BLOCK
      then { g with kmer_block_idx := g.kmer_block_idx + 1, kmer_idx := 0 }
      else g
    some { g1 with kmer_idx := g1.kmer_idx + 1 }

/-- The function `allocate_node`: the pointer to a fresh slot. -/
def allocate_node (g : Graph) : Option (Graph × Nat) :=
  if g.node_block_idx ≥ MAX_NODE_BLOCKS then none
  else
    let g1 := if g.node_idx ≥ NODES_PER_BLOCK
      then { g with node_block_idx := g.node_block_idx + 1, node_idx := 0 }
      else g
    some ({ g1 with arena := g1.arena ++ [default], node_idx := g1.node_idx + 1 },
          g1.arena.length)

/-- The function `new_node`. -/
def new_node (g : Graph) (seq : List Nat) (contributingRead : Nat) :
    Option (Graph × Nat) :=
  match allocate_node g with
  | none => none
  | some (g1, p) =>
    some (g1.setNode p ⟨seq, 1, [], [], contributingRead, false⟩, p)

/-- The `KMER` bytes of the string `r` from offset `i` on (the `memcpy` of
`get_kmer`). -/
def kmerAt (P : Params) (r : List Nat) (i : Nat) : List Nat := (r.drop i).take P.KMER

/-- The function `get_kmer`: the `KMER` bytes of the read at offset `idx`,
in a freshly allocated k-mer slot. -/
def get_kmer (P : Params) (idx : Nat) (sequence : Nat) (g : Graph) :
    Option (Graph × List Nat) :=
  match allocate_kmer g with
  | none => none
  | some g1 => some (g1, kmerAt P (g.reads.getD sequence []) idx)

/-- The function `unget_kmer`. -/
def unget_kmer (g : Graph) : Graph := { g with kmer_idx := g.kmer_idx - 1 }

/-- The function `is_node_in_list`: membership by k-mer string. -/
def is_node_in_list (g : Graph) (n : Nat) (list : List Nat) : Bool :=
  list.any (fun p => (g.nodeAt p).seq == (g.nodeAt n).seq)

/-- The function `link_nodes`. -/
def link_nodes (g : Graph) (from_node to_node : Nat) : Graph :=
  let g1 :=
    if !is_node_in_list g to_node (g.nodeAt from_node).toNodes then
      g.setNode from_node
        { g.nodeAt from_node with toNodes := to_node :: (g.nodeAt from_node).toNodes }
    else g
  if !is_node_in_list g1 from_node (g1.nodeAt to_node).fromNodes then
    g1.setNode to_node
      { g1.nodeAt to_node with fromNodes := from_node :: (g1.nodeAt to_node).fromNodes }
  else g1

/-- The function `increment_node_freq`. -/
def increment_node_freq (g : Graph) (n : Nat) (read_seq : Nat) : Graph :=
  let nd := g.nodeAt n
  let nd1 := { nd with frequency := wrapInt (nd.frequency + 1) }
  let nd2 :=
    if !nd1.hasMultipleUniqueReads && !compare g nd1.contributingRead read_seq
    then { nd1 with hasMultipleUniqueReads := true } else nd1
  g.setNode n nd2

/-- The probe `(*nodes)[kmer]` of `add_to_graph` and the branch on
`curr == NULL`: the node of the k-mer, created or counted once more. -/
def probe (g1 : Graph) (kmer : List Nat) (sequence : Nat) : Option (Graph × Nat) :=
  match g1.table.lookup kmer with
  | none =>
    match new_node g1 kmer sequence with
    | none => none
    | some (g2, curr) => some ({ g2 with table := g2.table ++ [(kmer, curr)] }, curr)
  | some curr => some (increment_node_freq (unget_kmer g1) curr sequence, curr)

/-- The statement `if (prev != NULL) link_nodes(prev, curr)`. -/
def link_prev (g3 : Graph) (prev : Option Nat) (curr : Nat) : Graph :=
  match prev with
  | none => g3
  | some p => link_nodes g3 p curr

/-- One iteration of the loop of `add_to_graph`, at offset `i`; the second
component is `prev`. -/
def add_kmer (P : Params) (sequence : Nat) (st : Graph × Option Nat) (i : Nat) :
    Option (Graph × Option Nat) :=
  match get_kmer P i sequence st.1 with
  | none => none
  | some (g1, kmer) =>
    match probe g1 kmer sequence with
    | none => none
    | some (g3, curr) =>
      some (link_prev g3 st.2 curr, some curr)

/-- The offsets `0 .. READ_LENGTH - KMER` of the loop of `add_to_graph`
(none when `KMER > READ_LENGTH`). -/
def offsets (P : Params) : List Nat :=
  if P.KMER ≤ P.READ_LENGTH then List.range (P.READ_LENGTH - P.KMER + 1) else []

/-- Left fold of a fallible step. -/
def foldlO {σ α : Type} (f : σ → α → Option σ) : σ → List α → Option σ
  | s, [] => some s
  | s, a :: l => match f s a with
    | none => none
    | some s1 => foldlO f s1 l

/-- The function `add_to_graph`. -/
def add_to_graph (P : Params) (sequence : Nat) (g : Graph) : Option Graph :=
  (foldlO (add_kmer P sequence) (g, none) (offsets P)).map Prod.fst

/-- One iteration of the loop of `build_graph` on a non-empty token. -/
def add_read (P : Params) (g : Graph) (read : List Nat) : Option Graph :=
  match allocate_read g read with
  | none => none
  | some (g1, read_ptr) => add_to_graph P read_ptr g1

/-- The function `build_graph` on the tokens of the read file. -/
def build_graph (P : Params) (reads : List (List Nat)) (g : Graph) : Option Graph :=
  foldlO (add_read P) g reads

/-- The function `remove_node_from_list`: unlink the first entry whose k-mer
equals that of `n`. -/
def remove_node_from_list (g : Graph) (n : Nat) : List Nat → List Nat
  | [] => []
  | p :: l =>
    if (g.nodeAt p).seq == (g.nodeAt n).seq then l
    else p :: remove_node_from_list g n l

/-- The test of `prune_graph` on a node. -/
def is_weak (P : Params) (nd : node) : Bool :=
  decide (nd.frequency < (P.MIN_NODE_FREQUENCY : Int)) || !nd.hasMultipleUniqueReads

/-- First inner loop of `prune_graph`: remove `n` from the "from" list of
each of its successors. -/
def unlink_from (g : Graph) (n : Nat) : Graph :=
  (g.nodeAt n).toNodes.foldl (fun h t =>
    h.setNode t { h.nodeAt t with
      fromNodes := remove_node_from_list h n (h.nodeAt t).fromNodes }) g

/-- Second inner loop of `prune_graph`: remove `n` from the "to" list of each
of its predecessors. -/
def unlink_to (g : Graph) (n : Nat) : Graph :=
  (g.nodeAt n).fromNodes.foldl (fun h p =>
    h.setNode p { h.nodeAt p with
      toNodes := remove_node_from_list h n (h.nodeAt p).toNodes }) g

/-- Body of `prune_graph` for a weak node `n` stored under `key`. -/
def prune_node (g : Graph) (key : List Nat) (n : Nat) : Graph :=
  let g2 := unlink_to (unlink_from g n) n
  let g3 := { g2 with table := g2.table.filter (fun e => !(e.1 == key)) }
  g3.setNode n { g3.nodeAt n with toNodes := [], fromNodes := [] }

/-- The loop of `prune_graph` over the entries `es` of the map. -/
def prune_entries (P : Params) (es : List (List Nat × Nat)) (g : Graph) : Graph :=
  es.foldl (fun h e => if is_weak P (h.nodeAt e.2) then prune_node h e.1 e.2 else h) g

/-- The function `prune_graph`. -/
def prune_graph (P : Params) (g : Graph) : Graph := prune_entries P g.table g

/-- The function `identify_root_nodes`: each root is prepended. -/
def identify_root_nodes (g : Graph) : List Nat :=
  g.table.foldl (fun roots e =>
    if (g.nodeAt e.2).fromNodes.isEmpty then e.2 :: roots else roots) []

/-- The `struct contig`: `seq` holds the bytes written so far (the rest of the
buffer is zero), `visited_nodes` is the set of k-mer strings. -/
structure contig where
  seq : List Nat
  size : Nat
  is_repeat : Bool
  curr_node : Nat
  visited_nodes : List (List Nat)
  deriving DecidableEq, Repr

/-- One FASTA record: the number in the header, whether the header carries
`_repeat`, and the sequence line. -/
structure record where
  contig_id : Int
  is_repeat : Bool
  seq : List Nat
  deriving DecidableEq, Repr

/-- The function `new_contig`, with `curr_node` set as the caller does. -/
def new_contig (root : Nat) : contig := ⟨[], 0, false, root, []⟩

/-- The function `copy_contig`, with `curr_node` set as the caller does. -/
def copy_contig (orig : contig) (curr : Nat) : contig :=
  ⟨orig.seq, orig.size, orig.is_repeat, curr, orig.visited_nodes⟩

/-- The function `is_node_visited`. -/
def is_node_visited (g : Graph) (c : contig) (n : Nat) : Bool :=
  c.visited_nodes.contains (g.nodeAt n).seq

/-- The function `output_contig`: the new counter and file content. -/
def output_contig (P : Params) (c : contig) (contig_count : Int) (fp : List record) :
    Int × List record :=
  if c.seq.length ≥ P.MIN_CONTIG_LENGTH then
    (contig_count + 1, fp ++ [⟨contig_count, c.is_repeat, c.seq⟩])
  else (contig_count, fp)

/-- The local state of `build_contigs`: the stack (top first), the counter
and the file passed by reference, `paths_from_root` and `status`. -/
structure Run where
  contigs : List contig
  contig_count : Int
  fp : List record
  paths_from_root : Int
  status : Status
  deriving DecidableEq, Repr

/-- What a computation ends in: a value, `exit(-1)`, or the fuel of the model
ran out. -/
inductive Outcome (α : Type) where
  | done (a : α)
  | fatal
  | timeout
  deriving DecidableEq, Repr

/-- The two bound checks at the end of the loop body of `build_contigs`. -/
def check_bounds (max_paths_from_root max_contigs : Int) (r : Run) : Run :=
  let r1 := if r.contig_count ≥ max_contigs
    then { r with status := Status.TOO_MANY_CONTIGS } else r
  if r1.paths_from_root ≥ max_paths_from_root
    then { r1 with status := Status.TOO_MANY_PATHS_FROM_ROOT } else r1

/-- The three branches of the loop body of `build_contigs` on the top contig
`c` above `rest`; `none` is `exit(-1)`.  In the sink branch the list is what
`seq` holds up to its terminator when `size + KMER < MAX_CONTIG_SIZE`; the
source makes the copy without that check, and at or past the bound it runs to
the end of `seq` or over the fields behind it, which the list does not
describe. -/
def visit (P : Params) (g : Graph) (stop_on_repeat shadow_mode : Bool)
    (c : contig) (rest : List contig) (r : Run) : Option Run :=
  if is_node_visited g c c.curr_node then
    let c1 := { c with is_repeat := true }
    let o := if !shadow_mode && !stop_on_repeat
      then output_contig P c1 r.contig_count r.fp else (r.contig_count, r.fp)
    some { r with contigs := rest, contig_count := o.1, fp := o.2,
                  status := if stop_on_repeat then Status.STOPPED_ON_REPEAT else r.status }
  else if (g.nodeAt c.curr_node).toNodes.isEmpty then
    let c1 := { c with seq := c.seq ++ (g.nodeAt c.curr_node).seq.take P.KMER }
    let o := if !shadow_mode
      then output_contig P c1 r.contig_count r.fp else (r.contig_count, r.fp)
    some { r with contigs := rest, contig_count := o.1, fp := o.2 }
  else
    let c1 := { c with seq := c.seq ++ [(g.nodeAt c.curr_node).seq.headD 0],
                       size := c.size + 1 }
    if c1.size ≥ P.MAX_CONTIG_SIZE then none
    else
      let c2 := { c1 with visited_nodes := (g.nodeAt c.curr_node).seq :: c1.visited_nodes }
      let to_linked_node := (g.nodeAt c.curr_node).toNodes
      let c3 := { c2 with curr_node := to_linked_node.headD 0 }
      some { r with
        contigs := to_linked_node.tail.foldl (fun st t => copy_contig c3 t :: st) (c3 :: rest),
        paths_from_root := r.paths_from_root + 1 + to_linked_node.tail.length }

/-- One iteration of the `while` loop of `build_contigs`. -/
def step (P : Params) (g : Graph) (max_paths_from_root max_contigs : Int)
    (stop_on_repeat shadow_mode : Bool) (r : Run) : Option Run :=
  match r.contigs with
  | [] => some r
  | c :: rest =>
    (visit P g stop_on_repeat shadow_mode c rest r).map
      (check_bounds max_paths_from_root max_contigs)

/-- The `while` loop of `build_contigs`, at most `fuel` iterations. -/
def run_loop (P : Params) (g : Graph) (max_paths_from_root max_contigs : Int)
    (stop_on_repeat shadow_mode : Bool) : Nat → Run → Outcome Run
  | fuel, r =>
    if r.contigs.length > 0 ∧ r.status = Status.OK then
      match fuel with
      | 0 => Outcome.timeout
      | fuel + 1 =>
        match step P g max_paths_from_root max_contigs stop_on_repeat shadow_mode r with
        | none => Outcome.fatal
        | some r1 =>
          run_loop P g max_paths_from_root max_contigs stop_on_repeat shadow_mode fuel r1
    else Outcome.done r

/-- The function `build_contigs`: the status returned, with the counter and
the file as it leaves them. -/
def build_contigs (P : Params) (g : Graph) (fuel : Nat) (root : Nat)
    (contig_count : Int) (fp : List record) (max_paths_from_root max_contigs : Int)
    (stop_on_repeat shadow_mode : Bool) : Outcome (Status × Int × List record) :=
  match run_loop P g max_paths_from_root max_contigs stop_on_repeat shadow_mode fuel
      ⟨[new_contig root], contig_count, fp, 1, Status.OK⟩ with
  | Outcome.done r => Outcome.done (r.status, r.contig_count, r.fp)
  | Outcome.fatal => Outcome.fatal
  | Outcome.timeout => Outcome.timeout

/-- The state of the root loop of `assemble`: `contig_count`, the output
file, and `truncate_output`. -/
structure Driver where
  contig_count : Int
  fp : List record
  truncate_output : Bool
  deriving DecidableEq, Repr

/-- The root loop of `assemble`. -/
def assemble_roots (P : Params) (g : Graph) (fuel : Nat)
    (truncate_on_repeat : Bool) (max_contigs max_paths_from_root : Int) :
    List Nat → Driver → Outcome Driver
  | [], d => Outcome.done d
  | root :: root_nodes, d =>
    match build_contigs P g fuel root 0 d.fp max_paths_from_root max_contigs
        truncate_on_repeat true with
    | Outcome.fatal => Outcome.fatal
    | Outcome.timeout => Outcome.timeout
    | Outcome.done (status, _, fp1) =>
      let second : Outcome (Int × List record) :=
        if status = Status.OK then
          match build_contigs P g fuel root d.contig_count fp1 max_paths_from_root
              max_contigs truncate_on_repeat false with
          | Outcome.fatal => Outcome.fatal
          | Outcome.timeout => Outcome.timeout
          | Outcome.done (_, count2, fp2) => Outcome.done (count2, fp2)
        else Outcome.done (d.contig_count, fp1)
      match second with
      | Outcome.fatal => Outcome.fatal
      | Outcome.timeout => Outcome.timeout
      | Outcome.done (count2, fp2) =>
        if status = Status.TOO_MANY_CONTIGS ∨ status = Status.STOPPED_ON_REPEAT then
          Outcome.done ⟨0, fp2, true⟩
        else
          assemble_roots P g fuel truncate_on_repeat max_contigs max_paths_from_root
            root_nodes ⟨count2, fp2, false⟩

/-- The part of `assemble` after the graph is built and pruned: the value
returned and the final content of the output file. -/
def assemble_graph (P : Params) (g : Graph) (fuel : Nat)
    (truncate_on_repeat : Bool) (max_contigs max_paths_from_root : Int) :
    Outcome (Int × List record) :=
  match assemble_roots P g fuel truncate_on_repeat max_contigs max_paths_from_root
      (identify_root_nodes g) ⟨0, [], false⟩ with
  | Outcome.fatal => Outcome.fatal
  | Outcome.timeout => Outcome.timeout
  | Outcome.done d => Outcome.done (d.contig_count, if d.truncate_output then [] else d.fp)

/-- The function `assemble` on the tokens of the input file. -/
def assemble (P : Params) (fuel : Nat) (input : List (List Nat))
    (truncate_on_repeat : Bool) (max_contigs max_paths_from_root : Int) :
    Outcome (Int × List record) :=
  match build_graph P input init_pool with
  | none => Outcome.fatal
  | some g =>
    assemble_graph P (prune_graph P g) fuel truncate_on_repeat max_contigs
      max_paths_from_root

/-! ## Notions used in the statements -/

/-- The parameters of the end-to-end scenarios: `L = 5`, `K = 3`,
`MinContig = 3`, `MinFreq = 1`, `MaxContigBytes = 100`. -/
def scenarioParams : Params := ⟨5, 3, 3, 1, 100⟩

/-- The reads `AAATT` and `AAATG` of the branch scenario. -/
def branchReads : List (List Nat) := [[65, 65, 65, 84, 84], [65, 65, 65, 84, 71]]

/-- The graph `build_graph` makes of `branchReads`, no node pruned. -/
def branchGraph : Graph := (build_graph scenarioParams branchReads init_pool).getD init_pool

/-- The reads `AATAT`, `ATATA`, `CCCGG`: the root `AAT` (node 0) leads into
the cycle `ATA -> TAT -> ATA`, and a chain starts at the root `CCC`
(node 3). -/
def cycleReads : List (List Nat) :=
  [[65, 65, 84, 65, 84], [65, 84, 65, 84, 65], [67, 67, 67, 71, 71]]

/-- The graph `build_graph` makes of `cycleReads`, no node pruned. -/
def cycleGraph : Graph := (build_graph scenarioParams cycleReads init_pool).getD init_pool

/-- The node pointer `i` is a value of the map. -/
def Graph.inTable (g : Graph) (i : Nat) : Prop := i ∈ g.table.map Prod.snd

instance (g : Graph) (i : Nat) : Decidable (g.inTable i) :=
  inferInstanceAs (Decidable (i ∈ g.table.map Prod.snd))

/-- Well-formedness of the graph memory: the keys of the map are distinct,
each entry points to an arena node carrying its key, distinct arena nodes
carry distinct k-mers, the adjacency lists hold pointers that are in the map,
are duplicate-free, and are symmetric. -/
structure WF (g : Graph) : Prop where
  keys_nodup : (g.table.map Prod.fst).Nodup
  entry : ∀ e ∈ g.table, e.2 < g.arena.length ∧ (g.nodeAt e.2).seq = e.1
  seq_inj : ∀ i j, i < g.arena.length → j < g.arena.length →
    (g.nodeAt i).seq = (g.nodeAt j).seq → i = j
  to_in : ∀ i j, j ∈ (g.nodeAt i).toNodes → g.inTable j
  from_in : ∀ i j, j ∈ (g.nodeAt i).fromNodes → g.inTable j
  sym : ∀ i j, j ∈ (g.nodeAt i).toNodes ↔ i ∈ (g.nodeAt j).fromNodes
  to_nodup : ∀ i, (g.nodeAt i).toNodes.Nodup
  from_nodup : ∀ i, (g.nodeAt i).fromNodes.Nodup

/-- Every arena node is in the map (true until `prune_graph` runs). -/
def Covered (g : Graph) : Prop := ∀ i, i < g.arena.length → g.inTable i

/-- The node `increment_node_freq` leaves for a k-mer seen again in the read
slot `s`. -/
def bumped (g : Graph) (curr s : Nat) : node :=
  { g.nodeAt curr with
    frequency := wrapInt ((g.nodeAt curr).frequency + 1),
    hasMultipleUniqueReads :=
      (g.nodeAt curr).hasMultipleUniqueReads || !compare g (g.nodeAt curr).contributingRead s }

/-- The invariant of the loop of `add_to_graph` on the memory and `prev`. -/
def BuildInv (st : Graph × Option Nat) : Prop :=
  WF st.1 ∧ Covered st.1 ∧ ∀ p, st.2 = some p → st.1.inTable p

/-- The fields the loops of `prune_graph` leave alone. -/
def SameData (g h : Graph) : Prop :=
  h.table = g.table ∧ h.arena.length = g.arena.length ∧ h.reads = g.reads ∧
  ∀ k, (h.nodeAt k).seq = (g.nodeAt k).seq ∧ (h.nodeAt k).frequency = (g.nodeAt k).frequency ∧
    (h.nodeAt k).hasMultipleUniqueReads = (g.nodeAt k).hasMultipleUniqueReads ∧
    (h.nodeAt k).contributingRead = (g.nodeAt k).contributingRead


/-- The k-mers of the read `r` in the order `add_to_graph` meets them. -/
def kmersOf (P : Params) (r : List Nat) : List (List Nat) := (offsets P).map (kmerAt P r)

/-- The k-mer occurrences of the reads in the order `build_graph` meets them,
each with the slot of its read; the first read is in slot `s`. -/
def occsFrom (P : Params) : Nat → List (List Nat) → List (List Nat × Nat)
  | _, [] => []
  | s, r :: rs => (kmersOf P r).map (fun k => (k, s)) ++ occsFrom P (s + 1) rs

/-- What the map and the nodes record of the occurrences `tr` met so far: the
keys are the k-mers met, `frequency` counts the occurrences (below `2^31`),
`contributingRead` is the slot of the first occurrence, and
`hasMultipleUniqueReads` tells whether some occurrence lies in a read whose
bytes differ from those of the contributing read. -/
structure DataInv (tr : List (List Nat × Nat)) (g : Graph) : Prop where
  keys : ∀ k, k ∈ g.table.map Prod.fst ↔ k ∈ tr.map Prod.fst
  slots : ∀ o ∈ tr, o.2 < g.reads.length
  freq : ∀ e ∈ g.table, (tr.map Prod.fst).count e.1 < 2147483648 →
    (g.nodeAt e.2).frequency = ((tr.map Prod.fst).count e.1 : Nat)
  first : ∀ e ∈ g.table,
    tr.find? (fun o => o.1 == e.1) = some (e.1, (g.nodeAt e.2).contributingRead)
  flag : ∀ e ∈ g.table, ((g.nodeAt e.2).hasMultipleUniqueReads = true ↔
    ∃ o ∈ tr, o.1 = e.1 ∧
      g.reads.getD o.2 [] ≠ g.reads.getD (g.nodeAt e.2).contributingRead [])

/-- The invariant of the loop of `build_graph` after the reads `done`. -/
def ReadInv (P : Params) (done : List (List Nat)) (g : Graph) : Prop :=
  WF g ∧ Covered g ∧ g.reads = done ∧ DataInv (occsFrom P 0 done) g

/-- The number of occurrences of the k-mer `k` in the reads, every offset of
every read counted. -/
def occurrences (P : Params) (k : List Nat) (reads : List (List Nat)) : Nat :=
  (reads.map (fun r => (kmersOf P r).count k)).sum

/-- The number of input reads in which the k-mer `k` appears. -/
def readsContaining (P : Params) (k : List Nat) (reads : List (List Nat)) : Nat :=
  (reads.filter (fun r => decide (k ∈ kmersOf P r))).length

/-- The read `AAAAA`, which holds the k-mer `AAA` at three offsets. -/
def repeatRead : List (List Nat) := [[65, 65, 65, 65, 65]]

/-- The graph `build_graph` makes of `repeatRead`. -/
def repeatGraph : Graph := (build_graph scenarioParams repeatRead init_pool).getD init_pool

/-- The read `AAATT` twice: two read slots with identical bytes. -/
def twinReads : List (List Nat) := [[65, 65, 65, 84, 84], [65, 65, 65, 84, 84]]

/-- The graph `build_graph` makes of `twinReads`. -/
def twinGraph : Graph := (build_graph scenarioParams twinReads init_pool).getD init_pool

/-- The records of the file carry the identifiers `0, 1, ...` in the order
written, and the counter is their number. -/
def Numbered (contig_count : Int) (fp : List record) : Prop :=
  contig_count = (fp.length : Nat) ∧
  fp.map record.contig_id = (List.range fp.length).map (fun (i : Nat) => (i : Int))

/-- The reads `AATAT`, `ATATA`, `AATAC`, `CCCGG`, `CCCGA`: after pruning with
the scenario parameters the root `CCC` leads to the sink `CCG`, and the root
`AAT` leads into the cycle `ATA -> TAT -> ATA`. -/
def abortReads : List (List Nat) :=
  [[65, 65, 84, 65, 84], [65, 84, 65, 84, 65], [65, 65, 84, 65, 67],
   [67, 67, 67, 71, 71], [67, 67, 67, 71, 65]]

/-- The pruned graph of `abortReads`. -/
def abortGraph : Graph :=
  prune_graph scenarioParams ((build_graph scenarioParams abortReads init_pool).getD init_pool)

/-- The state in which `build_contigs` enters its loop. -/
def start (root : Nat) (contig_count : Int) (fp : List record) : Run :=
  ⟨[new_contig root], contig_count, fp, 1, Status.OK⟩

/-- The state after `n` iterations of the loop of `build_contigs`, when the
loop runs that long (`none` when it has ended before, or the process has). -/
def iterate (P : Params) (g : Graph) (max_paths_from_root max_contigs : Int)
    (stop_on_repeat shadow_mode : Bool) : Nat → Run → Option Run
  | 0, r => some r
  | n + 1, r =>
    if r.contigs.length > 0 ∧ r.status = Status.OK then
      match step P g max_paths_from_root max_contigs stop_on_repeat shadow_mode r with
      | none => none
      | some r1 => iterate P g max_paths_from_root max_contigs stop_on_repeat shadow_mode n r1
    else none

/-- The bytes a contig holds for the nodes on its path: the first byte of each
visited k-mer, oldest first. -/
def pathBytes (c : contig) : List Nat := c.visited_nodes.reverse.map (fun s => s.headD 0)

/-- What holds of every contig on the stack: it is not tagged, `size` and the
bytes written follow the visited set, which has no k-mer twice and holds
k-mers of arena nodes only. -/
def Tracked (g : Graph) (c : contig) : Prop :=
  c.is_repeat = false ∧ c.size = c.visited_nodes.length ∧ c.seq = pathBytes c ∧
  c.visited_nodes.Nodup ∧ ∀ s ∈ c.visited_nodes, s ∈ g.arena.map node.seq

/-- The end (exclusive) of the range of indices of `seq` the loop body writes
when it visits the contig `c`: nothing at a repeat, `KMER` bytes from `size`
on at a sink (`memcpy`), the byte at `size` otherwise. -/
def write_end (P : Params) (g : Graph) (c : contig) : Nat :=
  if is_node_visited g c c.curr_node then 0
  else if (g.nodeAt c.curr_node).toNodes.isEmpty then
    (if P.KMER = 0 then 0 else c.size + P.KMER)
  else c.size + 1

/-- The largest out-degree in the arena. -/
def maxDeg (g : Graph) : Nat := (g.arena.map (fun n => n.toNodes.length)).foldr max 0

/-- The weight of a contig that can still visit `d` k-mers. -/
def weight (D : Nat) : Nat → Nat
  | 0 => 1
  | d + 1 => D * weight D d + 1

/-- The termination measure of the stack of `build_contigs`. -/
def stackMeasure (g : Graph) (contigs : List contig) : Nat :=
  (contigs.map (fun c => weight (maxDeg g) (g.arena.length - c.visited_nodes.length))).sum

/-- The contig the interior branch leaves on the path of `c`, before
`curr_node` is set. -/
def advance (g : Graph) (c : contig) : contig :=
  { c with seq := c.seq ++ [(g.nodeAt c.curr_node).seq.headD 0],
           size := c.size + 1,
           visited_nodes := (g.nodeAt c.curr_node).seq :: c.visited_nodes }


/-- The state of the run from the root `AAT` of `cycleGraph` after three
iterations: the path `AAT, ATA, TAT` is back at `ATA`. -/
def cycleRun : Run :=
  ⟨[⟨[65, 65, 84], 3, false, 1, [[84, 65, 84], [65, 84, 65], [65, 65, 84]]⟩], 0, [], 4,
    Status.OK⟩

/-- The state of the run from the root `AAA` of `branchGraph` after two
iterations: the path `AAA, AAT` has branched, the contig on top is at the sink
`ATT` and the one below at the sink `ATG`. -/
def branchRun : Run :=
  ⟨[⟨[65, 65], 2, false, 2, [[65, 65, 84], [65, 65, 65]]⟩,
    ⟨[65, 65], 2, false, 3, [[65, 65, 84], [65, 65, 65]]⟩], 0, [], 4, Status.OK⟩

/-- The scenario parameters with a contig buffer of 4 bytes. -/
def smallBufferParams : Params := ⟨5, 3, 3, 1, 4⟩

/-- The graph `build_graph` makes of the single read `AAATT`: the chain
`AAA -> AAT -> ATT`. -/
def chainGraph : Graph :=
  (build_graph smallBufferParams [[65, 65, 65, 84, 84]] init_pool).getD init_pool

/-- The reads `CAAAG`, `TAAAC`, `ACCCG`, `TCCCA`: after pruning with the
scenario parameters only the k-mers `AAA` and `CCC` are left, each a root and
a sink. -/
def isolatedReads : List (List Nat) :=
  [[67, 65, 65, 65, 71], [84, 65, 65, 65, 67], [65, 67, 67, 67, 71], [84, 67, 67, 67, 65]]

/-- The graph `assemble` enumerates for `isolatedReads`: built, then pruned. -/
def isolatedGraph : Graph :=
  prune_graph scenarioParams ((build_graph scenarioParams isolatedReads init_pool).getD init_pool)

/-- The invariant of the loop of `build_contigs` for the cap `max_contigs`:
the counter is at most the cap, and below it while the status is `OK`, unless
the loop has not run yet. -/
def CapInv (max_contigs : Int) (root : Nat) (r : Run) : Prop :=
  r.contig_count ≤ max_contigs ∧
  (r.status = Status.OK → r.contig_count < max_contigs ∨ r.contigs = [new_contig root])

/-- The nodes `prune_graph` has removed once it has visited the entries `es`:
those that are weak. -/
def prunedOf (P : Params) (g : Graph) (es : List (List Nat × Nat)) : List Nat :=
  (es.filter (fun e => is_weak P (g.nodeAt e.2))).map Prod.snd

/-- The state of `prune_graph` on the graph `g` once the nodes `pr` are
removed: their entries have left the map, their lists are empty, and they are
filtered out of the lists of the other nodes; nothing else has changed. -/
structure PrunedTo (g : Graph) (pr : List Nat) (h : Graph) : Prop where
  wf : WF h
  table : h.table = g.table.filter (fun e => decide (e.2 ∉ pr))
  data : ∀ k, (h.nodeAt k).frequency = (g.nodeAt k).frequency ∧
    (h.nodeAt k).hasMultipleUniqueReads = (g.nodeAt k).hasMultipleUniqueReads ∧
    (h.nodeAt k).seq = (g.nodeAt k).seq
  to_list : ∀ k, (h.nodeAt k).toNodes =
    if k ∈ pr then [] else (g.nodeAt k).toNodes.filter (fun j => decide (j ∉ pr))
  from_list : ∀ k, (h.nodeAt k).fromNodes =
    if k ∈ pr then [] else (g.nodeAt k).fromNodes.filter (fun j => decide (j ∉ pr))

/-- The number of offsets the loop of `add_to_graph` visits. -/
def nOff (P : Params) : Nat := (offsets P).length

/-- The k-mer `k2` follows the k-mer `k1` in one of the reads `rs`: they lie
at two consecutive offsets of the loop of `add_to_graph`. -/
def Follows (P : Params) (rs : List (List Nat)) (k1 k2 : List Nat) : Prop :=
  ∃ r ∈ rs, ∃ i, i + 1 < nOff P ∧ k1 = kmerAt P r i ∧ k2 = kmerAt P r (i + 1)

/-- The edges of the graph while `add_to_graph` is in the read `r` with `m`
offsets done, the reads `done` being dealt with, and what `prev` is. -/
def EdgeInv (P : Params) (done : List (List Nat)) (r : List Nat) (m : Nat)
    (st : Graph × Option Nat) : Prop :=
  (∀ A B, st.1.inTable A → st.1.inTable B →
    (B ∈ (st.1.nodeAt A).toNodes ↔
      Follows P done (st.1.nodeAt A).seq (st.1.nodeAt B).seq ∨
      ∃ i, i + 1 < m ∧ (st.1.nodeAt A).seq = kmerAt P r i ∧
        (st.1.nodeAt B).seq = kmerAt P r (i + 1))) ∧
  (m = 0 → st.2 = none) ∧
  (0 < m → ∃ p, st.2 = some p ∧ st.1.inTable p ∧ (st.1.nodeAt p).seq = kmerAt P r (m - 1))

/-- The edges of the graph once `build_graph` has dealt with the reads
`done`: `B` is in `A.toNodes` exactly when the k-mer of `B` follows that of
`A` in one of them. -/
def EdgeAll (P : Params) (done : List (List Nat)) (g : Graph) : Prop :=
  ∀ A B, g.inTable A → g.inTable B →
    (B ∈ (g.nodeAt A).toNodes ↔ Follows P done (g.nodeAt A).seq (g.nodeAt B).seq)

/-- The list `w` is a walk of the graph from the node `a`: it starts at `a`
and each node is followed by one of its `toNodes`. -/
inductive Walk (g : Graph) : Nat → List Nat → Prop where
  | single (a : Nat) : Walk g a [a]
  | step (a t : Nat) (q : List Nat) :
      t ∈ (g.nodeAt a).toNodes → Walk g t q → Walk g a (a :: q)

/-- The list `p` is a path of the graph from the node `a` to a sink. -/
inductive SinkPath (g : Graph) : Nat → List Nat → Prop where
  | sink (a : Nat) : (g.nodeAt a).toNodes = [] → SinkPath g a [a]
  | step (a t : Nat) (q : List Nat) :
      t ∈ (g.nodeAt a).toNodes → SinkPath g t q → SinkPath g a (a :: q)

/-- The spelling of a path: the first byte of each node, then the whole k-mer
(`KMER` bytes) of the last one. -/
def spell (P : Params) (g : Graph) : List Nat → List Nat
  | [] => []
  | [a] => (g.nodeAt a).seq.take P.KMER
  | a :: b :: q => (g.nodeAt a).seq.headD 0 :: spell P g (b :: q)

/-- The sequences written for the paths `ps` below a contig holding `pre`:
the spellings that are long enough. -/
def emitted (P : Params) (g : Graph) (pre : List Nat) (ps : List (List Nat)) :
    List (List Nat) :=
  (ps.map (fun p => pre ++ spell P g p)).filter
    (fun s => decide (P.MIN_CONTIG_LENGTH ≤ s.length))

/-- No walk from the current node of the contig meets a k-mer twice or a k-mer
of the visited set. -/
def Fresh (g : Graph) (c : contig) : Prop :=
  ∀ w, Walk g c.curr_node w →
    (w.map (fun n => (g.nodeAt n).seq)).Nodup ∧
    ∀ n ∈ w, (g.nodeAt n).seq ∉ c.visited_nodes

/-- The node the map holds for the k-mer `k` (the probe `(*nodes)[k]`). -/
def nodeOf (g : Graph) (k : List Nat) : Nat := (g.table.lookup k).getD 0

/-- The state of the loop of `build_contigs` after `j` steps along the chain
of a read `r` whose k-mers are pairwise distinct. -/
def chainState (P : Params) (g : Graph) (r : List Nat) (cnt : Int) (fp : List record)
    (j : Nat) : Run :=
  ⟨[⟨r.take j, j, false, nodeOf g (kmerAt P r j),
      ((List.range j).map (kmerAt P r)).reverse⟩], cnt, fp, 1 + (j : Int), Status.OK⟩

/-- The first read, in input order, in which the k-mer `k` occurs. -/
def firstReadWith (k : List Nat) (reads : List (List Nat)) : Option (List Nat) :=
  reads.find? (fun r => decide (k <:+: r))

/-! # Theorems -/

/-! ## The enumerator and the driver: generic facts -/

theorem run_loop_inv (P : Params) (g : Graph) (mp mc : Int) (sr sh : Bool)
    (I : Run → Prop)
    (hstep : ∀ r r1, I r → step P g mp mc sr sh r = some r1 → I r1) :
    ∀ (fuel : Nat) (r r1 : Run), I r → run_loop P g mp mc sr sh fuel r = Outcome.done r1 → I r1 := by
  intro fuel
  induction fuel with
  | zero =>
    intro r r1 hI h
    unfold run_loop at h
    split at h
    · simp at h
    · cases h; exact hI
  | succ n ih =>
    intro r r1 hI h
    unfold run_loop at h
    split at h
    · simp only at h
      split at h
      · simp at h
      · rename_i r2 hs
        exact ih r2 r1 (hstep r r2 hI hs) h
    · cases h; exact hI

theorem check_bounds_fp (mp mc : Int) (r : Run) : (check_bounds mp mc r).fp = r.fp := by
  unfold check_bounds
  simp only
  split <;> split <;> rfl

theorem assemble_roots_cons (P : Params) (g : Graph) (fuel : Nat) (tor : Bool)
    (mc mp : Int) (root : Nat) (root_nodes : List Nat) (d : Driver) :
    assemble_roots P g fuel tor mc mp (root :: root_nodes) d =
    match build_contigs P g fuel root 0 d.fp mp mc tor true with
    | Outcome.fatal => Outcome.fatal
    | Outcome.timeout => Outcome.timeout
    | Outcome.done (status, _, fp1) =>
      let second : Outcome (Int × List record) :=
        if status = Status.OK then
          match build_contigs P g fuel root d.contig_count fp1 mp mc tor false with
          | Outcome.fatal => Outcome.fatal
          | Outcome.timeout => Outcome.timeout
          | Outcome.done (_, count2, fp2) => Outcome.done (count2, fp2)
        else Outcome.done (d.contig_count, fp1)
      match second with
      | Outcome.fatal => Outcome.fatal
      | Outcome.timeout => Outcome.timeout
      | Outcome.done (count2, fp2) =>
        if status = Status.TOO_MANY_CONTIGS ∨ status = Status.STOPPED_ON_REPEAT then
          Outcome.done ⟨0, fp2, true⟩
        else
          assemble_roots P g fuel tor mc mp root_nodes ⟨count2, fp2, false⟩ := by
  rw [assemble_roots]

theorem assemble_roots_append (P : Params) (g : Graph) (fuel : Nat) (tor : Bool)
    (mc mp : Int) (post : List Nat) : ∀ (pre : List Nat) (d d1 : Driver),
    assemble_roots P g fuel tor mc mp pre d = Outcome.done d1 →
    d1.truncate_output = false →
    assemble_roots P g fuel tor mc mp (pre ++ post) d
      = assemble_roots P g fuel tor mc mp post d1 := by
  intro pre
  induction pre with
  | nil =>
    intro d d1 h _
    simp only [assemble_roots, Outcome.done.injEq] at h
    subst h; rfl
  | cons root pre ih =>
    intro d d1 h ht
    rw [List.cons_append, assemble_roots_cons]
    rw [assemble_roots_cons] at h
    cases h1 : build_contigs P g fuel root 0 d.fp mp mc tor true with
    | fatal => simp [h1] at h
    | timeout => simp [h1] at h
    | done x =>
      obtain ⟨status, cnt, fp1⟩ := x
      simp only [h1] at h ⊢
      by_cases hst : status = Status.OK
      · simp only [hst, if_true] at h ⊢
        cases h2 : build_contigs P g fuel root d.contig_count fp1 mp mc tor false with
        | fatal => simp [h2] at h
        | timeout => simp [h2] at h
        | done y =>
          obtain ⟨s2, c2, fp2⟩ := y
          simp only [h2] at h ⊢
          simp at h ⊢
          exact ih _ d1 h ht
      · simp only [hst, if_false] at h ⊢
        split at h
        · cases h; simp at ht
        · rename_i hno
          simp only [hno, if_false]
          exact ih _ d1 h ht

theorem assemble_roots_abort (P : Params) (g : Graph) (fuel : Nat) (tor : Bool)
    (mc mp : Int) (root : Nat) (post : List Nat) (d : Driver) (st : Status) (cnt : Int)
    (fp1 : List record)
    (h1 : build_contigs P g fuel root 0 d.fp mp mc tor true = Outcome.done (st, cnt, fp1))
    (hst : st = Status.TOO_MANY_CONTIGS ∨ st = Status.STOPPED_ON_REPEAT) :
    assemble_roots P g fuel tor mc mp (root :: post) d = Outcome.done ⟨0, fp1, true⟩ := by
  rw [assemble_roots_cons]
  simp only [h1]
  have hne : st ≠ Status.OK := by rcases hst with h | h <;> simp [h]
  simp only [hne, if_false, hst, if_true]

/-! ## C8: the emission threshold -/

/-- C9: when the roots before `root` have been processed without abort and the
shadow pass of `root` returns `TOO_MANY_CONTIGS` or `STOPPED_ON_REPEAT`, the
file `assemble` leaves is empty, the records of the earlier roots included,
and the root loop ends there: its result is the same whatever roots follow. -/
theorem C9_abort_truncates (P : Params) (g : Graph) (fuel : Nat)
    (truncate_on_repeat : Bool) (max_contigs max_paths_from_root : Int)
    (pre post : List Nat) (root : Nat) (d1 : Driver) (st : Status) (cnt : Int)
    (fp1 : List record)
    (hroots : identify_root_nodes g = pre ++ root :: post)
    (hpre : assemble_roots P g fuel truncate_on_repeat max_contigs max_paths_from_root
      pre ⟨0, [], false⟩ = Outcome.done d1)
    (hlive : d1.truncate_output = false)
    (hshadow : build_contigs P g fuel root 0 d1.fp max_paths_from_root max_contigs
      truncate_on_repeat true = Outcome.done (st, cnt, fp1))
    (hst : st = Status.TOO_MANY_CONTIGS ∨ st = Status.STOPPED_ON_REPEAT) :
    (∃ n, assemble_graph P g fuel truncate_on_repeat max_contigs max_paths_from_root
      = Outcome.done (n, [])) ∧
    ∀ later : List Nat,
      assemble_roots P g fuel truncate_on_repeat max_contigs max_paths_from_root
        (pre ++ root :: later) ⟨0, [], false⟩ = Outcome.done ⟨0, fp1, true⟩ := by
  have key : ∀ later : List Nat,
      assemble_roots P g fuel truncate_on_repeat max_contigs max_paths_from_root
        (pre ++ root :: later) ⟨0, [], false⟩ = Outcome.done ⟨0, fp1, true⟩ := by
    intro later
    rw [assemble_roots_append P g fuel truncate_on_repeat max_contigs max_paths_from_root
      (root :: later) pre _ d1 hpre hlive]
    exact assemble_roots_abort P g fuel truncate_on_repeat max_contigs max_paths_from_root
      root later d1 st cnt fp1 hshadow hst
  refine ⟨⟨0, ?_⟩, key⟩
  unfold assemble_graph
  rw [hroots, key post]
  rfl

theorem C9_abort_truncates_witness :
    identify_root_nodes cycleGraph = [3] ++ 0 :: [] ∧
    assemble_roots scenarioParams cycleGraph 20 true 10 100 [3] ⟨0, [], false⟩
      = Outcome.done ⟨1, [⟨0, false, [67, 67, 67, 71, 71]⟩], false⟩ ∧
    (∃ n, assemble_graph scenarioParams cycleGraph 20 true 10 100 = Outcome.done (n, [])) :=
  ⟨by decide!, by decide!,
    (C9_abort_truncates scenarioParams cycleGraph 20 true 10 100 [3] [] 0
      ⟨1, [⟨0, false, [67, 67, 67, 71, 71]⟩], false⟩ Status.STOPPED_ON_REPEAT 0
      [⟨0, false, [67, 67, 67, 71, 71]⟩] (by decide!) (by decide!) rfl (by decide!)
      (Or.inr rfl)).1⟩

/-! ## C10: the contig cap is not seen by the shadow pass -/

/-- C10: on the reads `AAATT` and `AAATG` (`K = 3`, `L = 5`, no node pruned)
with `max_contigs = 1`, the shadow pass of the root `AAA` returns `OK` with its
counter still 0, the emission pass returns `TOO_MANY_CONTIGS` after writing
one record, and `assemble` keeps that record: the file is not empty. -/
theorem C10_cap_not_reported_by_shadow :
    build_graph scenarioParams branchReads init_pool = some branchGraph ∧
    identify_root_nodes branchGraph = [0] ∧
    build_contigs scenarioParams branchGraph 20 0 0 [] 1000 1 false true
      = Outcome.done (Status.OK, 0, []) ∧
    build_contigs scenarioParams branchGraph 20 0 0 [] 1000 1 false false
      = Outcome.done (Status.TOO_MANY_CONTIGS, 1, [⟨0, false, [65, 65, 65, 84, 84]⟩]) ∧
    assemble_graph scenarioParams branchGraph 20 false 1 1000
      = Outcome.done (1, [⟨0, false, [65, 65, 65, 84, 84]⟩]) := by
  decide!

/-! ## Memory: loads and stores through node pointers -/

theorem nodeAt_setNode (g : Graph) (i j : Nat) (n : node) :
    (g.setNode i n).nodeAt j = if i = j ∧ i < g.arena.length then n else g.nodeAt j := by
  unfold Graph.setNode Graph.nodeAt
  simp only [List.getD_eq_getElem?_getD, List.getElem?_set]
  by_cases hij : i = j
  · subst hij
    by_cases hlt : i < g.arena.length
    · simp [hlt]
    · simp [hlt, List.getElem?_eq_none (Nat.le_of_not_lt hlt)]
  · simp [hij]

theorem nodeAt_setNode_self (g : Graph) (i : Nat) (n : node) (h : i < g.arena.length) :
    (g.setNode i n).nodeAt i = n := by
  rw [nodeAt_setNode]; simp [h]

theorem nodeAt_setNode_ne (g : Graph) (i j : Nat) (n : node) (h : i ≠ j) :
    (g.setNode i n).nodeAt j = g.nodeAt j := by
  rw [nodeAt_setNode]; simp [h]

theorem setNode_same (g : Graph) (i : Nat) :
    (g.setNode i (g.nodeAt i)).arena = g.arena := by
  unfold Graph.setNode Graph.nodeAt
  simp only
  apply List.ext_getElem?
  intro j
  rw [List.getElem?_set, List.getD_eq_getElem?_getD]
  by_cases hij : i = j
  · subst hij
    by_cases hlt : i < g.arena.length
    · simp [hlt, List.getElem?_eq_getElem hlt]
    · simp [hlt, List.getElem?_eq_none (Nat.le_of_not_lt hlt)]
  · simp [hij]

@[simp] theorem setNode_table (g : Graph) (i : Nat) (n : node) :
    (g.setNode i n).table = g.table := rfl

@[simp] theorem setNode_reads (g : Graph) (i : Nat) (n : node) :
    (g.setNode i n).reads = g.reads := rfl

@[simp] theorem setNode_length (g : Graph) (i : Nat) (n : node) :
    (g.setNode i n).arena.length = g.arena.length := by
  unfold Graph.setNode; simp

theorem nodeAt_default (g : Graph) (i : Nat) (h : g.arena.length ≤ i) :
    g.nodeAt i = default := by
  unfold Graph.nodeAt
  exact List.getD_eq_default _ _ h

/-! ## `foldlO` -/

theorem foldlO_append {σ α : Type} (f : σ → α → Option σ) (s : σ) (l1 l2 : List α) :
    foldlO f s (l1 ++ l2) = (foldlO f s l1).bind (fun s1 => foldlO f s1 l2) := by
  induction l1 generalizing s with
  | nil => rfl
  | cons a l ih =>
    simp only [List.cons_append, foldlO]
    cases f s a with
    | none => rfl
    | some s1 => exact ih s1

theorem foldlO_inv {σ α : Type} (f : σ → α → Option σ) (I : List α → σ → Prop)
    (hstep : ∀ (done : List α) (a : α) (s s1 : σ), I done s → f s a = some s1 →
      I (done ++ [a]) s1) :
    ∀ (l done : List α) (s s1 : σ), I done s → foldlO f s l = some s1 → I (done ++ l) s1 := by
  intro l
  induction l with
  | nil =>
    intro done s s1 hI h
    simp only [foldlO, Option.some.injEq] at h
    subst h; simpa using hI
  | cons a l ih =>
    intro done s s1 hI h
    simp only [foldlO] at h
    cases hf : f s a with
    | none => simp [hf] at h
    | some s2 =>
      simp only [hf] at h
      have := ih (done ++ [a]) s2 s1 (hstep done a s s2 hI hf) h
      simpa using this

/-! ## The graph builder: effect of each operation -/

theorem inTable_lt (g : Graph) (h : WF g) (i : Nat) (hi : g.inTable i) :
    i < g.arena.length := by
  unfold Graph.inTable at hi
  rw [List.mem_map] at hi
  obtain ⟨e, he, rfl⟩ := hi
  exact (h.entry e he).1

theorem is_node_in_list_iff (g : Graph) (h : WF g) (n : Nat) (hn : n < g.arena.length)
    (l : List Nat) (hl : ∀ p ∈ l, g.inTable p) :
    is_node_in_list g n l = true ↔ n ∈ l := by
  unfold is_node_in_list
  rw [List.any_eq_true]
  constructor
  · rintro ⟨p, hp, hseq⟩
    have := h.seq_inj p n (inTable_lt g h p (hl p hp)) hn (by simpa using hseq)
    rw [← this]; exact hp
  · intro hmem
    exact ⟨n, hmem, by simp⟩

theorem link_nodes_table (g : Graph) (a b : Nat) : (link_nodes g a b).table = g.table := by
  unfold link_nodes
  simp only
  split <;> split <;> rfl

theorem link_nodes_reads (g : Graph) (a b : Nat) : (link_nodes g a b).reads = g.reads := by
  unfold link_nodes
  simp only
  split <;> split <;> rfl

theorem link_nodes_length (g : Graph) (a b : Nat) :
    (link_nodes g a b).arena.length = g.arena.length := by
  unfold link_nodes
  simp only
  split <;> split <;> simp

/-- What `link_nodes` leaves in each node, when both pointers are valid. -/
theorem link_nodes_nodeAt (g : Graph) (a b : Nat) (ha : a < g.arena.length)
    (hb : b < g.arena.length) (j : Nat) :
    (link_nodes g a b).nodeAt j =
      { g.nodeAt j with
        toNodes := if j = a ∧ is_node_in_list g b (g.nodeAt a).toNodes = false
          then b :: (g.nodeAt j).toNodes else (g.nodeAt j).toNodes,
        fromNodes := if j = b ∧ is_node_in_list g a (g.nodeAt b).fromNodes = false
          then a :: (g.nodeAt j).fromNodes else (g.nodeAt j).fromNodes } := by
  have key : ∀ (g1 : Graph), (∀ k, (g1.nodeAt k).seq = (g.nodeAt k).seq) →
      (∀ k, (g1.nodeAt k).fromNodes = (g.nodeAt k).fromNodes) →
      is_node_in_list g1 a (g1.nodeAt b).fromNodes
        = is_node_in_list g a (g.nodeAt b).fromNodes := by
    intro g1 h1 h2
    unfold is_node_in_list
    rw [h2 b]
    congr 1
    funext p
    rw [h1 p, h1 a]
  unfold link_nodes
  simp only
  by_cases hT : is_node_in_list g b (g.nodeAt a).toNodes = true
  · simp only [hT, Bool.not_true, Bool.false_eq_true, if_false]
    by_cases hF : is_node_in_list g a (g.nodeAt b).fromNodes = true
    · simp [hF]
    · simp only [hF, Bool.not_eq_true] at hF ⊢
      simp only [hF, Bool.not_false, if_true]
      rw [nodeAt_setNode]
      by_cases hjb : b = j
      · subst hjb; simp [hb]
      · have : ¬ j = b := fun h => hjb h.symm
        simp [hjb, this]
  · simp only [Bool.not_eq_true] at hT
    simp only [hT, Bool.not_false, if_true]
    have hseq : ∀ k, ((g.setNode a { g.nodeAt a with toNodes := b :: (g.nodeAt a).toNodes }).nodeAt k).seq
        = (g.nodeAt k).seq := by
      intro k; rw [nodeAt_setNode]; split
      · rename_i h; rw [← h.1]
      · rfl
    have hfrom : ∀ k, ((g.setNode a { g.nodeAt a with toNodes := b :: (g.nodeAt a).toNodes }).nodeAt k).fromNodes
        = (g.nodeAt k).fromNodes := by
      intro k; rw [nodeAt_setNode]; split
      · rename_i h; rw [← h.1]
      · rfl
    rw [key _ hseq hfrom]
    by_cases hF : is_node_in_list g a (g.nodeAt b).fromNodes = true
    · simp only [hF, Bool.not_true, Bool.false_eq_true, if_false, and_false]
      rw [nodeAt_setNode]
      by_cases hja : a = j
      · subst hja; simp [ha]
      · have : ¬ j = a := fun h => hja h.symm
        simp [hja, this]
    · simp only [Bool.not_eq_true] at hF
      simp only [hF, Bool.not_false, if_true, and_true]
      simp only [nodeAt_setNode, setNode_length]
      by_cases hjb : b = j
      · subst hjb
        by_cases hja : a = b
        · subst hja; simp [ha]
        · have : ¬ b = a := fun h => hja h.symm
          simp [hb, hja, this]
      · have h1 : ¬ j = b := fun h => hjb h.symm
        by_cases hja : a = j
        · subst hja; simp [ha, hjb, h1]
        · have h2 : ¬ j = a := fun h => hja h.symm
          simp [hjb, h1, hja, h2]

theorem link_nodes_mem_to (g : Graph) (h : WF g) (a b : Nat) (ha : g.inTable a)
    (hb : g.inTable b) (i j : Nat) :
    j ∈ ((link_nodes g a b).nodeAt i).toNodes ↔
      j ∈ (g.nodeAt i).toNodes ∨ (i = a ∧ j = b) := by
  have hal := inTable_lt g h a ha
  have hbl := inTable_lt g h b hb
  rw [link_nodes_nodeAt g a b hal hbl i]
  simp only
  have hiff := is_node_in_list_iff g h b hbl (g.nodeAt a).toNodes (fun p hp => h.to_in a p hp)
  by_cases hia : i = a
  · subst hia
    by_cases hT : is_node_in_list g b (g.nodeAt i).toNodes = true
    · have hm := hiff.1 hT
      simp only [hT, Bool.true_eq_false, and_false, if_false, true_and]
      constructor
      · intro x; exact Or.inl x
      · rintro (x | x)
        · exact x
        · rw [x]; exact hm
    · simp only [Bool.not_eq_true] at hT
      simp only [hT, and_self, if_true, List.mem_cons, true_and]
      tauto
  · simp [hia]

theorem link_nodes_mem_from (g : Graph) (h : WF g) (a b : Nat) (ha : g.inTable a)
    (hb : g.inTable b) (i j : Nat) :
    j ∈ ((link_nodes g a b).nodeAt i).fromNodes ↔
      j ∈ (g.nodeAt i).fromNodes ∨ (i = b ∧ j = a) := by
  have hal := inTable_lt g h a ha
  have hbl := inTable_lt g h b hb
  rw [link_nodes_nodeAt g a b hal hbl i]
  simp only
  have hiff := is_node_in_list_iff g h a hal (g.nodeAt b).fromNodes (fun p hp => h.from_in b p hp)
  by_cases hib : i = b
  · subst hib
    by_cases hF : is_node_in_list g a (g.nodeAt i).fromNodes = true
    · have hm := hiff.1 hF
      simp only [hF, Bool.true_eq_false, and_false, if_false, true_and]
      constructor
      · intro x; exact Or.inl x
      · rintro (x | x)
        · exact x
        · rw [x]; exact hm
    · simp only [Bool.not_eq_true] at hF
      simp only [hF, and_self, if_true, List.mem_cons, true_and]
      tauto
  · simp [hib]

theorem link_nodes_seq (g : Graph) (a b : Nat) (ha : a < g.arena.length)
    (hb : b < g.arena.length) (j : Nat) :
    ((link_nodes g a b).nodeAt j).seq = (g.nodeAt j).seq := by
  rw [link_nodes_nodeAt g a b ha hb j]

theorem link_nodes_WF (g : Graph) (h : WF g) (a b : Nat) (ha : g.inTable a)
    (hb : g.inTable b) : WF (link_nodes g a b) := by
  have hal := inTable_lt g h a ha
  have hbl := inTable_lt g h b hb
  have htab : ∀ i, (link_nodes g a b).inTable i ↔ g.inTable i := by
    intro i; unfold Graph.inTable; rw [link_nodes_table]
  refine ⟨?_, ?_, ?_, ?_, ?_, ?_, ?_, ?_⟩
  · rw [link_nodes_table]; exact h.keys_nodup
  · intro e he
    rw [link_nodes_table] at he
    rw [link_nodes_length, link_nodes_seq g a b hal hbl]
    exact h.entry e he
  · intro i j hi hj hs
    rw [link_nodes_length] at hi hj
    rw [link_nodes_seq g a b hal hbl, link_nodes_seq g a b hal hbl] at hs
    exact h.seq_inj i j hi hj hs
  · intro i j hj
    rw [htab]
    rcases (link_nodes_mem_to g h a b ha hb i j).1 hj with x | ⟨_, x⟩
    · exact h.to_in i j x
    · rw [x]; exact hb
  · intro i j hj
    rw [htab]
    rcases (link_nodes_mem_from g h a b ha hb i j).1 hj with x | ⟨_, x⟩
    · exact h.from_in i j x
    · rw [x]; exact ha
  · intro i j
    rw [link_nodes_mem_to g h a b ha hb, link_nodes_mem_from g h a b ha hb, h.sym i j]
    tauto
  · intro i
    rw [link_nodes_nodeAt g a b hal hbl i]
    simp only
    split
    · rename_i hc
      obtain ⟨rfl, hc⟩ := hc
      have hiff := is_node_in_list_iff g h b hbl (g.nodeAt i).toNodes
        (fun p hp => h.to_in i p hp)
      refine List.nodup_cons.2 ⟨?_, h.to_nodup i⟩
      intro hm
      rw [hiff.2 hm] at hc
      exact Bool.noConfusion hc
    · exact h.to_nodup i
  · intro i
    rw [link_nodes_nodeAt g a b hal hbl i]
    simp only
    split
    · rename_i hc
      obtain ⟨rfl, hc⟩ := hc
      have hiff := is_node_in_list_iff g h a hal (g.nodeAt i).fromNodes
        (fun p hp => h.from_in i p hp)
      refine List.nodup_cons.2 ⟨?_, h.from_nodup i⟩
      intro hm
      rw [hiff.2 hm] at hc
      exact Bool.noConfusion hc
    · exact h.from_nodup i

theorem lookup_eq_none_iff (t : List (List Nat × Nat)) (k : List Nat) :
    t.lookup k = none ↔ k ∉ t.map Prod.fst := by
  induction t with
  | nil => simp [List.lookup]
  | cons e t ih =>
    obtain ⟨k1, v⟩ := e
    rw [List.lookup_cons]
    by_cases hk : k = k1
    · subst hk; simp
    · have : (k == k1) = false := by simpa using hk
      simp [this, ih, hk]

theorem lookup_eq_some_mem (t : List (List Nat × Nat)) (k : List Nat) (v : Nat)
    (h : t.lookup k = some v) : (k, v) ∈ t := by
  induction t with
  | nil => simp [List.lookup] at h
  | cons e t ih =>
    obtain ⟨k1, v1⟩ := e
    rw [List.lookup_cons] at h
    by_cases hk : k = k1
    · subst hk
      simp at h
      subst h; simp
    · have : (k == k1) = false := by simpa using hk
      simp only [this] at h
      exact List.mem_cons_of_mem _ (ih h)

theorem allocate_kmer_some (g ga : Graph) (h : allocate_kmer g = some ga) :
    ga.table = g.table ∧ ga.arena = g.arena ∧ ga.reads = g.reads := by
  unfold allocate_kmer at h
  split at h
  · simp at h
  · simp only [Option.some.injEq] at h
    subst h
    split <;> simp

theorem new_node_some (g g2 : Graph) (k : List Nat) (s c : Nat)
    (h : new_node g k s = some (g2, c)) :
    c = g.arena.length ∧ g2.arena = g.arena ++ [⟨k, 1, [], [], s, false⟩] ∧
      g2.table = g.table ∧ g2.reads = g.reads := by
  unfold new_node allocate_node at h
  split at h
  · simp at h
  · rename_i ga p hsome
    split at hsome
    · simp at hsome
    · simp only [Option.some.injEq, Prod.mk.injEq] at hsome h
      obtain ⟨h1, h2⟩ := hsome
      obtain ⟨h3, h4⟩ := h
      subst h1 h2 h3 h4
      split <;> simp [Graph.setNode]

theorem increment_node_freq_eq (g : Graph) (c s : Nat) :
    (increment_node_freq g c s).arena = g.arena.set c (bumped g c s) ∧
      (increment_node_freq g c s).table = g.table ∧
      (increment_node_freq g c s).reads = g.reads := by
  unfold increment_node_freq bumped
  refine ⟨?_, rfl, rfl⟩
  simp only [Graph.setNode]
  congr 1
  cases (g.nodeAt c).hasMultipleUniqueReads <;>
    cases compare g (g.nodeAt c).contributingRead s <;> simp

theorem get_kmer_some (P : Params) (i s : Nat) (g ga : Graph) (k : List Nat)
    (h : get_kmer P i s g = some (ga, k)) :
    k = kmerAt P (g.reads.getD s []) i ∧
      ga.table = g.table ∧ ga.arena = g.arena ∧ ga.reads = g.reads := by
  unfold get_kmer at h
  split at h
  · exact Option.noConfusion h
  · rename_i g1 hk
    injection h with h
    injection h with h1 h2
    subst h1
    exact ⟨h2.symm, allocate_kmer_some g g1 hk⟩

/-- The two outcomes of the probe: a new node at the end of the arena, or the
found node counted once more. -/
theorem probe_cases (ga g3 : Graph) (k : List Nat) (s curr : Nat)
    (h : probe ga k s = some (g3, curr)) :
    g3.reads = ga.reads ∧
    ((ga.table.lookup k = none ∧ curr = ga.arena.length ∧
        g3.table = ga.table ++ [(k, curr)] ∧
        g3.arena = ga.arena ++ [⟨k, 1, [], [], s, false⟩]) ∨
     (ga.table.lookup k = some curr ∧ g3.table = ga.table ∧
        g3.arena = ga.arena.set curr (bumped ga curr s))) := by
  unfold probe at h
  split at h
  · rename_i hl
    split at h
    · exact Option.noConfusion h
    · rename_i g2 c hn
      obtain ⟨hc, ha, ht, hr⟩ := new_node_some ga g2 k s c hn
      injection h with h
      injection h with h1 h2
      subst h1 h2
      exact ⟨hr, Or.inl ⟨hl, hc, by simp [ht], ha⟩⟩
  · rename_i c hl
    injection h with h
    injection h with h1 h2
    subst h1 h2
    obtain ⟨ha, ht, hr⟩ := increment_node_freq_eq (unget_kmer ga) c s
    refine ⟨hr, Or.inr ⟨hl, ht, ?_⟩⟩
    rw [ha]
    rfl

/-- One iteration of `add_to_graph` is a probe followed by the link from
`prev`. -/
theorem add_kmer_cases (P : Params) (s : Nat) (g : Graph) (prev : Option Nat) (i : Nat)
    (g1 : Graph) (prev1 : Option Nat)
    (h : add_kmer P s (g, prev) i = some (g1, prev1)) :
    ∃ (ga gm : Graph) (curr : Nat),
      ga.table = g.table ∧ ga.arena = g.arena ∧ ga.reads = g.reads ∧
      probe ga (kmerAt P (g.reads.getD s []) i) s = some (gm, curr) ∧
      prev1 = some curr ∧
      g1 = link_prev gm prev curr := by
  unfold add_kmer at h
  split at h
  · exact Option.noConfusion h
  · rename_i ga k hk
    obtain ⟨hkk, ht, ha, hr⟩ := get_kmer_some P i s g ga k hk
    split at h
    · exact Option.noConfusion h
    · rename_i gm curr hp
      injection h with h
      injection h with h1 h2
      subst hkk
      exact ⟨ga, gm, curr, ht, ha, hr, hp, h2.symm, h1.symm⟩

/-! ## The graph builder keeps the memory well-formed -/

theorem WF_congr (g g1 : Graph) (h : WF g) (ht : g1.table = g.table)
    (hl : g1.arena.length = g.arena.length)
    (hs : ∀ j, (g1.nodeAt j).seq = (g.nodeAt j).seq)
    (hto : ∀ j, (g1.nodeAt j).toNodes = (g.nodeAt j).toNodes)
    (hfrom : ∀ j, (g1.nodeAt j).fromNodes = (g.nodeAt j).fromNodes) : WF g1 := by
  have htab : ∀ i, g1.inTable i ↔ g.inTable i := by
    intro i; unfold Graph.inTable; rw [ht]
  refine ⟨?_, ?_, ?_, ?_, ?_, ?_, ?_, ?_⟩
  · rw [ht]; exact h.keys_nodup
  · intro e he; rw [ht] at he; rw [hl, hs]; exact h.entry e he
  · intro i j hi hj hij; rw [hl] at hi hj; rw [hs, hs] at hij; exact h.seq_inj i j hi hj hij
  · intro i j hj; rw [hto] at hj; rw [htab]; exact h.to_in i j hj
  · intro i j hj; rw [hfrom] at hj; rw [htab]; exact h.from_in i j hj
  · intro i j; rw [hto, hfrom]; exact h.sym i j
  · intro i; rw [hto]; exact h.to_nodup i
  · intro i; rw [hfrom]; exact h.from_nodup i

theorem nodeAt_of_arena_append (g g1 : Graph) (n : node)
    (ha : g1.arena = g.arena ++ [n]) (j : Nat) :
    g1.nodeAt j = if j < g.arena.length then g.nodeAt j
      else if j = g.arena.length then n else default := by
  unfold Graph.nodeAt
  rw [ha, List.getD_eq_getElem?_getD, List.getD_eq_getElem?_getD, List.getElem?_append]
  by_cases h1 : j < g.arena.length
  · simp [h1]
  · simp only [h1, if_false]
    by_cases h2 : j = g.arena.length
    · subst h2; simp
    · have : 0 < j - g.arena.length := by omega
      simp only [h2, if_false]
      rw [List.getElem?_eq_none (by simp; omega)]
      rfl

theorem nodeAt_of_arena_set (g g1 : Graph) (c : Nat) (n : node)
    (ha : g1.arena = g.arena.set c n) (j : Nat) :
    g1.nodeAt j = if c = j ∧ c < g.arena.length then n else g.nodeAt j := by
  have : g1.nodeAt j = (g.setNode c n).nodeAt j := by
    unfold Graph.nodeAt Graph.setNode; rw [ha]
  rw [this, nodeAt_setNode]

theorem mem_keys_of_covered (g : Graph) (h : WF g) (hc : Covered g) (j : Nat)
    (hj : j < g.arena.length) : (g.nodeAt j).seq ∈ g.table.map Prod.fst := by
  have := hc j hj
  unfold Graph.inTable at this
  rw [List.mem_map] at this
  obtain ⟨e, he, hej⟩ := this
  rw [List.mem_map]
  refine ⟨e, he, ?_⟩
  rw [← hej]; exact ((h.entry e he).2).symm

theorem default_node_fields :
    (default : node).seq = [] ∧ (default : node).toNodes = [] ∧
      (default : node).fromNodes = [] := ⟨rfl, rfl, rfl⟩

/-- The probe keeps the memory well-formed and covered, keeps what was in the
map, and returns a node of the map. -/
theorem probe_WF (ga gm : Graph) (k : List Nat) (s curr : Nat) (h : WF ga)
    (hc : Covered ga) (hp : probe ga k s = some (gm, curr)) :
    WF gm ∧ Covered gm ∧ gm.inTable curr ∧ (∀ i, ga.inTable i → gm.inTable i) := by
  obtain ⟨_, hcase⟩ := probe_cases ga gm k s curr hp
  rcases hcase with ⟨hl, hcurr, ht, ha⟩ | ⟨hl, ht, ha⟩
  · have hk : k ∉ ga.table.map Prod.fst := (lookup_eq_none_iff ga.table k).1 hl
    have hn := nodeAt_of_arena_append ga gm _ ha
    have hlen : gm.arena.length = ga.arena.length + 1 := by rw [ha]; simp
    have hmono : ∀ i, ga.inTable i → gm.inTable i := by
      intro i hi; unfold Graph.inTable at hi ⊢; rw [ht]; simp at hi ⊢; tauto
    have hnew : gm.inTable curr := by
      unfold Graph.inTable; rw [ht]; simp
    have hold : ∀ j, j < ga.arena.length → gm.nodeAt j = ga.nodeAt j := by
      intro j hj; rw [hn]; simp [hj]
    have hlists : ∀ j, (gm.nodeAt j).toNodes = (ga.nodeAt j).toNodes ∧
        (gm.nodeAt j).fromNodes = (ga.nodeAt j).fromNodes := by
      intro j
      by_cases hj : j < ga.arena.length
      · rw [hold j hj]; exact ⟨rfl, rfl⟩
      · rw [hn, nodeAt_default ga j (by omega)]
        simp only [hj, if_false]
        split <;> exact ⟨rfl, rfl⟩
    refine ⟨⟨?_, ?_, ?_, ?_, ?_, ?_, ?_, ?_⟩, ?_, hnew, hmono⟩
    · rw [ht, List.map_append, List.nodup_append]
      refine ⟨h.keys_nodup, by simp, ?_⟩
      intro x hx hx2
      simp at hx2
      rw [hx2] at hx; exact hk hx
    · intro e he
      rw [ht, List.mem_append] at he
      rcases he with he | he
      · have := h.entry e he
        rw [hlen, hold e.2 this.1]
        exact ⟨by omega, this.2⟩
      · simp at he
        subst he
        rw [hlen, hn, hcurr]
        simp
    · intro i j hi hj hij
      rw [hlen] at hi hj
      rw [hn i, hn j] at hij
      by_cases hi1 : i < ga.arena.length
      · by_cases hj1 : j < ga.arena.length
        · simp only [hi1, hj1, if_true] at hij
          exact h.seq_inj i j hi1 hj1 hij
        · have hj2 : j = ga.arena.length := by omega
          simp only [hi1, hj1, hj2, if_true, if_false, lt_irrefl] at hij
          exact absurd (hij ▸ mem_keys_of_covered ga h hc i hi1) hk
      · have hi2 : i = ga.arena.length := by omega
        by_cases hj1 : j < ga.arena.length
        · simp only [hi1, hj1, hi2, if_true, if_false, lt_irrefl] at hij
          exact absurd (hij ▸ mem_keys_of_covered ga h hc j hj1) hk
        · omega
    · intro i j hj
      rw [(hlists i).1] at hj
      exact hmono j (h.to_in i j hj)
    · intro i j hj
      rw [(hlists i).2] at hj
      exact hmono j (h.from_in i j hj)
    · intro i j
      rw [(hlists i).1, (hlists j).2]
      exact h.sym i j
    · intro i; rw [(hlists i).1]; exact h.to_nodup i
    · intro i; rw [(hlists i).2]; exact h.from_nodup i
    · intro i hi
      rw [hlen] at hi
      by_cases hi1 : i < ga.arena.length
      · exact hmono i (hc i hi1)
      · have : i = curr := by omega
        rw [this]; exact hnew
  · have hmem := lookup_eq_some_mem ga.table k curr hl
    have hn := nodeAt_of_arena_set ga gm curr _ ha
    have hlen : gm.arena.length = ga.arena.length := by rw [ha]; simp
    have hin : ∀ i, gm.inTable i ↔ ga.inTable i := by
      intro i; unfold Graph.inTable; rw [ht]
    have hf : ∀ j, (gm.nodeAt j).seq = (ga.nodeAt j).seq ∧
        (gm.nodeAt j).toNodes = (ga.nodeAt j).toNodes ∧
        (gm.nodeAt j).fromNodes = (ga.nodeAt j).fromNodes := by
      intro j
      rw [hn]
      split
      · rename_i hcj
        rw [← hcj.1]
        exact ⟨rfl, rfl, rfl⟩
      · exact ⟨rfl, rfl, rfl⟩
    refine ⟨WF_congr ga gm h ht hlen (fun j => (hf j).1) (fun j => (hf j).2.1)
      (fun j => (hf j).2.2), ?_, ?_, fun i hi => (hin i).2 hi⟩
    · intro i hi; rw [hlen] at hi; exact (hin i).2 (hc i hi)
    · rw [hin]; unfold Graph.inTable; rw [List.mem_map]; exact ⟨(k, curr), hmem, rfl⟩

theorem link_prev_table (g : Graph) (prev : Option Nat) (c : Nat) :
    (link_prev g prev c).table = g.table := by
  cases prev with
  | none => rfl
  | some p => exact link_nodes_table g p c

theorem link_prev_reads (g : Graph) (prev : Option Nat) (c : Nat) :
    (link_prev g prev c).reads = g.reads := by
  cases prev with
  | none => rfl
  | some p => exact link_nodes_reads g p c

theorem link_prev_length (g : Graph) (prev : Option Nat) (c : Nat) :
    (link_prev g prev c).arena.length = g.arena.length := by
  cases prev with
  | none => rfl
  | some p => exact link_nodes_length g p c

theorem link_prev_WF (g : Graph) (h : WF g) (prev : Option Nat) (c : Nat)
    (hp : ∀ p, prev = some p → g.inTable p) (hc : g.inTable c) :
    WF (link_prev g prev c) := by
  cases prev with
  | none => exact h
  | some p => exact link_nodes_WF g h p c (hp p rfl) hc

theorem add_kmer_inv (P : Params) (s : Nat) (st st1 : Graph × Option Nat) (i : Nat)
    (h : BuildInv st) (hs : add_kmer P s st i = some st1) : BuildInv st1 := by
  obtain ⟨g, prev⟩ := st
  obtain ⟨g1, prev1⟩ := st1
  obtain ⟨hwf, hcov, hprev⟩ := h
  obtain ⟨ga, gm, curr, hat, haa, har, hp, hprev1, hg1⟩ := add_kmer_cases P s g prev i g1 prev1 hs
  have hga : WF ga := WF_congr g ga hwf hat (by rw [haa])
    (fun j => by unfold Graph.nodeAt; rw [haa]) (fun j => by unfold Graph.nodeAt; rw [haa])
    (fun j => by unfold Graph.nodeAt; rw [haa])
  have hin : ∀ i, ga.inTable i ↔ g.inTable i := by
    intro i; unfold Graph.inTable; rw [hat]
  have hcga : Covered ga := by
    intro i hi; rw [haa] at hi; exact (hin i).2 (hcov i hi)
  obtain ⟨hwm, hcm, hcurr, hmono⟩ := probe_WF ga gm _ s curr hga hcga hp
  have hpm : ∀ p, prev = some p → gm.inTable p :=
    fun p hpp => hmono p ((hin p).2 (hprev p hpp))
  have hin1 : ∀ i, g1.inTable i ↔ gm.inTable i := by
    intro i; unfold Graph.inTable; rw [hg1, link_prev_table]
  refine ⟨?_, ?_, ?_⟩
  · show WF g1
    rw [hg1]; exact link_prev_WF gm hwm prev curr hpm hcurr
  · intro i hi
    change i < g1.arena.length at hi
    rw [hg1, link_prev_length] at hi
    exact (hin1 i).2 (hcm i hi)
  · intro p hpp
    change prev1 = some p at hpp
    rw [hprev1] at hpp
    injection hpp with hpp
    subst hpp
    exact (hin1 curr).2 hcurr

theorem foldlO_preserves {σ α : Type} (f : σ → α → Option σ) (I : σ → Prop)
    (hstep : ∀ (a : α) (s s1 : σ), I s → f s a = some s1 → I s1) :
    ∀ (l : List α) (s s1 : σ), I s → foldlO f s l = some s1 → I s1 := by
  intro l s s1 hI h
  exact foldlO_inv f (fun _ s => I s) (fun _ a s s1 hs hf => hstep a s s1 hs hf) l [] s s1 hI h

theorem add_to_graph_inv (P : Params) (s : Nat) (g g1 : Graph) (h : WF g) (hc : Covered g)
    (hs : add_to_graph P s g = some g1) : WF g1 ∧ Covered g1 := by
  unfold add_to_graph at hs
  cases hf : foldlO (add_kmer P s) (g, none) (offsets P) with
  | none => rw [hf] at hs; exact Option.noConfusion hs
  | some st1 =>
    rw [hf] at hs
    simp only [Option.map_some', Option.some.injEq] at hs
    have := foldlO_preserves (add_kmer P s) BuildInv
      (fun i st st1 hI hst => add_kmer_inv P s st st1 i hI hst) (offsets P) (g, none) st1
      ⟨h, hc, fun p hp => Option.noConfusion hp⟩ hf
    rw [← hs]
    exact ⟨this.1, this.2.1⟩

theorem allocate_read_some (g g1 : Graph) (r : List Nat) (p : Nat)
    (h : allocate_read g r = some (g1, p)) :
    p = g.reads.length ∧ g1.reads = g.reads ++ [r] ∧ g1.table = g.table ∧
      g1.arena = g.arena := by
  unfold allocate_read at h
  split at h
  · exact Option.noConfusion h
  · injection h with h
    injection h with h1 h2
    subst h1 h2
    split <;> simp

theorem add_read_inv (P : Params) (r : List Nat) (g g1 : Graph) (h : WF g ∧ Covered g)
    (hs : add_read P g r = some g1) : WF g1 ∧ Covered g1 := by
  unfold add_read at hs
  split at hs
  · exact Option.noConfusion hs
  · rename_i ga p ha
    obtain ⟨_, _, hat, haa⟩ := allocate_read_some g ga r p ha
    have hga : WF ga := WF_congr g ga h.1 hat (by rw [haa])
      (fun j => by unfold Graph.nodeAt; rw [haa]) (fun j => by unfold Graph.nodeAt; rw [haa])
      (fun j => by unfold Graph.nodeAt; rw [haa])
    have hcga : Covered ga := by
      intro i hi; rw [haa] at hi
      have := h.2 i hi
      unfold Graph.inTable at this ⊢; rw [hat]; exact this
    exact add_to_graph_inv P p ga g1 hga hcga hs

theorem WF_init_pool : WF init_pool ∧ Covered init_pool := by
  refine ⟨⟨?_, ?_, ?_, ?_, ?_, ?_, ?_, ?_⟩, ?_⟩
  · exact List.nodup_nil
  · intro e he; exact absurd he (List.not_mem_nil e)
  · intro i j hi; exact absurd hi (Nat.not_lt_zero i)
  · intro i j hj; exact absurd hj (List.not_mem_nil j)
  · intro i j hj; exact absurd hj (List.not_mem_nil j)
  · intro i j; exact ⟨fun hj => absurd hj (List.not_mem_nil j), fun hj => absurd hj (List.not_mem_nil i)⟩
  · intro i; exact List.nodup_nil
  · intro i; exact List.nodup_nil
  · intro i hi; exact absurd hi (Nat.not_lt_zero i)

/-- The graph `build_graph` returns is well-formed and every arena node is in
the map. -/
theorem build_graph_WF (P : Params) (reads : List (List Nat)) (g : Graph)
    (h : build_graph P reads init_pool = some g) : WF g ∧ Covered g :=
  foldlO_preserves (add_read P) (fun g => WF g ∧ Covered g)
    (fun r g g1 hI hs => add_read_inv P r g g1 hI hs) reads init_pool g WF_init_pool h

/-! ## The pruner: effect of each loop -/

theorem remove_node_from_list_congr (g h : Graph) (n : Nat)
    (hs : ∀ k, (h.nodeAt k).seq = (g.nodeAt k).seq) (l : List Nat) :
    remove_node_from_list h n l = remove_node_from_list g n l := by
  induction l with
  | nil => rfl
  | cons p l ih => simp only [remove_node_from_list, hs, ih]

theorem remove_node_from_list_eq_erase (g : Graph) (h : WF g) (n : Nat)
    (hn : n < g.arena.length) (l : List Nat) (hl : ∀ p ∈ l, g.inTable p) :
    remove_node_from_list g n l = l.erase n := by
  induction l with
  | nil => rfl
  | cons p l ih =>
    have hp : p < g.arena.length := inTable_lt g h p (hl p (List.mem_cons_self p l))
    have ih1 := ih (fun q hq => hl q (List.mem_cons_of_mem p hq))
    simp only [remove_node_from_list]
    by_cases hpn : p = n
    · subst hpn; simp
    · have hseq : ¬ (g.nodeAt p).seq = (g.nodeAt n).seq := fun e => hpn (h.seq_inj p n hp hn e)
      rw [List.erase_cons_tail (by simpa using hpn), ih1]
      simp [hseq]

theorem unlink_from_aux (n : Nat) : ∀ (l : List Nat) (g : Graph), l.Nodup →
    (∀ t ∈ l, t < g.arena.length) →
    SameData g (l.foldl (fun h t =>
      h.setNode t { h.nodeAt t with
        fromNodes := remove_node_from_list h n (h.nodeAt t).fromNodes }) g) ∧
    ∀ j, ((l.foldl (fun h t =>
      h.setNode t { h.nodeAt t with
        fromNodes := remove_node_from_list h n (h.nodeAt t).fromNodes }) g).nodeAt j).toNodes
        = (g.nodeAt j).toNodes ∧
      ((l.foldl (fun h t =>
      h.setNode t { h.nodeAt t with
        fromNodes := remove_node_from_list h n (h.nodeAt t).fromNodes }) g).nodeAt j).fromNodes
        = if j ∈ l then remove_node_from_list g n (g.nodeAt j).fromNodes
          else (g.nodeAt j).fromNodes := by
  intro l
  induction l with
  | nil =>
    intro g _ _
    exact ⟨⟨rfl, rfl, rfl, fun k => ⟨rfl, rfl, rfl, rfl⟩⟩, fun j => ⟨rfl, by simp⟩⟩
  | cons t l ih =>
    intro g hnd hlt
    rw [List.foldl_cons]
    have ht : t < g.arena.length := hlt t (List.mem_cons_self t l)
    have hg1 : ∀ k, (g.setNode t { g.nodeAt t with
        fromNodes := remove_node_from_list g n (g.nodeAt t).fromNodes }).nodeAt k
        = if t = k then { g.nodeAt t with
            fromNodes := remove_node_from_list g n (g.nodeAt t).fromNodes } else g.nodeAt k := by
      intro k; rw [nodeAt_setNode]; simp [ht]
    obtain ⟨⟨h1, h2, h3, h4⟩, h5⟩ := ih (g.setNode t { g.nodeAt t with
        fromNodes := remove_node_from_list g n (g.nodeAt t).fromNodes })
      (List.nodup_cons.1 hnd).2
      (fun q hq => by rw [setNode_length]; exact hlt q (List.mem_cons_of_mem t hq))
    have hseq : ∀ k, ((g.setNode t { g.nodeAt t with
        fromNodes := remove_node_from_list g n (g.nodeAt t).fromNodes }).nodeAt k).seq
        = (g.nodeAt k).seq := by
      intro k; rw [hg1]; split
      · rename_i e; rw [← e]
      · rfl
    refine ⟨⟨by rw [h1]; rfl, by rw [h2, setNode_length], by rw [h3]; rfl, ?_⟩, ?_⟩
    · intro k
      obtain ⟨a1, a2, a3, a4⟩ := h4 k
      rw [a1, a2, a3, a4, hg1]
      split
      · rename_i e; rw [← e]; exact ⟨rfl, rfl, rfl, rfl⟩
      · exact ⟨rfl, rfl, rfl, rfl⟩
    · intro j
      obtain ⟨b1, b2⟩ := h5 j
      rw [b1, b2, remove_node_from_list_congr g _ n hseq, hg1]
      have htl : t ∉ l := (List.nodup_cons.1 hnd).1
      by_cases htj : t = j
      · subst htj
        simp [htl]
      · have hjt : ¬ j = t := fun e => htj e.symm
        simp [htj, hjt]

theorem unlink_to_aux (n : Nat) : ∀ (l : List Nat) (g : Graph), l.Nodup →
    (∀ t ∈ l, t < g.arena.length) →
    SameData g (l.foldl (fun h p =>
      h.setNode p { h.nodeAt p with
        toNodes := remove_node_from_list h n (h.nodeAt p).toNodes }) g) ∧
    ∀ j, ((l.foldl (fun h p =>
      h.setNode p { h.nodeAt p with
        toNodes := remove_node_from_list h n (h.nodeAt p).toNodes }) g).nodeAt j).fromNodes
        = (g.nodeAt j).fromNodes ∧
      ((l.foldl (fun h p =>
      h.setNode p { h.nodeAt p with
        toNodes := remove_node_from_list h n (h.nodeAt p).toNodes }) g).nodeAt j).toNodes
        = if j ∈ l then remove_node_from_list g n (g.nodeAt j).toNodes
          else (g.nodeAt j).toNodes := by
  intro l
  induction l with
  | nil =>
    intro g _ _
    exact ⟨⟨rfl, rfl, rfl, fun k => ⟨rfl, rfl, rfl, rfl⟩⟩, fun j => ⟨rfl, by simp⟩⟩
  | cons t l ih =>
    intro g hnd hlt
    rw [List.foldl_cons]
    have ht : t < g.arena.length := hlt t (List.mem_cons_self t l)
    have hg1 : ∀ k, (g.setNode t { g.nodeAt t with
        toNodes := remove_node_from_list g n (g.nodeAt t).toNodes }).nodeAt k
        = if t = k then { g.nodeAt t with
            toNodes := remove_node_from_list g n (g.nodeAt t).toNodes } else g.nodeAt k := by
      intro k; rw [nodeAt_setNode]; simp [ht]
    obtain ⟨⟨h1, h2, h3, h4⟩, h5⟩ := ih (g.setNode t { g.nodeAt t with
        toNodes := remove_node_from_list g n (g.nodeAt t).toNodes })
      (List.nodup_cons.1 hnd).2
      (fun q hq => by rw [setNode_length]; exact hlt q (List.mem_cons_of_mem t hq))
    have hseq : ∀ k, ((g.setNode t { g.nodeAt t with
        toNodes := remove_node_from_list g n (g.nodeAt t).toNodes }).nodeAt k).seq
        = (g.nodeAt k).seq := by
      intro k; rw [hg1]; split
      · rename_i e; rw [← e]
      · rfl
    refine ⟨⟨by rw [h1]; rfl, by rw [h2, setNode_length], by rw [h3]; rfl, ?_⟩, ?_⟩
    · intro k
      obtain ⟨a1, a2, a3, a4⟩ := h4 k
      rw [a1, a2, a3, a4, hg1]
      split
      · rename_i e; rw [← e]; exact ⟨rfl, rfl, rfl, rfl⟩
      · exact ⟨rfl, rfl, rfl, rfl⟩
    · intro j
      obtain ⟨b1, b2⟩ := h5 j
      rw [b1, b2, remove_node_from_list_congr g _ n hseq, hg1]
      have htl : t ∉ l := (List.nodup_cons.1 hnd).1
      by_cases htj : t = j
      · subst htj
        simp [htl]
      · have hjt : ¬ j = t := fun e => htj e.symm
        simp [htj, hjt]

theorem unlink_from_spec (g : Graph) (h : WF g) (n : Nat) (hn : n < g.arena.length) :
    SameData g (unlink_from g n) ∧
    ∀ j, ((unlink_from g n).nodeAt j).toNodes = (g.nodeAt j).toNodes ∧
      ((unlink_from g n).nodeAt j).fromNodes = (g.nodeAt j).fromNodes.erase n := by
  obtain ⟨h1, h2⟩ := unlink_from_aux n (g.nodeAt n).toNodes g (h.to_nodup n)
    (fun t ht => inTable_lt g h t (h.to_in n t ht))
  refine ⟨h1, fun j => ⟨(h2 j).1, ?_⟩⟩
  have := (h2 j).2
  unfold unlink_from
  rw [this]
  split
  · exact remove_node_from_list_eq_erase g h n hn _ (fun p hp => h.from_in j p hp)
  · rename_i hj
    have : n ∉ (g.nodeAt j).fromNodes := fun hm => hj ((h.sym n j).2 hm)
    rw [List.erase_of_not_mem this]

theorem unlink_to_spec (g g1 : Graph) (h : WF g) (n : Nat) (hn : n < g.arena.length)
    (hsd : SameData g g1)
    (hl : ∀ j, (g1.nodeAt j).toNodes = (g.nodeAt j).toNodes ∧
      (g1.nodeAt j).fromNodes = (g.nodeAt j).fromNodes.erase n) :
    SameData g (unlink_to g1 n) ∧
    ∀ j, ((unlink_to g1 n).nodeAt j).fromNodes = (g.nodeAt j).fromNodes.erase n ∧
      (j ≠ n → ((unlink_to g1 n).nodeAt j).toNodes = (g.nodeAt j).toNodes.erase n) := by
  obtain ⟨s1, s2, s3, s4⟩ := hsd
  have hnd : (g1.nodeAt n).fromNodes.Nodup := by
    rw [(hl n).2]; exact (h.from_nodup n).erase n
  have hval : ∀ t ∈ (g1.nodeAt n).fromNodes, t < g1.arena.length := by
    intro t ht
    rw [(hl n).2] at ht
    rw [s2]
    exact inTable_lt g h t (h.from_in n t (List.mem_of_mem_erase ht))
  obtain ⟨⟨a1, a2, a3, a4⟩, h2⟩ := unlink_to_aux n (g1.nodeAt n).fromNodes g1 hnd hval
  refine ⟨⟨by unfold unlink_to; rw [a1, s1], by unfold unlink_to; rw [a2, s2],
    by unfold unlink_to; rw [a3, s3], ?_⟩, ?_⟩
  · intro k
    obtain ⟨b1, b2, b3, b4⟩ := a4 k
    obtain ⟨c1, c2, c3, c4⟩ := s4 k
    unfold unlink_to
    exact ⟨b1.trans c1, b2.trans c2, b3.trans c3, b4.trans c4⟩
  · intro j
    refine ⟨?_, ?_⟩
    · unfold unlink_to; rw [(h2 j).1, (hl j).2]
    · intro hjn
      unfold unlink_to
      rw [(h2 j).2, (hl j).1, (hl n).2,
        remove_node_from_list_congr g g1 n (fun k => (s4 k).1)]
      split
      · exact remove_node_from_list_eq_erase g h n hn _ (fun p hp => h.to_in j p hp)
      · rename_i hj
        have : n ∉ (g.nodeAt j).toNodes := by
          intro hm
          apply hj
          rw [List.mem_erase_of_ne hjn]
          exact (h.sym j n).1 hm
        rw [List.erase_of_not_mem this]

/-- What `prune_graph` does for one weak node `n` stored under `key`: the
entry leaves the map, the lists of `n` are emptied, and `n` is erased from the
lists of every other node. -/
theorem prune_node_spec (g : Graph) (h : WF g) (key : List Nat) (n : Nat)
    (hn : n < g.arena.length) :
    (prune_node g key n).table = g.table.filter (fun e => !(e.1 == key)) ∧
    (prune_node g key n).arena.length = g.arena.length ∧
    (prune_node g key n).reads = g.reads ∧
    ∀ j, ((prune_node g key n).nodeAt j).seq = (g.nodeAt j).seq ∧
      ((prune_node g key n).nodeAt j).frequency = (g.nodeAt j).frequency ∧
      ((prune_node g key n).nodeAt j).hasMultipleUniqueReads
        = (g.nodeAt j).hasMultipleUniqueReads ∧
      ((prune_node g key n).nodeAt j).contributingRead = (g.nodeAt j).contributingRead ∧
      ((prune_node g key n).nodeAt j).toNodes
        = (if j = n then [] else (g.nodeAt j).toNodes.erase n) ∧
      ((prune_node g key n).nodeAt j).fromNodes
        = (if j = n then [] else (g.nodeAt j).fromNodes.erase n) := by
  obtain ⟨sd1, l1⟩ := unlink_from_spec g h n hn
  obtain ⟨⟨s1, s2, s3, s4⟩, l2⟩ := unlink_to_spec g (unlink_from g n) h n hn sd1 l1
  have hna : ∀ (g2 : Graph) (t : List (List Nat × Nat)) (j : Nat),
      ({ g2 with table := t } : Graph).nodeAt j = g2.nodeAt j := fun _ _ _ => rfl
  unfold prune_node
  simp only
  refine ⟨by rw [setNode_table, s1], ?_, by rw [setNode_reads]; exact s3, ?_⟩
  · rw [setNode_length]; exact s2
  · intro j
    rw [nodeAt_setNode]
    simp only [hna]
    obtain ⟨c1, c2, c3, c4⟩ := s4 j
    by_cases hjn : n = j
    · subst hjn
      have hlt : n < (unlink_to (unlink_from g n) n).arena.length := by rw [s2]; exact hn
      have hlt2 : n < ({ unlink_to (unlink_from g n) n with
          table := (unlink_to (unlink_from g n) n).table.filter (fun e => !(e.1 == key)) }
            : Graph).arena.length := hlt
      rw [if_pos ⟨rfl, hlt2⟩]
      simp only [if_true]
      refine ⟨c1, c2, c3, c4, ?_, ?_⟩ <;> first | rfl | trivial
    · have hjn2 : j ≠ n := fun e => hjn e.symm
      rw [if_neg (fun hc => hjn hc.1)]
      simp only [hjn2, if_false]
      exact ⟨c1, c2, c3, c4, (l2 j).2 hjn2, (l2 j).1⟩

/-! ## The pruner keeps the memory well-formed -/

theorem entry_unique (g : Graph) (h : WF g) (e1 e2 : List Nat × Nat) (h1 : e1 ∈ g.table)
    (h2 : e2 ∈ g.table) (hk : e1.1 = e2.1) : e1 = e2 :=
  List.inj_on_of_nodup_map h.keys_nodup h1 h2 hk

theorem entry_key_iff (g : Graph) (h : WF g) (key : List Nat) (n : Nat)
    (he : (key, n) ∈ g.table) (e : List Nat × Nat) (hin : e ∈ g.table) :
    e.1 = key ↔ e.2 = n := by
  constructor
  · intro hk
    have := entry_unique g h e (key, n) hin he hk
    rw [this]
  · intro hn
    have h1 := (h.entry e hin).2
    have h2 := (h.entry (key, n) he).2
    rw [hn] at h1
    exact h1.symm.trans h2

theorem prune_node_inTable (g : Graph) (h : WF g) (key : List Nat) (n : Nat)
    (he : (key, n) ∈ g.table) (j : Nat) :
    (prune_node g key n).inTable j ↔ g.inTable j ∧ j ≠ n := by
  have hn := (h.entry (key, n) he).1
  unfold Graph.inTable
  rw [(prune_node_spec g h key n hn).1]
  simp only [List.mem_map, List.mem_filter, Bool.not_eq_true', beq_eq_false_iff_ne, ne_eq]
  constructor
  · rintro ⟨e, ⟨hin, hk⟩, rfl⟩
    exact ⟨⟨e, hin, rfl⟩, fun hc => hk ((entry_key_iff g h key n he e hin).2 hc)⟩
  · rintro ⟨⟨e, hin, rfl⟩, hne⟩
    exact ⟨e, ⟨hin, fun hc => hne ((entry_key_iff g h key n he e hin).1 hc)⟩, rfl⟩

theorem prune_node_WF (g : Graph) (h : WF g) (key : List Nat) (n : Nat)
    (he : (key, n) ∈ g.table) : WF (prune_node g key n) := by
  have hn := (h.entry (key, n) he).1
  obtain ⟨ht, hl, _, hf⟩ := prune_node_spec g h key n hn
  have hin := prune_node_inTable g h key n he
  have hto : ∀ i j, j ∈ ((prune_node g key n).nodeAt i).toNodes ↔
      i ≠ n ∧ j ≠ n ∧ j ∈ (g.nodeAt i).toNodes := by
    intro i j
    rw [(hf i).2.2.2.2.1]
    by_cases hi : i = n
    · simp [hi]
    · simp only [hi, if_false, ne_eq, not_false_eq_true, true_and]
      exact (h.to_nodup i).mem_erase_iff
  have hfrom : ∀ i j, j ∈ ((prune_node g key n).nodeAt i).fromNodes ↔
      i ≠ n ∧ j ≠ n ∧ j ∈ (g.nodeAt i).fromNodes := by
    intro i j
    rw [(hf i).2.2.2.2.2]
    by_cases hi : i = n
    · simp [hi]
    · simp only [hi, if_false, ne_eq, not_false_eq_true, true_and]
      exact (h.from_nodup i).mem_erase_iff
  refine ⟨?_, ?_, ?_, ?_, ?_, ?_, ?_, ?_⟩
  · rw [ht]
    exact List.Nodup.sublist ((List.filter_sublist g.table).map Prod.fst) h.keys_nodup
  · intro e hem
    rw [ht] at hem
    have := h.entry e (List.mem_of_mem_filter hem)
    rw [hl, (hf e.2).1]
    exact this
  · intro i j hi hj hij
    rw [hl] at hi hj
    rw [(hf i).1, (hf j).1] at hij
    exact h.seq_inj i j hi hj hij
  · intro i j hj
    obtain ⟨_, h2, h3⟩ := (hto i j).1 hj
    exact (hin j).2 ⟨h.to_in i j h3, h2⟩
  · intro i j hj
    obtain ⟨_, h2, h3⟩ := (hfrom i j).1 hj
    exact (hin j).2 ⟨h.from_in i j h3, h2⟩
  · intro i j
    rw [hto, hfrom, h.sym i j]
    tauto
  · intro i
    rw [(hf i).2.2.2.2.1]
    split
    · exact List.nodup_nil
    · exact (h.to_nodup i).erase n
  · intro i
    rw [(hf i).2.2.2.2.2]
    split
    · exact List.nodup_nil
    · exact (h.from_nodup i).erase n

theorem is_weak_congr (P : Params) (a b : node) (hf : a.frequency = b.frequency)
    (hm : a.hasMultipleUniqueReads = b.hasMultipleUniqueReads) :
    is_weak P a = is_weak P b := by
  unfold is_weak; rw [hf, hm]

/-- The loop of `prune_graph`, entry by entry: the memory stays well-formed,
the data of the nodes is untouched, the entries still to visit are still in
the map, and every entry of the map is still to visit or not weak. -/
theorem prune_entries_inv (P : Params) (g : Graph) :
    ∀ (es : List (List Nat × Nat)) (h : Graph), WF h →
      (es.map Prod.fst).Nodup → (∀ e ∈ es, e ∈ h.table) →
      (∀ k, (h.nodeAt k).frequency = (g.nodeAt k).frequency ∧
        (h.nodeAt k).hasMultipleUniqueReads = (g.nodeAt k).hasMultipleUniqueReads ∧
        (h.nodeAt k).seq = (g.nodeAt k).seq) →
      (∀ e ∈ h.table, e ∈ es ∨ is_weak P (g.nodeAt e.2) = false) →
      (∀ e ∈ h.table, e ∈ g.table) →
      WF (prune_entries P es h) ∧
      (∀ k, ((prune_entries P es h).nodeAt k).frequency = (g.nodeAt k).frequency ∧
        ((prune_entries P es h).nodeAt k).hasMultipleUniqueReads
          = (g.nodeAt k).hasMultipleUniqueReads ∧
        ((prune_entries P es h).nodeAt k).seq = (g.nodeAt k).seq) ∧
      (∀ e ∈ (prune_entries P es h).table, is_weak P (g.nodeAt e.2) = false) ∧
      (∀ e ∈ (prune_entries P es h).table, e ∈ g.table) := by
  intro es
  induction es with
  | nil =>
    intro h hwf _ _ hd hw hsub
    refine ⟨hwf, hd, ?_, hsub⟩
    intro e he
    rcases hw e he with x | x
    · exact absurd x (List.not_mem_nil e)
    · exact x
  | cons e es ih =>
    intro h hwf hnd hin hd hw hsub
    unfold prune_entries
    rw [List.foldl_cons]
    have hnd2 : (es.map Prod.fst).Nodup := by
      rw [List.map_cons] at hnd; exact (List.nodup_cons.1 hnd).2
    have hnot : ∀ e1 ∈ es, e1.1 ≠ e.1 := by
      intro e1 he1 hc
      rw [List.map_cons] at hnd
      exact (List.nodup_cons.1 hnd).1 (hc ▸ List.mem_map_of_mem Prod.fst he1)
    have heq : is_weak P (h.nodeAt e.2) = is_weak P (g.nodeAt e.2) :=
      is_weak_congr P _ _ (hd e.2).1 (hd e.2).2.1
    have hein : (e.1, e.2) ∈ h.table := hin e (List.mem_cons_self e es)
    by_cases hweak : is_weak P (h.nodeAt e.2) = true
    · rw [if_pos hweak]
      have hlt := (hwf.entry (e.1, e.2) hein).1
      obtain ⟨ht, _, _, hf⟩ := prune_node_spec h hwf e.1 e.2 hlt
      apply ih (prune_node h e.1 e.2) (prune_node_WF h hwf e.1 e.2 hein) hnd2
      · intro e1 he1
        rw [ht, List.mem_filter]
        refine ⟨hin e1 (List.mem_cons_of_mem e he1), ?_⟩
        simpa using hnot e1 he1
      · intro k
        obtain ⟨a1, a2, a3, _⟩ := hf k
        obtain ⟨b1, b2, b3⟩ := hd k
        exact ⟨a2.trans b1, a3.trans b2, a1.trans b3⟩
      · intro e1 he1
        rw [ht, List.mem_filter] at he1
        obtain ⟨h1, h2⟩ := he1
        rcases hw e1 h1 with x | x
        · rcases List.mem_cons.1 x with y | y
          · rw [y] at h2; simp at h2
          · exact Or.inl y
        · exact Or.inr x
      · intro e1 he1
        rw [ht] at he1
        exact hsub e1 (List.mem_of_mem_filter he1)
    · rw [if_neg hweak]
      apply ih h hwf hnd2 (fun e1 he1 => hin e1 (List.mem_cons_of_mem e he1)) hd _ hsub
      intro e1 he1
      rcases hw e1 he1 with x | x
      · rcases List.mem_cons.1 x with y | y
        · right
          rw [y, ← heq]
          simpa using hweak
        · exact Or.inl y
      · exact Or.inr x

/-- After `prune_graph` on a well-formed graph: the memory is well-formed, no
node of the map is weak, and the data of every node is what it was. -/
theorem prune_graph_spec (P : Params) (g : Graph) (h : WF g) :
    WF (prune_graph P g) ∧
    (∀ k, ((prune_graph P g).nodeAt k).frequency = (g.nodeAt k).frequency ∧
      ((prune_graph P g).nodeAt k).hasMultipleUniqueReads
        = (g.nodeAt k).hasMultipleUniqueReads ∧
      ((prune_graph P g).nodeAt k).seq = (g.nodeAt k).seq) ∧
    (∀ e ∈ (prune_graph P g).table, is_weak P (g.nodeAt e.2) = false) ∧
    (∀ e ∈ (prune_graph P g).table, e ∈ g.table) :=
  prune_entries_inv P g g.table g h h.keys_nodup (fun _ he => he)
    (fun _ => ⟨rfl, rfl, rfl⟩) (fun _ he => Or.inl he) (fun _ he => he)

/-! ## C4: adjacency is symmetric after the build and after the pruning -/

/-- C4: after `build_graph` on any input, and again after `prune_graph`, for
all nodes `A` and `B` of the map, `B` is in `A.toNodes` if and only if `A` is
in `B.fromNodes`. -/
theorem C4_adjacency_symmetric (P : Params) (reads : List (List Nat)) (g : Graph)
    (h : build_graph P reads init_pool = some g) :
    (∀ A B, g.inTable A → g.inTable B →
      (B ∈ (g.nodeAt A).toNodes ↔ A ∈ (g.nodeAt B).fromNodes)) ∧
    (∀ A B, (prune_graph P g).inTable A → (prune_graph P g).inTable B →
      (B ∈ ((prune_graph P g).nodeAt A).toNodes ↔
        A ∈ ((prune_graph P g).nodeAt B).fromNodes)) := by
  have hwf := (build_graph_WF P reads g h).1
  exact ⟨fun A B _ _ => hwf.sym A B, fun A B _ _ => (prune_graph_spec P g hwf).1.sym A B⟩

theorem C4_adjacency_symmetric_witness :
    build_graph scenarioParams branchReads init_pool = some branchGraph ∧
    (1 ∈ (branchGraph.nodeAt 0).toNodes ↔ 0 ∈ (branchGraph.nodeAt 1).fromNodes) ∧
    (1 ∈ ((prune_graph scenarioParams branchGraph).nodeAt 0).toNodes ↔
      0 ∈ ((prune_graph scenarioParams branchGraph).nodeAt 1).fromNodes) :=
  ⟨by rfl,
    (C4_adjacency_symmetric scenarioParams branchReads branchGraph (by rfl)).1 0 1
      (by decide!) (by decide!),
    (C4_adjacency_symmetric scenarioParams branchReads branchGraph (by rfl)).2 0 1
      (by decide!) (by decide!)⟩

/-! ## C5: what survives the pruning -/

/-- C5: for every graph `build_graph` produces, after `prune_graph` every node
still in the map has `frequency >= MIN_NODE_FREQUENCY` and
`hasMultipleUniqueReads` set, and every entry of its `toNodes` and `fromNodes`
lists is a node that is still in the map. -/
theorem C5_survivors (P : Params) (reads : List (List Nat)) (g : Graph)
    (h : build_graph P reads init_pool = some g) :
    ∀ n, (prune_graph P g).inTable n →
      (P.MIN_NODE_FREQUENCY : Int) ≤ ((prune_graph P g).nodeAt n).frequency ∧
      ((prune_graph P g).nodeAt n).hasMultipleUniqueReads = true ∧
      (∀ t ∈ ((prune_graph P g).nodeAt n).toNodes, (prune_graph P g).inTable t) ∧
      (∀ f ∈ ((prune_graph P g).nodeAt n).fromNodes, (prune_graph P g).inTable f) := by
  intro n hn
  have hwf := (build_graph_WF P reads g h).1
  obtain ⟨hw2, hd, hnw, _⟩ := prune_graph_spec P g hwf
  unfold Graph.inTable at hn
  rw [List.mem_map] at hn
  obtain ⟨e, he, rfl⟩ := hn
  have hweak := hnw e he
  unfold is_weak at hweak
  simp only [Bool.or_eq_false_iff, decide_eq_false_iff_not, not_lt, Bool.not_eq_false'] at hweak
  obtain ⟨a1, a2, _⟩ := hd e.2
  rw [a1, a2]
  exact ⟨hweak.1, hweak.2, fun t ht => hw2.to_in e.2 t ht, fun f hf => hw2.from_in e.2 f hf⟩

theorem C5_survivors_witness :
    build_graph scenarioParams branchReads init_pool = some branchGraph ∧
    (prune_graph scenarioParams branchGraph).inTable 0 ∧
    ((scenarioParams.MIN_NODE_FREQUENCY : Int)
        ≤ ((prune_graph scenarioParams branchGraph).nodeAt 0).frequency ∧
      ((prune_graph scenarioParams branchGraph).nodeAt 0).hasMultipleUniqueReads = true ∧
      (∀ t ∈ ((prune_graph scenarioParams branchGraph).nodeAt 0).toNodes,
        (prune_graph scenarioParams branchGraph).inTable t) ∧
      (∀ f ∈ ((prune_graph scenarioParams branchGraph).nodeAt 0).fromNodes,
        (prune_graph scenarioParams branchGraph).inTable f)) :=
  ⟨by rfl, by decide!,
    C5_survivors scenarioParams branchReads branchGraph (by rfl) 0 (by decide!)⟩

/-! ## The graph builder: what the nodes record -/

theorem wrapInt_eq (x : Int) (h0 : 0 ≤ x) (h1 : x < 2147483648) : wrapInt x = x := by
  unfold wrapInt; omega

theorem find?_key_none (tr : List (List Nat × Nat)) (k : List Nat)
    (h : k ∉ tr.map Prod.fst) : tr.find? (fun o => o.1 == k) = none := by
  rw [List.find?_eq_none]
  intro o ho hc
  exact h (List.mem_map.2 ⟨o, ho, by simpa using hc⟩)

theorem compare_false_iff (g : Graph) (c s : Nat) :
    compare g c s = false ↔ g.reads.getD s [] ≠ g.reads.getD c [] := by
  unfold compare
  constructor
  · intro h
    simp only [Bool.or_eq_false_iff, beq_eq_false_iff_ne, ne_eq] at h
    exact fun e => h.2 e.symm
  · intro h
    simp only [Bool.or_eq_false_iff, beq_eq_false_iff_ne, ne_eq]
    exact ⟨fun e => h (by rw [e]), fun e => h e.symm⟩

theorem probe_data (ga gm : Graph) (k : List Nat) (s curr : Nat)
    (tr : List (List Nat × Nat)) (h : WF ga) (hd : DataInv tr ga)
    (hs : s < ga.reads.length) (hp : probe ga k s = some (gm, curr)) :
    DataInv (tr ++ [(k, s)]) gm := by
  obtain ⟨hr, hcase⟩ := probe_cases ga gm k s curr hp
  rcases hcase with ⟨hl, hcurr, ht, ha⟩ | ⟨hl, ht, ha⟩
  · have hk : k ∉ ga.table.map Prod.fst := (lookup_eq_none_iff ga.table k).1 hl
    have hktr : k ∉ tr.map Prod.fst := fun hc => hk ((hd.keys k).2 hc)
    have hn := nodeAt_of_arena_append ga gm _ ha
    have hold : ∀ e ∈ ga.table, gm.nodeAt e.2 = ga.nodeAt e.2 ∧ e.1 ≠ k := by
      intro e he
      have := (h.entry e he).1
      rw [hn]
      simp only [this, if_true, true_and]
      intro hc
      exact hk (List.mem_map.2 ⟨e, he, hc⟩)
    have hnew : gm.nodeAt curr = ⟨k, 1, [], [], s, false⟩ := by
      rw [hn, hcurr]; simp
    refine ⟨?_, ?_, ?_, ?_, ?_⟩
    · intro k1
      rw [ht, List.map_append, List.map_append, List.mem_append, List.mem_append, hd.keys k1]
      simp
    · intro o ho
      rw [hr]
      rcases List.mem_append.1 ho with x | x
      · exact hd.slots o x
      · simp at x; rw [x]; exact hs
    · intro e he hlt
      rw [ht] at he
      rw [List.map_append, List.count_append] at hlt ⊢
      rcases List.mem_append.1 he with x | x
      · obtain ⟨e1, e2⟩ := hold e x
        have hc0 : List.count e.1 (List.map Prod.fst [(k, s)]) = 0 := by
          simp [List.count_cons, e2]
        rw [hc0] at hlt ⊢
        rw [e1]
        exact hd.freq e x hlt
      · simp at x
        subst x
        rw [hnew]
        have : List.count k (List.map Prod.fst tr) = 0 := List.count_eq_zero.2 hktr
        simp [this]
    · intro e he
      rw [ht] at he
      rw [List.find?_append]
      rcases List.mem_append.1 he with x | x
      · obtain ⟨e1, _⟩ := hold e x
        rw [e1, hd.first e x]
        rfl
      · simp at x
        subst x
        rw [find?_key_none tr k hktr, hnew]
        simp
    · intro e he
      rw [ht] at he
      rw [hr]
      rcases List.mem_append.1 he with x | x
      · obtain ⟨e1, e2⟩ := hold e x
        rw [e1, hd.flag e x]
        constructor
        · rintro ⟨o, ho, h1, h2⟩
          exact ⟨o, List.mem_append_left _ ho, h1, h2⟩
        · rintro ⟨o, ho, h1, h2⟩
          rcases List.mem_append.1 ho with y | y
          · exact ⟨o, y, h1, h2⟩
          · simp at y
            rw [y] at h1
            exact absurd h1.symm e2
      · simp at x
        subst x
        rw [hnew]
        simp only [Bool.false_eq_true, false_iff, not_exists, not_and, ne_eq, not_not]
        intro o ho h1
        rcases List.mem_append.1 ho with y | y
        · exact absurd (List.mem_map.2 ⟨o, y, h1⟩) hktr
        · simp at y
          rw [y]
  · have hmem := lookup_eq_some_mem ga.table k curr hl
    have hclt := (h.entry (k, curr) hmem).1
    have hn := nodeAt_of_arena_set ga gm curr _ ha
    have hktr : k ∈ tr.map Prod.fst := (hd.keys k).1 (List.mem_map.2 ⟨(k, curr), hmem, rfl⟩)
    have hsame : ∀ e ∈ ga.table, e.1 ≠ k → gm.nodeAt e.2 = ga.nodeAt e.2 := by
      intro e he hne
      rw [hn]
      have : ¬ curr = e.2 := fun hc => hne ((entry_key_iff ga h k curr hmem e he).2 hc.symm)
      simp [this]
    have hcur : gm.nodeAt curr = bumped ga curr s := by
      rw [hn]; simp [hclt]
    have hek : ∀ e ∈ ga.table, e.1 = k → e = (k, curr) := by
      intro e he hc
      exact entry_unique ga h e (k, curr) he hmem hc
    refine ⟨?_, ?_, ?_, ?_, ?_⟩
    · intro k1
      rw [ht, List.map_append, List.mem_append, hd.keys k1]
      constructor
      · exact Or.inl
      · rintro (x | x)
        · exact x
        · simp at x; rw [x]; exact hktr
    · intro o ho
      rw [hr]
      rcases List.mem_append.1 ho with x | x
      · exact hd.slots o x
      · simp at x; rw [x]; exact hs
    · intro e he hlt
      rw [ht] at he
      rw [List.map_append, List.count_append] at hlt ⊢
      by_cases hc : e.1 = k
      · have := hek e he hc
        subst this
        have hc1 : List.count k (List.map Prod.fst [(k, s)]) = 1 := by simp
        simp only [hc1] at hlt ⊢
        rw [hcur]
        unfold bumped
        simp only
        rw [hd.freq (k, curr) hmem (by simp only; omega)]
        simp only
        rw [wrapInt_eq _ (by omega) (by omega)]
        push_cast
        rfl
      · have hc0 : List.count e.1 (List.map Prod.fst [(k, s)]) = 0 := by
          simp [List.count_cons]
          exact fun x => hc x.symm
        rw [hc0] at hlt ⊢
        rw [hsame e he hc]
        exact hd.freq e he hlt
    · intro e he
      rw [ht] at he
      rw [List.find?_append]
      by_cases hc : e.1 = k
      · have := hek e he hc
        subst this
        rw [hcur]
        have := hd.first (k, curr) hmem
        simp only at this ⊢
        rw [this]
        rfl
      · rw [hsame e he hc, hd.first e he]
        rfl
    · intro e he
      rw [ht] at he
      rw [hr]
      by_cases hc : e.1 = k
      · have := hek e he hc
        subst this
        rw [hcur]
        have hfl := hd.flag (k, curr) hmem
        simp only at hfl
        unfold bumped
        simp only [Bool.or_eq_true, hfl, Bool.not_eq_true', compare_false_iff]
        constructor
        · rintro (⟨o, ho, h1, h2⟩ | h3)
          · exact ⟨o, List.mem_append_left _ ho, h1, h2⟩
          · exact ⟨(k, s), by simp, rfl, h3⟩
        · rintro ⟨o, ho, h1, h2⟩
          rcases List.mem_append.1 ho with y | y
          · exact Or.inl ⟨o, y, h1, h2⟩
          · simp at y
            rw [y] at h2
            exact Or.inr h2
      · rw [hsame e he hc, hd.flag e he]
        constructor
        · rintro ⟨o, ho, h1, h2⟩
          exact ⟨o, List.mem_append_left _ ho, h1, h2⟩
        · rintro ⟨o, ho, h1, h2⟩
          rcases List.mem_append.1 ho with y | y
          · exact ⟨o, y, h1, h2⟩
          · simp at y
            rw [y] at h1
            exact absurd h1.symm hc

theorem DataInv_congr (tr : List (List Nat × Nat)) (g g1 : Graph) (hd : DataInv tr g)
    (ht : g1.table = g.table) (hr : g1.reads = g.reads)
    (hf : ∀ j, (g1.nodeAt j).frequency = (g.nodeAt j).frequency ∧
      (g1.nodeAt j).contributingRead = (g.nodeAt j).contributingRead ∧
      (g1.nodeAt j).hasMultipleUniqueReads = (g.nodeAt j).hasMultipleUniqueReads) :
    DataInv tr g1 := by
  refine ⟨?_, ?_, ?_, ?_, ?_⟩
  · intro k; rw [ht]; exact hd.keys k
  · intro o ho; rw [hr]; exact hd.slots o ho
  · intro e he hlt; rw [ht] at he; rw [(hf e.2).1]; exact hd.freq e he hlt
  · intro e he; rw [ht] at he; rw [(hf e.2).2.1]; exact hd.first e he
  · intro e he; rw [ht] at he; rw [(hf e.2).2.2, (hf e.2).2.1, hr]; exact hd.flag e he

theorem link_prev_data (g : Graph) (h : WF g) (prev : Option Nat) (c : Nat)
    (hp : ∀ p, prev = some p → g.inTable p) (hc : g.inTable c) (j : Nat) :
    ((link_prev g prev c).nodeAt j).frequency = (g.nodeAt j).frequency ∧
      ((link_prev g prev c).nodeAt j).contributingRead = (g.nodeAt j).contributingRead ∧
      ((link_prev g prev c).nodeAt j).hasMultipleUniqueReads
        = (g.nodeAt j).hasMultipleUniqueReads := by
  cases prev with
  | none => exact ⟨rfl, rfl, rfl⟩
  | some p =>
    unfold link_prev
    simp only
    rw [link_nodes_nodeAt g p c (inTable_lt g h p (hp p rfl)) (inTable_lt g h c hc) j]
    exact ⟨rfl, rfl, rfl⟩

theorem add_kmer_data (P : Params) (s : Nat) (st st1 : Graph × Option Nat) (i : Nat)
    (tr : List (List Nat × Nat)) (h : BuildInv st) (hd : DataInv tr st.1)
    (hs : s < st.1.reads.length) (hstep : add_kmer P s st i = some st1) :
    st1.1.reads = st.1.reads ∧
      DataInv (tr ++ [(kmerAt P (st.1.reads.getD s []) i, s)]) st1.1 := by
  obtain ⟨g, prev⟩ := st
  obtain ⟨g1, prev1⟩ := st1
  obtain ⟨hwf, hcov, hprev⟩ := h
  obtain ⟨ga, gm, curr, hat, haa, har, hp, hprev1, hg1⟩ :=
    add_kmer_cases P s g prev i g1 prev1 hstep
  have hna : ∀ j, ga.nodeAt j = g.nodeAt j := by
    intro j; unfold Graph.nodeAt; rw [haa]
  have hga : WF ga := WF_congr g ga hwf hat (by rw [haa])
    (fun j => by rw [hna]) (fun j => by rw [hna]) (fun j => by rw [hna])
  have hin : ∀ i, ga.inTable i ↔ g.inTable i := by
    intro i; unfold Graph.inTable; rw [hat]
  have hcga : Covered ga := by
    intro i hi; rw [haa] at hi; exact (hin i).2 (hcov i hi)
  have hdga : DataInv tr ga := DataInv_congr tr g ga hd hat har
    (fun j => by rw [hna]; exact ⟨rfl, rfl, rfl⟩)
  obtain ⟨hwm, _, hcurr, hmono⟩ := probe_WF ga gm _ s curr hga hcga hp
  have hdm := probe_data ga gm _ s curr tr hga hdga (by rw [har]; exact hs) hp
  have hrm : gm.reads = ga.reads := (probe_cases ga gm _ s curr hp).1
  have hpm : ∀ p, prev = some p → gm.inTable p :=
    fun p hpp => hmono p ((hin p).2 (hprev p hpp))
  refine ⟨?_, ?_⟩
  · show g1.reads = g.reads
    rw [hg1, link_prev_reads, hrm, har]
  · show DataInv _ g1
    rw [hg1]
    exact DataInv_congr _ gm _ hdm (link_prev_table gm prev curr) (link_prev_reads gm prev curr)
      (link_prev_data gm hwm prev curr hpm hcurr)

theorem add_to_graph_data (P : Params) (s : Nat) (g g1 : Graph)
    (tr : List (List Nat × Nat)) (h : WF g) (hc : Covered g) (hd : DataInv tr g)
    (hs : s < g.reads.length) (hstep : add_to_graph P s g = some g1) :
    g1.reads = g.reads ∧
      DataInv (tr ++ (kmersOf P (g.reads.getD s [])).map (fun k => (k, s))) g1 := by
  unfold add_to_graph at hstep
  cases hf : foldlO (add_kmer P s) (g, none) (offsets P) with
  | none => rw [hf] at hstep; exact Option.noConfusion hstep
  | some st1 =>
    rw [hf] at hstep
    simp only [Option.map_some', Option.some.injEq] at hstep
    have := foldlO_inv (add_kmer P s)
      (fun done st => BuildInv st ∧ st.1.reads = g.reads ∧
        DataInv (tr ++ done.map (fun i => (kmerAt P (g.reads.getD s []) i, s))) st.1)
      (fun done i st st2 hI hst => by
        obtain ⟨h1, h2, h3⟩ := hI
        obtain ⟨h4, h5⟩ := add_kmer_data P s st st2 i _ h1 h3 (by rw [h2]; exact hs) hst
        refine ⟨add_kmer_inv P s st st2 i h1 hst, h4.trans h2, ?_⟩
        rw [h2] at h5
        rw [List.map_append, ← List.append_assoc]
        exact h5)
      (offsets P) [] (g, none) st1
      ⟨⟨h, hc, fun p hp => Option.noConfusion hp⟩, rfl, by simpa using hd⟩ hf
    obtain ⟨_, h2, h3⟩ := this
    rw [← hstep]
    refine ⟨h2, ?_⟩
    simp only [List.nil_append] at h3
    unfold kmersOf
    rw [List.map_map]
    exact h3

theorem occsFrom_append (P : Params) : ∀ (a b : List (List Nat)) (s : Nat),
    occsFrom P s (a ++ b) = occsFrom P s a ++ occsFrom P (s + a.length) b := by
  intro a
  induction a with
  | nil => intro b s; simp [occsFrom]
  | cons r a ih =>
    intro b s
    have e : s + 1 + a.length = s + (a.length + 1) := by omega
    rw [List.cons_append]
    simp only [occsFrom, List.length_cons]
    rw [ih, e, List.append_assoc]

theorem DataInv_reads_append (tr : List (List Nat × Nat)) (g g1 : Graph) (r : List Nat)
    (hd : DataInv tr g) (ht : g1.table = g.table) (ha : g1.arena = g.arena)
    (hr : g1.reads = g.reads ++ [r]) : DataInv tr g1 := by
  have hna : ∀ j, g1.nodeAt j = g.nodeAt j := by
    intro j; unfold Graph.nodeAt; rw [ha]
  have hget : ∀ p, p < g.reads.length → g1.reads.getD p [] = g.reads.getD p [] := by
    intro p hp
    rw [hr, List.getD_eq_getElem?_getD, List.getD_eq_getElem?_getD,
      List.getElem?_append_left hp]
  refine ⟨?_, ?_, ?_, ?_, ?_⟩
  · intro k; rw [ht]; exact hd.keys k
  · intro o ho
    have := hd.slots o ho
    rw [hr, List.length_append]; omega
  · intro e he hlt; rw [ht] at he; rw [hna]; exact hd.freq e he hlt
  · intro e he; rw [ht] at he; rw [hna]; exact hd.first e he
  · intro e he
    rw [ht] at he
    rw [hna]
    have hc : (g.nodeAt e.2).contributingRead < g.reads.length := by
      have := List.mem_of_find?_eq_some (hd.first e he)
      exact hd.slots _ this
    rw [hd.flag e he, hget _ hc]
    constructor
    · rintro ⟨o, ho, h1, h2⟩
      exact ⟨o, ho, h1, by rw [hget _ (hd.slots o ho)]; exact h2⟩
    · rintro ⟨o, ho, h1, h2⟩
      exact ⟨o, ho, h1, by rw [hget _ (hd.slots o ho)] at h2; exact h2⟩

theorem add_read_data (P : Params) (done : List (List Nat)) (r : List Nat) (g g1 : Graph)
    (h : ReadInv P done g) (hstep : add_read P g r = some g1) :
    ReadInv P (done ++ [r]) g1 := by
  obtain ⟨hwf, hcov, hreads, hd⟩ := h
  unfold add_read at hstep
  split at hstep
  · exact Option.noConfusion hstep
  · rename_i ga p ha
    obtain ⟨hp, har, hat, haa⟩ := allocate_read_some g ga r p ha
    have hna : ∀ j, ga.nodeAt j = g.nodeAt j := by
      intro j; unfold Graph.nodeAt; rw [haa]
    have hga : WF ga := WF_congr g ga hwf hat (by rw [haa])
      (fun j => by rw [hna]) (fun j => by rw [hna]) (fun j => by rw [hna])
    have hcga : Covered ga := by
      intro i hi; rw [haa] at hi
      have := hcov i hi
      unfold Graph.inTable at this ⊢; rw [hat]; exact this
    have hdga : DataInv (occsFrom P 0 done) ga := DataInv_reads_append _ g ga r hd hat haa har
    have hplt : p < ga.reads.length := by rw [har, hp, List.length_append]; simp
    obtain ⟨h1, h2⟩ := add_to_graph_data P p ga g1 _ hga hcga hdga hplt hstep
    obtain ⟨w1, w2⟩ := add_to_graph_inv P p ga g1 hga hcga hstep
    have hget : ga.reads.getD p [] = r := by
      rw [har, hp, List.getD_eq_getElem?_getD, List.getElem?_append_right (le_refl _)]
      simp
    refine ⟨w1, w2, ?_, ?_⟩
    · rw [h1, har, hreads]
    · rw [hget, hp, hreads] at h2
      rw [occsFrom_append]
      simpa [occsFrom] using h2

/-- The invariant of `build_graph` holds of the graph it returns. -/
theorem build_graph_inv (P : Params) (reads : List (List Nat)) (g : Graph)
    (h : build_graph P reads init_pool = some g) : ReadInv P reads g := by
  have := foldlO_inv (add_read P) (ReadInv P)
    (fun done r g g1 hI hs => add_read_data P done r g g1 hI hs) reads [] init_pool g
    ⟨WF_init_pool.1, WF_init_pool.2, rfl,
      ⟨fun k => Iff.rfl, fun o ho => absurd ho (List.not_mem_nil o),
        fun e he => absurd he (List.not_mem_nil e), fun e he => absurd he (List.not_mem_nil e),
        fun e he => absurd he (List.not_mem_nil e)⟩⟩ h
  simpa using this

/-! ## The k-mers of the input -/

theorem mem_occsFrom (P : Params) (k : List Nat) : ∀ (reads : List (List Nat)) (s : Nat),
    k ∈ (occsFrom P s reads).map Prod.fst ↔ ∃ r ∈ reads, k ∈ kmersOf P r := by
  intro reads
  induction reads with
  | nil => intro s; simp [occsFrom]
  | cons r rs ih =>
    intro s
    simp only [occsFrom, List.map_append, List.mem_append, ih, List.map_map,
      List.mem_cons, exists_eq_or_imp]
    have : (Prod.fst ∘ fun k => (k, s)) = (id : List Nat → List Nat) := rfl
    rw [this, List.map_id]

theorem mem_occsFrom_pair (P : Params) (k : List Nat) :
    ∀ (reads : List (List Nat)) (s p : Nat),
    (k, p) ∈ occsFrom P s reads ↔ s ≤ p ∧ ∃ r, reads[p - s]? = some r ∧ k ∈ kmersOf P r := by
  intro reads
  induction reads with
  | nil => intro s p; simp [occsFrom]
  | cons r rs ih =>
    intro s p
    simp only [occsFrom, List.mem_append, List.mem_map, Prod.mk.injEq, ih]
    constructor
    · rintro (⟨k1, hk1, rfl, rfl⟩ | ⟨hle, r1, hr1, hk⟩)
      · exact ⟨le_refl _, r, by simp, hk1⟩
      · refine ⟨by omega, r1, ?_, hk⟩
        have : p - s = (p - (s + 1)) + 1 := by omega
        rw [this, List.getElem?_cons_succ]
        exact hr1
    · rintro ⟨hle, r1, hr1, hk⟩
      by_cases hps : p = s
      · subst hps
        simp at hr1
        subst hr1
        exact Or.inl ⟨k, hk, rfl, rfl⟩
      · right
        refine ⟨by omega, r1, ?_, hk⟩
        have : p - s = (p - (s + 1)) + 1 := by omega
        rw [this, List.getElem?_cons_succ] at hr1
        exact hr1

theorem count_occsFrom (P : Params) (k : List Nat) : ∀ (reads : List (List Nat)) (s : Nat),
    ((occsFrom P s reads).map Prod.fst).count k = occurrences P k reads := by
  intro reads
  induction reads with
  | nil => intro s; rfl
  | cons r rs ih =>
    intro s
    unfold occurrences at ih ⊢
    simp only [occsFrom, List.map_append, List.count_append, ih, List.map_map,
      List.map_cons, List.sum_cons]
    have : (Prod.fst ∘ fun k => (k, s)) = (id : List Nat → List Nat) := rfl
    rw [this, List.map_id]

/-- The k-mers `add_to_graph` takes from a read of length `READ_LENGTH` are
its substrings of length `KMER`. -/
theorem mem_kmersOf_iff (P : Params) (r k : List Nat) (hr : r.length = P.READ_LENGTH) :
    k ∈ kmersOf P r ↔ k.length = P.KMER ∧ k <:+: r := by
  unfold kmersOf offsets kmerAt
  constructor
  · intro h
    split at h
    · rename_i hle
      rw [List.mem_map] at h
      obtain ⟨i, hi, rfl⟩ := h
      rw [List.mem_range] at hi
      refine ⟨?_, ?_⟩
      · rw [List.length_take, List.length_drop]; omega
      · exact (List.take_prefix _ _).isInfix.trans (List.drop_suffix _ _).isInfix
    · simp at h
  · rintro ⟨hk, s, t, hst⟩
    have hlen : s.length + k.length + t.length = r.length := by
      rw [← hst]; simp; omega
    have hle : P.KMER ≤ P.READ_LENGTH := by omega
    rw [if_pos hle, List.mem_map]
    refine ⟨s.length, List.mem_range.2 (by omega), ?_⟩
    rw [← hst, List.append_assoc, List.drop_left, ← hk, List.take_left]

/-! ## C3: one node per distinct k-mer -/

/-- C3: for every list of reads, each of length `READ_LENGTH`, the keys of the
map after `build_graph` are distinct, they are exactly the substrings of
length `KMER` occurring in the reads, each entry points to the node carrying
its key, and the number of entries is the number of distinct such substrings
(the length of any duplicate-free list of them). -/
theorem C3_interning (P : Params) (reads : List (List Nat)) (g : Graph)
    (hlen : ∀ r ∈ reads, r.length = P.READ_LENGTH)
    (h : build_graph P reads init_pool = some g) :
    (g.table.map Prod.fst).Nodup ∧
    (∀ k, k ∈ g.table.map Prod.fst ↔ (k.length = P.KMER ∧ ∃ r ∈ reads, k <:+: r)) ∧
    (∀ e ∈ g.table, (g.nodeAt e.2).seq = e.1) ∧
    (∀ l : List (List Nat), l.Nodup →
      (∀ k, k ∈ l ↔ (k.length = P.KMER ∧ ∃ r ∈ reads, k <:+: r)) →
      g.table.length = l.length) := by
  obtain ⟨hwf, _, _, hd⟩ := build_graph_inv P reads g h
  have hkeys : ∀ k, k ∈ g.table.map Prod.fst ↔
      (k.length = P.KMER ∧ ∃ r ∈ reads, k <:+: r) := by
    intro k
    rw [hd.keys k, mem_occsFrom]
    constructor
    · rintro ⟨r, hr, hk⟩
      have := (mem_kmersOf_iff P r k (hlen r hr)).1 hk
      exact ⟨this.1, r, hr, this.2⟩
    · rintro ⟨hk, r, hr, hin⟩
      exact ⟨r, hr, (mem_kmersOf_iff P r k (hlen r hr)).2 ⟨hk, hin⟩⟩
  refine ⟨hwf.keys_nodup, hkeys, fun e he => (hwf.entry e he).2, ?_⟩
  intro l hl hmem
  have hperm : List.Perm (g.table.map Prod.fst) l :=
    (List.perm_ext_iff_of_nodup hwf.keys_nodup hl).2 (fun k => (hkeys k).trans (hmem k).symm)
  have := hperm.length_eq
  rw [List.length_map] at this
  exact this

theorem C3_interning_witness :
    (∀ r ∈ branchReads, r.length = scenarioParams.READ_LENGTH) ∧
    build_graph scenarioParams branchReads init_pool = some branchGraph ∧
    (branchGraph.table.map Prod.fst).Nodup ∧
    (∀ k, k ∈ branchGraph.table.map Prod.fst ↔
      (k.length = scenarioParams.KMER ∧ ∃ r ∈ branchReads, k <:+: r)) :=
  ⟨by decide, by rfl,
    (C3_interning scenarioParams branchReads branchGraph (by decide) (by rfl)).1,
    (C3_interning scenarioParams branchReads branchGraph (by decide) (by rfl)).2.1⟩

/-! ## C6: the distinct-read test compares bytes -/

/-- C6, as stated, fails: the read `AAATT` stored in the two slots 0 and 1
leaves `hasMultipleUniqueReads` unset on the node of `AAA`, which both reads
contain. -/
theorem C6_counterexample :
    build_graph scenarioParams twinReads init_pool = some twinGraph ∧
    twinGraph.reads.getD 0 [] = twinGraph.reads.getD 1 [] ∧
    [65, 65, 65] ∈ kmersOf scenarioParams (twinGraph.reads.getD 0 []) ∧
    [65, 65, 65] ∈ kmersOf scenarioParams (twinGraph.reads.getD 1 []) ∧
    ([65, 65, 65], 0) ∈ twinGraph.table ∧
    (twinGraph.nodeAt 0).frequency = 2 ∧
    (twinGraph.nodeAt 0).hasMultipleUniqueReads = false := by
  decide!

/-- C6, amended: for every input containing two reads `r1` and `r2` whose
bytes differ, and every k-mer `k` contained in both, the node of `k` has
`hasMultipleUniqueReads` set after `build_graph`: the distinct-read test
(`compare`) is on the bytes of the reads. -/
theorem C6_distinct_bytes (P : Params) (reads : List (List Nat)) (g : Graph)
    (h : build_graph P reads init_pool = some g) (r1 r2 k : List Nat)
    (h1 : r1 ∈ reads) (h2 : r2 ∈ reads) (hne : r1 ≠ r2)
    (hk1 : k ∈ kmersOf P r1) (hk2 : k ∈ kmersOf P r2) :
    ∃ n, (k, n) ∈ g.table ∧ (g.nodeAt n).hasMultipleUniqueReads = true := by
  obtain ⟨hwf, _, hreads, hd⟩ := build_graph_inv P reads g h
  have hkey : k ∈ g.table.map Prod.fst :=
    (hd.keys k).2 ((mem_occsFrom P k reads 0).2 ⟨r1, h1, hk1⟩)
  rw [List.mem_map] at hkey
  obtain ⟨e, he, rfl⟩ := hkey
  refine ⟨e.2, he, ?_⟩
  rw [hd.flag e he, hreads]
  have hocc : ∀ r ∈ reads, e.1 ∈ kmersOf P r →
      ∃ p, (e.1, p) ∈ occsFrom P 0 reads ∧ reads.getD p [] = r := by
    intro r hr hk
    obtain ⟨p, hp⟩ := List.mem_iff_getElem?.1 hr
    refine ⟨p, (mem_occsFrom_pair P e.1 reads 0 p).2 ⟨Nat.zero_le _, r, by simpa using hp, hk⟩, ?_⟩
    rw [List.getD_eq_getElem?_getD, hp]; rfl
  obtain ⟨p1, hp1, hg1⟩ := hocc r1 h1 hk1
  obtain ⟨p2, hp2, hg2⟩ := hocc r2 h2 hk2
  by_cases hc : reads.getD p1 [] = reads.getD (g.nodeAt e.2).contributingRead []
  · refine ⟨(e.1, p2), hp2, rfl, ?_⟩
    intro hc2
    apply hne
    rw [← hg1, ← hg2, hc, ← hc2]
  · exact ⟨(e.1, p1), hp1, rfl, hc⟩

theorem C6_distinct_bytes_witness :
    build_graph scenarioParams branchReads init_pool = some branchGraph ∧
    ∃ n, ([65, 65, 65], n) ∈ branchGraph.table ∧
      (branchGraph.nodeAt n).hasMultipleUniqueReads = true :=
  ⟨by rfl, C6_distinct_bytes scenarioParams branchReads branchGraph (by rfl)
    [65, 65, 65, 84, 84] [65, 65, 65, 84, 71] [65, 65, 65] (by decide) (by decide)
    (by decide) (by decide) (by decide)⟩

/-! ## C7: the frequency counts occurrences -/

/-- C7, as stated, fails: the single read `AAAAA` holds `AAA` at three offsets
and leaves the frequency 3 on its node, while one read contains the k-mer. -/
theorem C7_counterexample :
    build_graph scenarioParams repeatRead init_pool = some repeatGraph ∧
    (∀ r ∈ repeatRead, r.length = scenarioParams.READ_LENGTH) ∧
    ([65, 65, 65], 0) ∈ repeatGraph.table ∧
    (repeatGraph.nodeAt 0).frequency = 3 ∧
    readsContaining scenarioParams [65, 65, 65] repeatRead = 1 := by
  decide!

/-- C7, amended: after `build_graph` the frequency of each node is the number
of occurrences of its k-mer in the reads, every offset of every read counted,
as long as that number is below `2^31` (the counter is an `int`). -/
theorem C7_frequency_counts_occurrences (P : Params) (reads : List (List Nat)) (g : Graph)
    (h : build_graph P reads init_pool = some g) (k : List Nat) (n : Nat)
    (he : (k, n) ∈ g.table) (hlt : occurrences P k reads < 2147483648) :
    (g.nodeAt n).frequency = (occurrences P k reads : Nat) := by
  obtain ⟨_, _, _, hd⟩ := build_graph_inv P reads g h
  have := hd.freq (k, n) he
  rw [count_occsFrom] at this
  exact this hlt

theorem C7_frequency_counts_occurrences_witness :
    build_graph scenarioParams repeatRead init_pool = some repeatGraph ∧
    (repeatGraph.nodeAt 0).frequency
      = (occurrences scenarioParams [65, 65, 65] repeatRead : Nat) :=
  ⟨by rfl, C7_frequency_counts_occurrences scenarioParams repeatRead repeatGraph (by rfl)
    [65, 65, 65] 0 (by decide!) (by decide!)⟩

/-! ## The driver: what a pass leaves in the counter and the file -/

theorem visit_shadow (P : Params) (g : Graph) (sr : Bool) (c : contig)
    (rest : List contig) (r r1 : Run) (hv : visit P g sr true c rest r = some r1) :
    r1.contig_count = r.contig_count ∧ r1.fp = r.fp := by
  unfold visit at hv
  split at hv
  · cases hv; exact ⟨rfl, rfl⟩
  · split at hv
    · cases hv; exact ⟨rfl, rfl⟩
    · simp only at hv
      split at hv
      · exact Option.noConfusion hv
      · cases hv; exact ⟨rfl, rfl⟩

theorem check_bounds_count (mp mc : Int) (r : Run) :
    (check_bounds mp mc r).contig_count = r.contig_count := by
  unfold check_bounds
  simp only
  split <;> split <;> rfl

theorem check_bounds_contigs (mp mc : Int) (r : Run) :
    (check_bounds mp mc r).contigs = r.contigs := by
  unfold check_bounds
  simp only
  split <;> split <;> rfl

theorem check_bounds_paths (mp mc : Int) (r : Run) :
    (check_bounds mp mc r).paths_from_root = r.paths_from_root := by
  unfold check_bounds
  simp only
  split <;> split <;> rfl

/-- The step of a state with a non-empty stack is the visit of its top
followed by the bound checks. -/
theorem step_cons (P : Params) (g : Graph) (mp mc : Int) (sr sh : Bool) (r r1 : Run)
    (c : contig) (rest : List contig) (hc : r.contigs = c :: rest)
    (hs : step P g mp mc sr sh r = some r1) :
    ∃ r2, visit P g sr sh c rest r = some r2 ∧ r1 = check_bounds mp mc r2 := by
  unfold step at hs
  rw [hc] at hs
  simp only at hs
  cases hv : visit P g sr sh c rest r with
  | none => rw [hv] at hs; exact Option.noConfusion hs
  | some r2 =>
    rw [hv] at hs
    simp only [Option.map_some', Option.some.injEq] at hs
    exact ⟨r2, rfl, hs.symm⟩

theorem step_nil (P : Params) (g : Graph) (mp mc : Int) (sr sh : Bool) (r : Run)
    (hc : r.contigs = []) : step P g mp mc sr sh r = some r := by
  unfold step
  rw [hc]

theorem step_shadow (P : Params) (g : Graph) (mp mc : Int) (sr : Bool) (r r1 : Run)
    (hs : step P g mp mc sr true r = some r1) :
    r1.contig_count = r.contig_count ∧ r1.fp = r.fp := by
  cases hc : r.contigs with
  | nil =>
    rw [step_nil P g mp mc sr true r hc] at hs
    cases hs; exact ⟨rfl, rfl⟩
  | cons c rest =>
    obtain ⟨r2, hv, rfl⟩ := step_cons P g mp mc sr true r r1 c rest hc hs
    rw [check_bounds_count, check_bounds_fp]
    exact visit_shadow P g sr c rest r r2 hv

/-- The shadow pass leaves the counter and the file as they were. -/
theorem build_contigs_shadow (P : Params) (g : Graph) (fuel root : Nat) (n : Int)
    (fp : List record) (mp mc : Int) (sr : Bool) (st : Status) (n1 : Int)
    (fp1 : List record)
    (hb : build_contigs P g fuel root n fp mp mc sr true = Outcome.done (st, n1, fp1)) :
    n1 = n ∧ fp1 = fp := by
  unfold build_contigs at hb
  split at hb
  · rename_i r hr
    cases hb
    exact run_loop_inv P g mp mc sr true (fun r => r.contig_count = n ∧ r.fp = fp)
      (fun r r1 hI hs => by
        obtain ⟨h1, h2⟩ := step_shadow P g mp mc sr r r1 hs
        exact ⟨h1.trans hI.1, h2.trans hI.2⟩) fuel _ r ⟨rfl, rfl⟩ hr
  · exact Outcome.noConfusion hb
  · exact Outcome.noConfusion hb

theorem output_contig_numbered (P : Params) (c : contig) (n : Int) (fp : List record)
    (h : Numbered n fp) : Numbered (output_contig P c n fp).1 (output_contig P c n fp).2 := by
  unfold output_contig
  split
  · obtain ⟨h1, h2⟩ := h
    refine ⟨?_, ?_⟩
    · simp only [List.length_append, List.length_singleton, h1]
      push_cast; rfl
    · simp only [List.map_append, List.length_append, List.length_singleton, List.range_succ,
        h2, List.map_cons, List.map_nil, h1]
  · exact h

theorem visit_numbered (P : Params) (g : Graph) (sr sh : Bool) (c : contig)
    (rest : List contig) (r r1 : Run) (h : Numbered r.contig_count r.fp)
    (hv : visit P g sr sh c rest r = some r1) : Numbered r1.contig_count r1.fp := by
  unfold visit at hv
  split at hv
  · cases hv
    simp only
    split
    · exact output_contig_numbered P _ _ _ h
    · exact h
  · split at hv
    · cases hv
      simp only
      split
      · exact output_contig_numbered P _ _ _ h
      · exact h
    · simp only at hv
      split at hv
      · exact Option.noConfusion hv
      · cases hv; exact h

theorem step_numbered (P : Params) (g : Graph) (mp mc : Int) (sr sh : Bool) (r r1 : Run)
    (h : Numbered r.contig_count r.fp) (hs : step P g mp mc sr sh r = some r1) :
    Numbered r1.contig_count r1.fp := by
  cases hc : r.contigs with
  | nil =>
    rw [step_nil P g mp mc sr sh r hc] at hs
    cases hs; exact h
  | cons c rest =>
    obtain ⟨r2, hv, rfl⟩ := step_cons P g mp mc sr sh r r1 c rest hc hs
    rw [check_bounds_count, check_bounds_fp]
    exact visit_numbered P g sr sh c rest r r2 h hv

theorem build_contigs_numbered (P : Params) (g : Graph) (fuel root : Nat) (n : Int)
    (fp : List record) (mp mc : Int) (sr sh : Bool) (st : Status) (n1 : Int)
    (fp1 : List record) (h : Numbered n fp)
    (hb : build_contigs P g fuel root n fp mp mc sr sh = Outcome.done (st, n1, fp1)) :
    Numbered n1 fp1 := by
  unfold build_contigs at hb
  split at hb
  · rename_i r hr
    cases hb
    exact run_loop_inv P g mp mc sr sh (fun r => Numbered r.contig_count r.fp)
      (fun r r1 hI hs => step_numbered P g mp mc sr sh r r1 hI hs) fuel _ r h hr
  · exact Outcome.noConfusion hb
  · exact Outcome.noConfusion hb

theorem assemble_roots_numbered (P : Params) (g : Graph) (fuel : Nat) (tor : Bool)
    (mc mp : Int) : ∀ (roots : List Nat) (d d1 : Driver),
    Numbered d.contig_count d.fp → d.truncate_output = false →
    assemble_roots P g fuel tor mc mp roots d = Outcome.done d1 →
    (d1.truncate_output = false → Numbered d1.contig_count d1.fp) ∧
    (d1.truncate_output = true → d1.contig_count = 0) := by
  intro roots
  induction roots with
  | nil =>
    intro d d1 h ht hr
    simp only [assemble_roots, Outcome.done.injEq] at hr
    subst hr
    exact ⟨fun _ => h, fun hc => by rw [ht] at hc; exact Bool.noConfusion hc⟩
  | cons root roots ih =>
    intro d d1 h ht hr
    rw [assemble_roots_cons] at hr
    cases h1 : build_contigs P g fuel root 0 d.fp mp mc tor true with
    | fatal => simp [h1] at hr
    | timeout => simp [h1] at hr
    | done x =>
      obtain ⟨status, cnt, fp1⟩ := x
      obtain ⟨_, hfp⟩ := build_contigs_shadow P g fuel root 0 d.fp mp mc tor status cnt fp1 h1
      subst hfp
      simp only [h1] at hr
      by_cases hst : status = Status.OK
      · simp only [hst, if_true] at hr
        cases h2 : build_contigs P g fuel root d.contig_count d.fp mp mc tor false with
        | fatal => simp [h2] at hr
        | timeout => simp [h2] at hr
        | done y =>
          obtain ⟨s2, c2, fp2⟩ := y
          have l2 := build_contigs_numbered P g fuel root _ d.fp mp mc tor false s2 c2 fp2 h h2
          simp only [h2] at hr
          simp at hr
          exact ih ⟨c2, fp2, false⟩ d1 l2 rfl hr
      · simp only [hst, if_false] at hr
        split at hr
        · cases hr
          exact ⟨fun hc => Bool.noConfusion hc, fun _ => rfl⟩
        · exact ih ⟨d.contig_count, d.fp, false⟩ d1 h rfl hr

/-! ## C12: a root with too many paths is skipped -/

/-- C12: if the shadow pass of `root` returns `TOO_MANY_PATHS_FROM_ROOT`, it
has left the file as it was, and the root loop continues with the next root
from the counter and the file it had before `root`: the root adds no record,
the counter is unchanged and the earlier records are kept. -/
theorem C12_too_many_paths_skips_root (P : Params) (g : Graph) (fuel : Nat)
    (truncate_on_repeat : Bool) (max_contigs max_paths_from_root : Int)
    (root : Nat) (later : List Nat) (d : Driver) (cnt : Int) (fp1 : List record)
    (hshadow : build_contigs P g fuel root 0 d.fp max_paths_from_root max_contigs
      truncate_on_repeat true = Outcome.done (Status.TOO_MANY_PATHS_FROM_ROOT, cnt, fp1)) :
    fp1 = d.fp ∧
    assemble_roots P g fuel truncate_on_repeat max_contigs max_paths_from_root
        (root :: later) d
      = assemble_roots P g fuel truncate_on_repeat max_contigs max_paths_from_root
        later ⟨d.contig_count, d.fp, false⟩ := by
  obtain ⟨_, hfp⟩ := build_contigs_shadow P g fuel root 0 d.fp max_paths_from_root
    max_contigs truncate_on_repeat _ cnt fp1 hshadow
  refine ⟨hfp, ?_⟩
  rw [assemble_roots_cons]
  simp only [hshadow]
  rw [hfp]
  simp

theorem C12_too_many_paths_skips_root_witness :
    build_contigs scenarioParams abortGraph 50 4 0
        [⟨0, false, [65, 65, 65]⟩] 2 10 false true
      = Outcome.done (Status.TOO_MANY_PATHS_FROM_ROOT, 0, [⟨0, false, [65, 65, 65]⟩]) ∧
    assemble_roots scenarioParams abortGraph 50 false 10 2 (4 :: [0])
        ⟨1, [⟨0, false, [65, 65, 65]⟩], false⟩
      = assemble_roots scenarioParams abortGraph 50 false 10 2 [0]
        ⟨1, [⟨0, false, [65, 65, 65]⟩], false⟩ :=
  ⟨by decide!,
    (C12_too_many_paths_skips_root scenarioParams abortGraph 50 false 10 2 4 [0]
      ⟨1, [⟨0, false, [65, 65, 65]⟩], false⟩ 0 [⟨0, false, [65, 65, 65]⟩] (by decide!)).2⟩

/-! ## C13: the identifiers are sequential and the count is returned -/

/-- C13: whatever the input and the parameters, the records of the file
`assemble` leaves carry the identifiers `0, 1, ..., n-1` in the order written,
and `n` is the value returned: the number of records written on normal
termination, and zero, with an empty file, after a truncating abort. -/
theorem C13_sequential_identifiers (P : Params) (fuel : Nat) (input : List (List Nat))
    (truncate_on_repeat : Bool) (max_contigs max_paths_from_root n : Int)
    (out : List record)
    (h : assemble P fuel input truncate_on_repeat max_contigs max_paths_from_root
      = Outcome.done (n, out)) :
    n = (out.length : Nat) ∧
    out.map record.contig_id = (List.range out.length).map (fun (i : Nat) => (i : Int)) := by
  unfold assemble at h
  split at h
  · exact Outcome.noConfusion h
  · rename_i g0 _
    unfold assemble_graph at h
    split at h
    · exact Outcome.noConfusion h
    · exact Outcome.noConfusion h
    · rename_i d hd
      obtain ⟨h1, h2⟩ := assemble_roots_numbered P (prune_graph P g0) fuel truncate_on_repeat
        max_contigs max_paths_from_root _ ⟨0, [], false⟩ d ⟨rfl, rfl⟩ rfl hd
      injection h with h
      injection h with ha hb
      subst ha hb
      cases ht : d.truncate_output with
      | false =>
        simp only [Bool.false_eq_true, if_false]
        exact h1 ht
      | true =>
        simp only [if_true]
        exact ⟨h2 ht, rfl⟩

theorem C13_sequential_identifiers_witness :
    assemble scenarioParams 50 abortReads false 10 100
      = Outcome.done (2, [⟨0, false, [67, 67, 67, 71]⟩, ⟨1, true, [65, 65, 84]⟩]) ∧
    ((2 : Int) = (([⟨0, false, [67, 67, 67, 71]⟩, ⟨1, true, [65, 65, 84]⟩]
        : List record).length : Nat) ∧
      ([⟨0, false, [67, 67, 67, 71]⟩, ⟨1, true, [65, 65, 84]⟩] : List record).map
          record.contig_id
        = (List.range ([⟨0, false, [67, 67, 67, 71]⟩, ⟨1, true, [65, 65, 84]⟩]
            : List record).length).map (fun (i : Nat) => (i : Int))) :=
  ⟨by decide!, C13_sequential_identifiers scenarioParams 50 abortReads false 10 100 2
    [⟨0, false, [67, 67, 67, 71]⟩, ⟨1, true, [65, 65, 84]⟩] (by decide!)⟩

/-! ## C14: the value returned after a truncating abort -/

/-- C14, as stated, fails: on the reads `abortReads` with `stopOnRepeat` the
root `CCC` emits one contig, the shadow pass of the root `AAT` then returns
`STOPPED_ON_REPEAT`, and `assemble` returns 0 with an empty file, not the 1
contig emitted before the truncation. -/
theorem C14_counterexample :
    identify_root_nodes abortGraph = [4, 0] ∧
    assemble_roots scenarioParams abortGraph 50 true 10 100 [4] ⟨0, [], false⟩
      = Outcome.done ⟨1, [⟨0, false, [67, 67, 67, 71]⟩], false⟩ ∧
    build_contigs scenarioParams abortGraph 50 0 0 [⟨0, false, [67, 67, 67, 71]⟩] 100 10
      true true = Outcome.done (Status.STOPPED_ON_REPEAT, 0, [⟨0, false, [67, 67, 67, 71]⟩]) ∧
    assemble scenarioParams 50 abortReads true 10 100 = Outcome.done (0, []) := by
  decide!

/-- C14, amended: whenever the root loop of `assemble` ends with
`truncate_output` set (a shadow pass returned `TOO_MANY_CONTIGS` or
`STOPPED_ON_REPEAT`), `assemble` returns 0 and leaves an empty file, whatever
had been emitted for earlier roots. -/
theorem C14_abort_returns_zero (P : Params) (g : Graph) (fuel : Nat)
    (truncate_on_repeat : Bool) (max_contigs max_paths_from_root : Int) (d : Driver)
    (hloop : assemble_roots P g fuel truncate_on_repeat max_contigs max_paths_from_root
      (identify_root_nodes g) ⟨0, [], false⟩ = Outcome.done d)
    (habort : d.truncate_output = true) :
    assemble_graph P g fuel truncate_on_repeat max_contigs max_paths_from_root
      = Outcome.done (0, []) := by
  obtain ⟨_, h2⟩ := assemble_roots_numbered P g fuel truncate_on_repeat max_contigs
    max_paths_from_root _ ⟨0, [], false⟩ d ⟨rfl, rfl⟩ rfl hloop
  unfold assemble_graph
  rw [hloop]
  simp only [habort, if_true, h2 habort]

theorem C14_abort_returns_zero_witness :
    assemble_roots scenarioParams abortGraph 50 true 10 100
        (identify_root_nodes abortGraph) ⟨0, [], false⟩
      = Outcome.done ⟨0, [⟨0, false, [67, 67, 67, 71]⟩], true⟩ ∧
    assemble_graph scenarioParams abortGraph 50 true 10 100 = Outcome.done (0, []) :=
  ⟨by decide!, C14_abort_returns_zero scenarioParams abortGraph 50 true 10 100
    ⟨0, [⟨0, false, [67, 67, 67, 71]⟩], true⟩ (by decide!) rfl⟩

/-! ## The loop of `build_contigs`, iteration by iteration -/

theorem run_loop_done (P : Params) (g : Graph) (mp mc : Int) (sr sh : Bool) (fuel : Nat)
    (r : Run) (h : ¬ (r.contigs.length > 0 ∧ r.status = Status.OK)) :
    run_loop P g mp mc sr sh fuel r = Outcome.done r := by
  unfold run_loop
  rw [if_neg h]

theorem run_loop_succ (P : Params) (g : Graph) (mp mc : Int) (sr sh : Bool) (fuel : Nat)
    (r : Run) (h : r.contigs.length > 0 ∧ r.status = Status.OK) :
    run_loop P g mp mc sr sh (fuel + 1) r =
      match step P g mp mc sr sh r with
      | none => Outcome.fatal
      | some r1 => run_loop P g mp mc sr sh fuel r1 := by
  rw [run_loop, if_pos h]

theorem iterate_succ (P : Params) (g : Graph) (mp mc : Int) (sr sh : Bool) (n : Nat)
    (r r1 : Run) (h : r.contigs.length > 0 ∧ r.status = Status.OK)
    (hs : step P g mp mc sr sh r = some r1) :
    iterate P g mp mc sr sh (n + 1) r = iterate P g mp mc sr sh n r1 := by
  rw [iterate, if_pos h, hs]

theorem iterate_succ_some (P : Params) (g : Graph) (mp mc : Int) (sr sh : Bool) (n : Nat)
    (r r2 : Run) (h : iterate P g mp mc sr sh (n + 1) r = some r2) :
    (r.contigs.length > 0 ∧ r.status = Status.OK) ∧
    ∃ r1, step P g mp mc sr sh r = some r1 ∧ iterate P g mp mc sr sh n r1 = some r2 := by
  rw [iterate] at h
  split at h
  · rename_i hc
    refine ⟨hc, ?_⟩
    split at h
    · exact Option.noConfusion h
    · rename_i r1 hs
      exact ⟨r1, hs, h⟩
  · exact Option.noConfusion h

/-- Once the loop has run `n` iterations, the rest of the run is the run from
the state reached. -/
theorem iterate_run_loop (P : Params) (g : Graph) (mp mc : Int) (sr sh : Bool) :
    ∀ (n : Nat) (r r1 : Run), iterate P g mp mc sr sh n r = some r1 →
    ∀ m, run_loop P g mp mc sr sh (n + m) r = run_loop P g mp mc sr sh m r1 := by
  intro n
  induction n with
  | zero =>
    intro r r1 h m
    simp only [iterate, Option.some.injEq] at h
    subst h
    rw [Nat.zero_add]
  | succ n ih =>
    intro r r1 h m
    obtain ⟨hc, r2, hs, hi⟩ := iterate_succ_some P g mp mc sr sh n r r1 h
    have e : n + 1 + m = (n + m) + 1 := by omega
    rw [e, run_loop_succ P g mp mc sr sh (n + m) r hc, hs]
    exact ih r2 r1 hi m

/-- An invariant of the loop body holds of every state the loop reaches. -/
theorem iterate_inv (P : Params) (g : Graph) (mp mc : Int) (sr sh : Bool) (I : Run → Prop)
    (hstep : ∀ r r1, I r → r.status = Status.OK → step P g mp mc sr sh r = some r1 → I r1) :
    ∀ (n : Nat) (r r1 : Run), I r → iterate P g mp mc sr sh n r = some r1 → I r1 := by
  intro n
  induction n with
  | zero =>
    intro r r1 hI h
    simp only [iterate, Option.some.injEq] at h
    subst h; exact hI
  | succ n ih =>
    intro r r1 hI h
    obtain ⟨hc, r2, hs, hi⟩ := iterate_succ_some P g mp mc sr sh n r r1 h
    exact ih r2 r1 (hstep r r2 hI hc.2 hs) hi

theorem check_bounds_status_OK (mp mc : Int) (r : Run)
    (h : (check_bounds mp mc r).status = Status.OK) :
    r.status = Status.OK ∧ r.contig_count < mc ∧ r.paths_from_root < mp := by
  unfold check_bounds at h
  simp only at h
  by_cases h2 : r.paths_from_root ≥ mp
  · by_cases h1 : r.contig_count ≥ mc
    · simp [h1, h2] at h
    · simp [h1, h2] at h
  · by_cases h1 : r.contig_count ≥ mc
    · simp [h1, h2] at h
    · simp only [h1, h2, if_false] at h
      exact ⟨h, by omega, by omega⟩

theorem check_bounds_below (mp mc : Int) (r : Run) (h1 : r.contig_count < mc)
    (h2 : r.paths_from_root < mp) : check_bounds mp mc r = r := by
  unfold check_bounds
  have e1 : ¬ r.contig_count ≥ mc := by omega
  have e2 : ¬ r.paths_from_root ≥ mp := by omega
  simp only [e1, e2, if_false]

theorem check_bounds_status_ne (mp mc : Int) (r : Run)
    (h : (check_bounds mp mc r).status = Status.STOPPED_ON_REPEAT) :
    r.status = Status.STOPPED_ON_REPEAT := by
  unfold check_bounds at h
  simp only at h
  by_cases h2 : r.paths_from_root ≥ mp
  · by_cases h1 : r.contig_count ≥ mc
    · simp [h1, h2] at h
    · simp [h1, h2] at h
  · by_cases h1 : r.contig_count ≥ mc
    · simp [h1, h2] at h
    · simpa [h1, h2] using h

/-! ## The three branches of the loop body -/

theorem visit_repeat (P : Params) (g : Graph) (sr sh : Bool) (c : contig)
    (rest : List contig) (r : Run) (hv : is_node_visited g c c.curr_node = true) :
    visit P g sr sh c rest r = some { r with
      contigs := rest,
      contig_count := (if !sh && !sr
        then output_contig P { c with is_repeat := true } r.contig_count r.fp
        else (r.contig_count, r.fp)).1,
      fp := (if !sh && !sr
        then output_contig P { c with is_repeat := true } r.contig_count r.fp
        else (r.contig_count, r.fp)).2,
      status := if sr then Status.STOPPED_ON_REPEAT else r.status } := by
  unfold visit
  rw [if_pos hv]

theorem visit_sink (P : Params) (g : Graph) (sr sh : Bool) (c : contig)
    (rest : List contig) (r : Run) (hv : is_node_visited g c c.curr_node = false)
    (hs : (g.nodeAt c.curr_node).toNodes.isEmpty = true) :
    visit P g sr sh c rest r = some { r with
      contigs := rest,
      contig_count := (if !sh
        then output_contig P { c with seq := c.seq ++ (g.nodeAt c.curr_node).seq.take P.KMER }
          r.contig_count r.fp
        else (r.contig_count, r.fp)).1,
      fp := (if !sh
        then output_contig P { c with seq := c.seq ++ (g.nodeAt c.curr_node).seq.take P.KMER }
          r.contig_count r.fp
        else (r.contig_count, r.fp)).2 } := by
  unfold visit
  rw [if_neg (by rw [hv]; exact Bool.noConfusion), if_pos hs]

theorem foldl_push {α β : Type} (f : α → β) (l : List α) (init : List β) :
    l.foldl (fun st t => f t :: st) init = (l.map f).reverse ++ init := by
  induction l generalizing init with
  | nil => rfl
  | cons a l ih => simp [List.foldl_cons, ih]

theorem visit_interior (P : Params) (g : Graph) (sr sh : Bool) (c : contig)
    (rest : List contig) (r : Run) (hv : is_node_visited g c c.curr_node = false)
    (hs : (g.nodeAt c.curr_node).toNodes.isEmpty = false) :
    visit P g sr sh c rest r =
      if c.size + 1 ≥ P.MAX_CONTIG_SIZE then none
      else some { r with
        contigs := ((g.nodeAt c.curr_node).toNodes.map (copy_contig (advance g c))).reverse
          ++ rest,
        paths_from_root := r.paths_from_root + (g.nodeAt c.curr_node).toNodes.length } := by
  unfold visit
  rw [if_neg (by rw [hv]; exact Bool.noConfusion), if_neg (by rw [hs]; exact Bool.noConfusion)]
  simp only
  split
  · rfl
  · congr 1
    cases hl : (g.nodeAt c.curr_node).toNodes with
    | nil => rw [hl] at hs; exact Bool.noConfusion hs
    | cons t ts =>
      have e1 : (fun st t => copy_contig
          { seq := c.seq ++ [(g.nodeAt c.curr_node).seq.headD 0], size := c.size + 1,
            is_repeat := c.is_repeat, curr_node := (t :: ts).headD 0,
            visited_nodes := (g.nodeAt c.curr_node).seq :: c.visited_nodes } t :: st)
          = (fun (st : List contig) t => copy_contig (advance g c) t :: st) := rfl
      simp only [List.tail_cons, List.headD_cons, List.length_cons, List.map_cons,
        List.reverse_cons, List.append_assoc, List.singleton_append]
      rw [foldl_push]
      congr 1
      push_cast
      omega

/-! ## Every contig on the stack follows its path -/

theorem nonempty_valid (g : Graph) (i : Nat) (h : (g.nodeAt i).toNodes.isEmpty = false) :
    i < g.arena.length ∧ (g.nodeAt i).seq ∈ g.arena.map node.seq ∧
      (g.nodeAt i).toNodes.length ≤ maxDeg g := by
  have hlt : i < g.arena.length := by
    by_contra hc
    rw [nodeAt_default g i (by omega)] at h
    exact Bool.noConfusion h
  have hmem : g.nodeAt i ∈ g.arena := by
    unfold Graph.nodeAt
    rw [List.getD_eq_getElem _ _ hlt]
    exact List.getElem_mem _
  refine ⟨hlt, List.mem_map_of_mem _ hmem, ?_⟩
  unfold maxDeg
  have key : ∀ (l : List node) (n : node), n ∈ l →
      n.toNodes.length ≤ (l.map (fun n => n.toNodes.length)).foldr max 0 := by
    intro l
    induction l with
    | nil => intro n hn; exact absurd hn (List.not_mem_nil n)
    | cons a l ih =>
      intro n hn
      simp only [List.map_cons, List.foldr_cons]
      rcases List.mem_cons.1 hn with x | x
      · subst x; exact le_max_left _ _
      · exact le_trans (ih n x) (le_max_right _ _)
  exact key _ _ hmem

theorem Tracked_copy (g : Graph) (c : contig) (t : Nat) (h : Tracked g c) :
    Tracked g (copy_contig c t) := h

theorem Tracked_advance (g : Graph) (c : contig) (h : Tracked g c)
    (hv : is_node_visited g c c.curr_node = false)
    (hs : (g.nodeAt c.curr_node).toNodes.isEmpty = false) : Tracked g (advance g c) := by
  obtain ⟨h1, h2, h3, h4, h5⟩ := h
  have hnot : (g.nodeAt c.curr_node).seq ∉ c.visited_nodes := by
    unfold is_node_visited at hv
    intro hc
    simp at hv
    exact hv hc
  unfold advance
  refine ⟨h1, ?_, ?_, ?_, ?_⟩
  · simp only [List.length_cons, h2]
  · unfold pathBytes at h3 ⊢
    simp only [List.reverse_cons, List.map_append, List.map_cons, List.map_nil, h3]
  · exact List.nodup_cons.2 ⟨hnot, h4⟩
  · intro s hmem
    rcases List.mem_cons.1 hmem with x | x
    · rw [x]; exact (nonempty_valid g c.curr_node hs).2.1
    · exact h5 s x

theorem visit_tracked (P : Params) (g : Graph) (sr sh : Bool) (c : contig)
    (rest : List contig) (r r1 : Run) (hc : Tracked g c) (hrest : ∀ x ∈ rest, Tracked g x)
    (hv : visit P g sr sh c rest r = some r1) : ∀ x ∈ r1.contigs, Tracked g x := by
  by_cases hvis : is_node_visited g c c.curr_node = true
  · rw [visit_repeat P g sr sh c rest r hvis] at hv
    cases hv; exact hrest
  · simp only [Bool.not_eq_true] at hvis
    by_cases hs : (g.nodeAt c.curr_node).toNodes.isEmpty = true
    · rw [visit_sink P g sr sh c rest r hvis hs] at hv
      cases hv; exact hrest
    · simp only [Bool.not_eq_true] at hs
      rw [visit_interior P g sr sh c rest r hvis hs] at hv
      split at hv
      · exact Option.noConfusion hv
      · cases hv
        intro x hx
        simp only [List.mem_append, List.mem_reverse, List.mem_map] at hx
        rcases hx with ⟨t, _, rfl⟩ | hx
        · exact Tracked_copy g _ t (Tracked_advance g c hc hvis hs)
        · exact hrest x hx

theorem step_tracked (P : Params) (g : Graph) (mp mc : Int) (sr sh : Bool) (r r1 : Run)
    (h : ∀ x ∈ r.contigs, Tracked g x) (hs : step P g mp mc sr sh r = some r1) :
    ∀ x ∈ r1.contigs, Tracked g x := by
  cases hc : r.contigs with
  | nil =>
    rw [step_nil P g mp mc sr sh r hc] at hs
    cases hs; exact h
  | cons c rest =>
    obtain ⟨r2, hv, rfl⟩ := step_cons P g mp mc sr sh r r1 c rest hc hs
    rw [check_bounds_contigs]
    rw [hc] at h
    exact visit_tracked P g sr sh c rest r r2 (h c (List.mem_cons_self c rest))
      (fun x hx => h x (List.mem_cons_of_mem c hx)) hv

theorem start_tracked (g : Graph) (root : Nat) (n : Int) (fp : List record) :
    ∀ x ∈ (start root n fp).contigs, Tracked g x := by
  intro x hx
  simp only [start, List.mem_singleton] at hx
  subst hx
  exact ⟨rfl, rfl, rfl, List.nodup_nil, fun s hs => absurd hs (List.not_mem_nil s)⟩

/-- Every contig on the stack of a state the loop reaches is tracked. -/
theorem iterate_tracked (P : Params) (g : Graph) (mp mc : Int) (sr sh : Bool) (n : Nat)
    (root : Nat) (cnt : Int) (fp : List record) (r : Run)
    (h : iterate P g mp mc sr sh n (start root cnt fp) = some r) :
    ∀ x ∈ r.contigs, Tracked g x :=
  iterate_inv P g mp mc sr sh (fun r => ∀ x ∈ r.contigs, Tracked g x)
    (fun r r1 hI _ hs => step_tracked P g mp mc sr sh r r1 hI hs) n _ r
    (start_tracked g root cnt fp) h

theorem Tracked_length_le (g : Graph) (c : contig) (h : Tracked g c) :
    c.visited_nodes.length ≤ g.arena.length := by
  obtain ⟨_, _, _, h4, h5⟩ := h
  have := (List.subperm_of_subset h4 h5).length_le
  rw [List.length_map] at this
  exact this

/-! ## C11: the status `STOPPED_ON_REPEAT` -/

theorem step_bounds_inv (P : Params) (g : Graph) (mp mc : Int) (sr sh : Bool) (root : Nat)
    (r r1 : Run)
    (_h : r.status = Status.OK →
      (r.contig_count < mc ∧ r.paths_from_root < mp) ∨ r.contigs = [new_contig root])
    (hOK : r.status = Status.OK)
    (hs : step P g mp mc sr sh r = some r1) :
    r1.status = Status.OK →
      (r1.contig_count < mc ∧ r1.paths_from_root < mp) ∨ r1.contigs = [new_contig root] := by
  intro h1
  cases hc : r.contigs with
  | nil =>
    rw [step_nil P g mp mc sr sh r hc] at hs
    cases hs
    exact _h hOK
  | cons c rest =>
    obtain ⟨r2, _, rfl⟩ := step_cons P g mp mc sr sh r r1 c rest hc hs
    obtain ⟨_, h2, h3⟩ := check_bounds_status_OK mp mc r2 h1
    rw [check_bounds_count, check_bounds_paths]
    exact Or.inl ⟨h2, h3⟩

/-- C11: with `stopOnRepeat` set, in either mode, when the loop of
`build_contigs` reaches (with status `OK`) a contig whose current node is in
its visited set, `build_contigs` returns `STOPPED_ON_REPEAT`: the bound checks
of that iteration do not replace the status.  Conversely `build_contigs`
returns `STOPPED_ON_REPEAT` only with `stopOnRepeat` set and after the loop has
reached such a contig. -/
theorem C11_stopped_on_repeat (P : Params) (g : Graph) (root : Nat) (cnt : Int)
    (fp : List record) (max_paths_from_root max_contigs : Int) (shadow_mode : Bool) :
    (∀ (n : Nat) (r : Run) (c : contig) (rest : List contig),
      iterate P g max_paths_from_root max_contigs true shadow_mode n (start root cnt fp)
        = some r →
      r.status = Status.OK → r.contigs = c :: rest →
      is_node_visited g c c.curr_node = true →
      ∀ fuel, n < fuel →
        build_contigs P g fuel root cnt fp max_paths_from_root max_contigs true shadow_mode
          = Outcome.done (Status.STOPPED_ON_REPEAT, r.contig_count, r.fp)) ∧
    (∀ (stop_on_repeat : Bool) (fuel : Nat) (cnt1 : Int) (fp1 : List record),
      build_contigs P g fuel root cnt fp max_paths_from_root max_contigs stop_on_repeat
          shadow_mode = Outcome.done (Status.STOPPED_ON_REPEAT, cnt1, fp1) →
      stop_on_repeat = true ∧
      ∃ (n : Nat) (r : Run) (c : contig) (rest : List contig),
        iterate P g max_paths_from_root max_contigs stop_on_repeat shadow_mode n
          (start root cnt fp) = some r ∧
        r.status = Status.OK ∧ r.contigs = c :: rest ∧
        is_node_visited g c c.curr_node = true) := by
  refine ⟨?_, ?_⟩
  · intro n r c rest hit hOK hc hvis fuel hfuel
    have hQ := iterate_inv P g max_paths_from_root max_contigs true shadow_mode
      (fun r => r.status = Status.OK →
        (r.contig_count < max_contigs ∧ r.paths_from_root < max_paths_from_root) ∨
          r.contigs = [new_contig root])
      (fun r r1 hI hO hs => step_bounds_inv P g _ _ true shadow_mode root r r1 hI hO hs)
      n _ r (fun _ => Or.inr rfl) hit hOK
    have hb : r.contig_count < max_contigs ∧ r.paths_from_root < max_paths_from_root := by
      rcases hQ with x | x
      · exact x
      · rw [hc] at x
        injection x with x1 _
        rw [x1] at hvis
        exact Bool.noConfusion hvis
    have hvisit := visit_repeat P g true shadow_mode c rest r hvis
    have hfl : (if (!shadow_mode && !true) = true
        then output_contig P { c with is_repeat := true } r.contig_count r.fp
        else (r.contig_count, r.fp)) = (r.contig_count, r.fp) := by
      simp
    rw [hfl] at hvisit
    simp only [if_true] at hvisit
    have hstep : step P g max_paths_from_root max_contigs true shadow_mode r
        = some { r with contigs := rest, status := Status.STOPPED_ON_REPEAT } := by
      unfold step
      rw [hc]
      simp only
      rw [hvisit]
      simp only [Option.map_some', Option.some.injEq]
      exact check_bounds_below _ _ _ hb.1 hb.2
    obtain ⟨m, rfl⟩ : ∃ m, fuel = n + (m + 1) := ⟨fuel - n - 1, by omega⟩
    unfold build_contigs
    have hrun := iterate_run_loop P g max_paths_from_root max_contigs true shadow_mode n
      (start root cnt fp) r hit (m + 1)
    rw [run_loop_succ P g _ _ true shadow_mode m r ⟨by rw [hc]; simp, hOK⟩, hstep] at hrun
    simp only at hrun
    rw [run_loop_done P g _ _ true shadow_mode m _ (by simp)] at hrun
    change run_loop P g max_paths_from_root max_contigs true shadow_mode (n + (m + 1))
      ⟨[new_contig root], cnt, fp, 1, Status.OK⟩ = _ at hrun
    rw [hrun]
  · intro sr fuel cnt1 fp1 hb
    have key : ∀ (fuel : Nat) (r r1 : Run),
        run_loop P g max_paths_from_root max_contigs sr shadow_mode fuel r = Outcome.done r1 →
        r1.status = Status.STOPPED_ON_REPEAT → r.status = Status.OK →
        sr = true ∧ ∃ (n : Nat) (r2 : Run) (c : contig) (rest : List contig),
          iterate P g max_paths_from_root max_contigs sr shadow_mode n r = some r2 ∧
          r2.status = Status.OK ∧ r2.contigs = c :: rest ∧
          is_node_visited g c c.curr_node = true := by
      intro fuel
      induction fuel with
      | zero =>
        intro r r1 hrun h1 hOK
        unfold run_loop at hrun
        split at hrun
        · exact Outcome.noConfusion hrun
        · cases hrun
          rw [hOK] at h1
          exact Status.noConfusion h1
      | succ k ih =>
        intro r r1 hrun h1 hOK
        by_cases hcond : r.contigs.length > 0 ∧ r.status = Status.OK
        · rw [run_loop_succ P g _ _ sr shadow_mode k r hcond] at hrun
          cases hst : step P g max_paths_from_root max_contigs sr shadow_mode r with
          | none => rw [hst] at hrun; exact Outcome.noConfusion hrun
          | some r2 =>
            rw [hst] at hrun
            simp only at hrun
            by_cases h2 : r2.status = Status.OK
            · obtain ⟨hsr, n, r3, c, rest, hit, a1, a2, a3⟩ := ih r2 r1 hrun h1 h2
              exact ⟨hsr, n + 1, r3, c, rest,
                by rw [iterate_succ P g _ _ sr shadow_mode n r r2 hcond hst]; exact hit,
                a1, a2, a3⟩
            · have hdone := run_loop_done P g max_paths_from_root max_contigs sr shadow_mode
                k r2 (fun hc => h2 hc.2)
              rw [hdone] at hrun
              cases hrun
              cases hc : r.contigs with
              | nil => rw [hc] at hcond; simp at hcond
              | cons c rest =>
                obtain ⟨r4, hv, rfl⟩ := step_cons P g _ _ sr shadow_mode r _ c rest hc hst
                have h4 := check_bounds_status_ne _ _ r4 h1
                by_cases hvis : is_node_visited g c c.curr_node = true
                · rw [visit_repeat P g sr shadow_mode c rest r hvis] at hv
                  cases hv
                  simp only at h4
                  cases hsr : sr with
                  | true => exact ⟨rfl, 0, r, c, rest, rfl, hOK, hc, hvis⟩
                  | false =>
                    rw [hsr] at h4
                    simp only [Bool.false_eq_true, if_false] at h4
                    rw [hOK] at h4
                    exact Status.noConfusion h4
                · simp only [Bool.not_eq_true] at hvis
                  by_cases hs : (g.nodeAt c.curr_node).toNodes.isEmpty = true
                  · rw [visit_sink P g sr shadow_mode c rest r hvis hs] at hv
                    cases hv
                    simp only at h4
                    rw [hOK] at h4
                    exact Status.noConfusion h4
                  · simp only [Bool.not_eq_true] at hs
                    rw [visit_interior P g sr shadow_mode c rest r hvis hs] at hv
                    split at hv
                    · exact Option.noConfusion hv
                    · cases hv
                      simp only at h4
                      rw [hOK] at h4
                      exact Status.noConfusion h4
        · rw [run_loop_done P g _ _ sr shadow_mode (k + 1) r hcond] at hrun
          cases hrun
          rw [hOK] at h1
          exact Status.noConfusion h1
    unfold build_contigs at hb
    split at hb
    · rename_i r hr
      injection hb with hb
      injection hb with hb1 hb2
      exact key fuel _ r hr hb1 rfl
    · exact Outcome.noConfusion hb
    · exact Outcome.noConfusion hb

theorem C11_stopped_on_repeat_witness :
    iterate scenarioParams cycleGraph 100 10 true true 3 (start 0 0 []) = some cycleRun ∧
    build_contigs scenarioParams cycleGraph 10 0 0 [] 100 10 true true
      = Outcome.done (Status.STOPPED_ON_REPEAT, 0, []) :=
  ⟨by decide!,
    (C11_stopped_on_repeat scenarioParams cycleGraph 0 0 [] 100 10 true).1 3 cycleRun
      ⟨[65, 65, 84], 3, false, 1, [[84, 65, 84], [65, 84, 65], [65, 65, 84]]⟩ []
      (by decide!) rfl rfl (by decide!) 10 (by decide)⟩

/-! ## C15: the `_repeat` tag -/

theorem step_of_visit (P : Params) (g : Graph) (mp mc : Int) (sr sh : Bool) (r r2 : Run)
    (c : contig) (rest : List contig) (hc : r.contigs = c :: rest)
    (hv : visit P g sr sh c rest r = some r2) :
    step P g mp mc sr sh r = some (check_bounds mp mc r2) := by
  unfold step
  rw [hc]
  simp only
  rw [hv]
  rfl

/-- C15: with `stopOnRepeat` false in emission mode, at every state the loop
of `build_contigs` reaches, the contig on top of the stack is written as
follows.  If its current node is in its visited set, the record (written when
long enough) is tagged and its sequence is the first byte of each node visited
before, with no k-mer appended.  If it is at a sink and the k-mer fits the
buffer with its terminator (`size + KMER < MAX_CONTIG_SIZE`), the record is
not tagged and ends with the k-mer of the sink.  Otherwise nothing is written.
So, as long as the sink writes stay inside the buffer, a record is tagged if
and only if its path ended at a revisit. -/
theorem C15_repeat_tag (P : Params) (g : Graph) (root : Nat) (cnt : Int) (fp : List record)
    (max_paths_from_root max_contigs : Int) (n : Nat) (r : Run) (c : contig)
    (rest : List contig)
    (hreach : iterate P g max_paths_from_root max_contigs false false n (start root cnt fp)
      = some r)
    (hc : r.contigs = c :: rest) :
    (is_node_visited g c c.curr_node = true →
      ∃ r1, step P g max_paths_from_root max_contigs false false r = some r1 ∧
        r1.contigs = rest ∧
        r1.fp = if P.MIN_CONTIG_LENGTH ≤ (pathBytes c).length
          then r.fp ++ [⟨r.contig_count, true, pathBytes c⟩] else r.fp) ∧
    (is_node_visited g c c.curr_node = false →
      (g.nodeAt c.curr_node).toNodes.isEmpty = true →
      c.size + P.KMER < P.MAX_CONTIG_SIZE →
      ∃ r1, step P g max_paths_from_root max_contigs false false r = some r1 ∧
        r1.contigs = rest ∧
        r1.fp = if P.MIN_CONTIG_LENGTH
            ≤ (pathBytes c ++ (g.nodeAt c.curr_node).seq.take P.KMER).length
          then r.fp ++ [⟨r.contig_count, false,
            pathBytes c ++ (g.nodeAt c.curr_node).seq.take P.KMER⟩]
          else r.fp) ∧
    (is_node_visited g c c.curr_node = false →
      (g.nodeAt c.curr_node).toNodes.isEmpty = false →
      ∀ r1, step P g max_paths_from_root max_contigs false false r = some r1 →
        r1.fp = r.fp) := by
  have htr := iterate_tracked P g max_paths_from_root max_contigs false false n root cnt fp r
    hreach c (by rw [hc]; exact List.mem_cons_self c rest)
  obtain ⟨h1, _, h3, _, _⟩ := htr
  refine ⟨?_, ?_, ?_⟩
  · intro hvis
    refine ⟨_, step_of_visit P g _ _ false false r _ c rest hc
      (visit_repeat P g false false c rest r hvis), ?_, ?_⟩
    · rw [check_bounds_contigs]
    · rw [check_bounds_fp]
      simp only [output_contig, Bool.not_false, Bool.and_self, if_true, ge_iff_le, h3]
      split <;> rfl
  · intro hvis hs _
    refine ⟨_, step_of_visit P g _ _ false false r _ c rest hc
      (visit_sink P g false false c rest r hvis hs), ?_, ?_⟩
    · rw [check_bounds_contigs]
    · rw [check_bounds_fp]
      simp only [output_contig, Bool.not_false, if_true, ge_iff_le, h3, h1]
      split <;> rfl
  · intro hvis hs r1 hst
    obtain ⟨r2, hv, rfl⟩ := step_cons P g _ _ false false r r1 c rest hc hst
    rw [check_bounds_fp]
    rw [visit_interior P g false false c rest r hvis hs] at hv
    split at hv
    · exact Option.noConfusion hv
    · cases hv; rfl

theorem C15_repeat_tag_witness :
    (iterate scenarioParams cycleGraph 100 10 false false 3 (start 0 0 []) = some cycleRun ∧
      ∃ r1, step scenarioParams cycleGraph 100 10 false false cycleRun = some r1 ∧
        r1.contigs = [] ∧ r1.fp = [⟨0, true, [65, 65, 84]⟩]) ∧
    (iterate scenarioParams branchGraph 100 10 false false 2 (start 0 0 []) = some branchRun ∧
      2 + scenarioParams.KMER < scenarioParams.MAX_CONTIG_SIZE ∧
      ∃ r1, step scenarioParams branchGraph 100 10 false false branchRun = some r1 ∧
        r1.contigs = [⟨[65, 65], 2, false, 3, [[65, 65, 84], [65, 65, 65]]⟩] ∧
        r1.fp = [⟨0, false, [65, 65, 65, 84, 84]⟩]) := by
  refine ⟨⟨by decide!, ?_⟩, ⟨by decide!, by decide, ?_⟩⟩
  · obtain ⟨r1, h1, h2, h3⟩ := (C15_repeat_tag scenarioParams cycleGraph 0 0 [] 100 10 3
      cycleRun ⟨[65, 65, 84], 3, false, 1, [[84, 65, 84], [65, 84, 65], [65, 65, 84]]⟩ []
      (by decide!) rfl).1 (by decide!)
    refine ⟨r1, h1, h2, ?_⟩
    rw [h3]
    decide!
  · obtain ⟨r1, h1, h2, h3⟩ := (C15_repeat_tag scenarioParams branchGraph 0 0 [] 100 10 2
      branchRun ⟨[65, 65], 2, false, 2, [[65, 65, 84], [65, 65, 65]]⟩
      [⟨[65, 65], 2, false, 3, [[65, 65, 84], [65, 65, 65]]⟩]
      (by decide!) rfl).2.1 (by decide!) (by decide!) (by decide)
    refine ⟨r1, h1, h2, ?_⟩
    rw [h3]
    decide!

/-! ## C16: the bytes written into the contig buffer -/

/-- C16: with a buffer of `MAX_CONTIG_SIZE = 4` bytes and `KMER = 3`, the read
`AAATT` gives the chain `AAA -> AAT -> ATT`; the loop reaches the sink `ATT`
with `size = 2` without meeting the fatal check, and the `memcpy` of the k-mer
writes the indices 2, 3 and 4: `size + KMER = 5` is past the buffer, and
`build_contigs` returns `OK` with the record written. -/
theorem C16_sink_write_past_buffer :
    build_graph smallBufferParams [[65, 65, 65, 84, 84]] init_pool = some chainGraph ∧
    iterate smallBufferParams chainGraph 100 10 false false 2 (start 0 0 [])
      = some ⟨[⟨[65, 65], 2, false, 2, [[65, 65, 84], [65, 65, 65]]⟩], 0, [], 3, Status.OK⟩ ∧
    (chainGraph.nodeAt 2).toNodes = [] ∧
    write_end smallBufferParams chainGraph ⟨[65, 65], 2, false, 2, [[65, 65, 84], [65, 65, 65]]⟩
      = 5 ∧
    smallBufferParams.MAX_CONTIG_SIZE = 4 ∧
    build_contigs smallBufferParams chainGraph 10 0 0 [] 100 10 false false
      = Outcome.done (Status.OK, 1, [⟨0, false, [65, 65, 65, 84, 84]⟩]) := by
  decide!

/-! ## C20: the loop of `build_contigs` terminates -/

theorem weight_pos (D d : Nat) : 1 ≤ weight D d := by
  cases d with
  | zero => exact le_refl 1
  | succ d => unfold weight; omega

theorem stackMeasure_cons (g : Graph) (c : contig) (rest : List contig) :
    stackMeasure g (c :: rest)
      = weight (maxDeg g) (g.arena.length - c.visited_nodes.length) + stackMeasure g rest := by
  unfold stackMeasure
  rw [List.map_cons, List.sum_cons]

theorem stackMeasure_append (g : Graph) (a b : List contig) :
    stackMeasure g (a ++ b) = stackMeasure g a + stackMeasure g b := by
  unfold stackMeasure
  rw [List.map_append, List.sum_append]

theorem stackMeasure_copies (g : Graph) (c : contig) (l : List Nat) :
    stackMeasure g ((l.map (copy_contig c)).reverse)
      = l.length * weight (maxDeg g) (g.arena.length - c.visited_nodes.length) := by
  unfold stackMeasure
  rw [List.map_reverse, List.sum_reverse, List.map_map]
  induction l with
  | nil => simp
  | cons t l ih =>
    rw [List.map_cons, List.sum_cons, ih, List.length_cons]
    simp only [Function.comp, copy_contig]
    ring

/-- Each iteration lowers the measure of the stack. -/
theorem step_measure (P : Params) (g : Graph) (mp mc : Int) (sr sh : Bool) (r r1 : Run)
    (c : contig) (rest : List contig) (hc : r.contigs = c :: rest) (htr : Tracked g c)
    (hs : step P g mp mc sr sh r = some r1) :
    stackMeasure g r1.contigs < stackMeasure g r.contigs := by
  obtain ⟨r2, hv, rfl⟩ := step_cons P g mp mc sr sh r r1 c rest hc hs
  rw [check_bounds_contigs, hc, stackMeasure_cons]
  have hpos := weight_pos (maxDeg g) (g.arena.length - c.visited_nodes.length)
  by_cases hvis : is_node_visited g c c.curr_node = true
  · rw [visit_repeat P g sr sh c rest r hvis] at hv
    cases hv
    simp only
    omega
  · simp only [Bool.not_eq_true] at hvis
    by_cases hsink : (g.nodeAt c.curr_node).toNodes.isEmpty = true
    · rw [visit_sink P g sr sh c rest r hvis hsink] at hv
      cases hv
      simp only
      omega
    · simp only [Bool.not_eq_true] at hsink
      rw [visit_interior P g sr sh c rest r hvis hsink] at hv
      split at hv
      · exact Option.noConfusion hv
      · cases hv
        simp only
        rw [stackMeasure_append, stackMeasure_copies]
        have hadv := Tracked_length_le g _ (Tracked_advance g c htr hvis hsink)
        have hdeg := (nonempty_valid g c.curr_node hsink).2.2
        have hv1 : (advance g c).visited_nodes.length = c.visited_nodes.length + 1 := by
          simp [advance]
        rw [hv1] at hadv ⊢
        obtain ⟨d, hd⟩ : ∃ d, g.arena.length - c.visited_nodes.length = d + 1 :=
          ⟨g.arena.length - c.visited_nodes.length - 1, by omega⟩
        have hd2 : g.arena.length - (c.visited_nodes.length + 1) = d := by omega
        rw [hd, hd2]
        have hw : weight (maxDeg g) (d + 1) = maxDeg g * weight (maxDeg g) d + 1 := rfl
        rw [hw]
        have := Nat.mul_le_mul_right (weight (maxDeg g) d) hdeg
        omega

theorem run_loop_terminates (P : Params) (g : Graph) (mp mc : Int) (sr sh : Bool) :
    ∀ (fuel : Nat) (r : Run), (∀ x ∈ r.contigs, Tracked g x) →
      stackMeasure g r.contigs ≤ fuel →
      run_loop P g mp mc sr sh fuel r ≠ Outcome.timeout := by
  intro fuel
  induction fuel with
  | zero =>
    intro r _ hm
    cases hc : r.contigs with
    | nil =>
      rw [run_loop_done P g mp mc sr sh 0 r (by rw [hc]; simp)]
      exact Outcome.noConfusion
    | cons c rest =>
      rw [hc, stackMeasure_cons] at hm
      have := weight_pos (maxDeg g) (g.arena.length - c.visited_nodes.length)
      omega
  | succ k ih =>
    intro r htr hm
    by_cases hcond : r.contigs.length > 0 ∧ r.status = Status.OK
    · rw [run_loop_succ P g mp mc sr sh k r hcond]
      cases hst : step P g mp mc sr sh r with
      | none => exact Outcome.noConfusion
      | some r1 =>
        simp only
        cases hc : r.contigs with
        | nil => rw [hc] at hcond; simp at hcond
        | cons c rest =>
          have hlt := step_measure P g mp mc sr sh r r1 c rest hc
            (htr c (by rw [hc]; exact List.mem_cons_self c rest)) hst
          exact ih r1 (step_tracked P g mp mc sr sh r r1 htr hst) (by omega)
    · rw [run_loop_done P g mp mc sr sh (k + 1) r hcond]
      exact Outcome.noConfusion

/-- C20: on every graph, cyclic or not, for every root and every setting of the
bounds and flags, `build_contigs` ends (with a status, or in the fatal size
check) within `weight (maxDeg g) (number of arena nodes)` iterations; and at
every state the loop reaches, no contig has a k-mer twice in its visited set,
the number of bytes written is the size of that set, and it is at most the
number of nodes of the graph. -/
theorem C20_terminates (P : Params) (g : Graph) (root : Nat) (cnt : Int) (fp : List record)
    (max_paths_from_root max_contigs : Int) (stop_on_repeat shadow_mode : Bool) :
    (∀ fuel, weight (maxDeg g) g.arena.length ≤ fuel →
      build_contigs P g fuel root cnt fp max_paths_from_root max_contigs stop_on_repeat
        shadow_mode ≠ Outcome.timeout) ∧
    (∀ (n : Nat) (r : Run),
      iterate P g max_paths_from_root max_contigs stop_on_repeat shadow_mode n
        (start root cnt fp) = some r →
      ∀ c ∈ r.contigs, c.visited_nodes.Nodup ∧ c.seq.length = c.visited_nodes.length ∧
        c.size = c.visited_nodes.length ∧ c.size ≤ g.arena.length) := by
  refine ⟨?_, ?_⟩
  · intro fuel hfuel
    have := run_loop_terminates P g max_paths_from_root max_contigs stop_on_repeat shadow_mode
      fuel (start root cnt fp) (start_tracked g root cnt fp)
      (by simpa [start, stackMeasure, new_contig] using hfuel)
    unfold build_contigs
    change run_loop P g max_paths_from_root max_contigs stop_on_repeat shadow_mode fuel
      ⟨[new_contig root], cnt, fp, 1, Status.OK⟩ ≠ Outcome.timeout at this
    split
    · exact Outcome.noConfusion
    · exact Outcome.noConfusion
    · rename_i h; exact absurd h this
  · intro n r hreach c hc
    have htr := iterate_tracked P g max_paths_from_root max_contigs stop_on_repeat shadow_mode
      n root cnt fp r hreach c hc
    have hle := Tracked_length_le g c htr
    obtain ⟨_, h2, h3, h4, _⟩ := htr
    refine ⟨h4, ?_, h2, by rw [h2]; exact hle⟩
    rw [h3]
    simp [pathBytes]

theorem C20_terminates_witness :
    weight (maxDeg cycleGraph) cycleGraph.arena.length ≤ 100 ∧
    build_contigs scenarioParams cycleGraph 100 0 0 [] 100 10 false false ≠ Outcome.timeout :=
  ⟨by decide!, (C20_terminates scenarioParams cycleGraph 0 0 [] 100 10 false false).1 100
    (by decide!)⟩

/-! ## C18: the cap on the number of records -/

theorem run_loop_inv_ok (P : Params) (g : Graph) (mp mc : Int) (sr sh : Bool)
    (I : Run → Prop)
    (hstep : ∀ r r1, I r → r.status = Status.OK → step P g mp mc sr sh r = some r1 → I r1) :
    ∀ (fuel : Nat) (r r1 : Run), I r → run_loop P g mp mc sr sh fuel r = Outcome.done r1 →
      I r1 := by
  intro fuel
  induction fuel with
  | zero =>
    intro r r1 hI h
    unfold run_loop at h
    split at h
    · exact Outcome.noConfusion h
    · cases h; exact hI
  | succ n ih =>
    intro r r1 hI h
    by_cases hcond : r.contigs.length > 0 ∧ r.status = Status.OK
    · rw [run_loop_succ P g mp mc sr sh n r hcond] at h
      split at h
      · exact Outcome.noConfusion h
      · rename_i r2 hs
        exact ih r2 r1 (hstep r r2 hI hcond.2 hs) h
    · rw [run_loop_done P g mp mc sr sh (n + 1) r hcond] at h
      cases h; exact hI

theorem output_contig_count (P : Params) (c : contig) (n : Int) (fp : List record) :
    n ≤ (output_contig P c n fp).1 ∧ (output_contig P c n fp).1 ≤ n + 1 ∧
    (c.seq.length < P.MIN_CONTIG_LENGTH → (output_contig P c n fp).1 = n) := by
  unfold output_contig
  split
  · refine ⟨by simp, by simp, fun h => by omega⟩
  · exact ⟨le_refl _, by simp, fun _ => rfl⟩

theorem visit_count (P : Params) (g : Graph) (sr sh : Bool) (c : contig)
    (rest : List contig) (r r2 : Run) (hv : visit P g sr sh c rest r = some r2) :
    r2.contig_count ≤ r.contig_count + 1 ∧
    (c.visited_nodes = [] → c.seq = [] → P.KMER < P.MIN_CONTIG_LENGTH →
      r2.contig_count = r.contig_count) := by
  by_cases hvis : is_node_visited g c c.curr_node = true
  · rw [visit_repeat P g sr sh c rest r hvis] at hv
    cases hv
    simp only
    refine ⟨?_, ?_⟩
    · split
      · exact (output_contig_count P _ _ _).2.1
      · simp
    · intro h1 _ _
      unfold is_node_visited at hvis
      rw [h1] at hvis
      exact Bool.noConfusion hvis
  · simp only [Bool.not_eq_true] at hvis
    by_cases hsink : (g.nodeAt c.curr_node).toNodes.isEmpty = true
    · rw [visit_sink P g sr sh c rest r hvis hsink] at hv
      cases hv
      simp only
      refine ⟨?_, ?_⟩
      · split
        · exact (output_contig_count P _ _ _).2.1
        · simp
      · intro _ h2 hK
        split
        · apply (output_contig_count P _ _ _).2.2
          simp only [h2, List.nil_append, List.length_take]
          omega
        · rfl
    · simp only [Bool.not_eq_true] at hsink
      rw [visit_interior P g sr sh c rest r hvis hsink] at hv
      split at hv
      · exact Option.noConfusion hv
      · cases hv
        exact ⟨by simp, fun _ _ _ => rfl⟩

theorem step_cap (P : Params) (g : Graph) (mp mc : Int) (sr sh : Bool) (root : Nat)
    (hK : P.KMER < P.MIN_CONTIG_LENGTH) (r r1 : Run) (h : CapInv mc root r)
    (hOK : r.status = Status.OK) (hs : step P g mp mc sr sh r = some r1) :
    CapInv mc root r1 := by
  cases hc : r.contigs with
  | nil =>
    rw [step_nil P g mp mc sr sh r hc] at hs
    cases hs; exact h
  | cons c rest =>
    obtain ⟨r2, hv, rfl⟩ := step_cons P g mp mc sr sh r r1 c rest hc hs
    obtain ⟨v1, v2⟩ := visit_count P g sr sh c rest r r2 hv
    have hle : r2.contig_count ≤ mc := by
      rcases h.2 hOK with x | x
      · omega
      · rw [hc] at x
        injection x with x1 _
        have := v2 (by rw [x1]; rfl) (by rw [x1]; rfl) hK
        rw [this]; exact h.1
    refine ⟨by rw [check_bounds_count]; exact hle, ?_⟩
    intro h1
    obtain ⟨_, h2, _⟩ := check_bounds_status_OK mp mc r2 h1
    rw [check_bounds_count]
    exact Or.inl h2

theorem build_contigs_cap (P : Params) (g : Graph) (fuel root : Nat) (n : Int)
    (fp : List record) (mp mc : Int) (sr sh : Bool) (st : Status) (n1 : Int)
    (fp1 : List record) (hK : P.KMER < P.MIN_CONTIG_LENGTH) (h : n ≤ mc)
    (hb : build_contigs P g fuel root n fp mp mc sr sh = Outcome.done (st, n1, fp1)) :
    n1 ≤ mc := by
  unfold build_contigs at hb
  split at hb
  · rename_i r hr
    cases hb
    exact (run_loop_inv_ok P g mp mc sr sh (CapInv mc root)
      (fun r r1 hI hO hs => step_cap P g mp mc sr sh root hK r r1 hI hO hs) fuel _ r
      ⟨h, fun _ => Or.inr rfl⟩ hr).1
  · exact Outcome.noConfusion hb
  · exact Outcome.noConfusion hb

theorem assemble_roots_cap (P : Params) (g : Graph) (fuel : Nat) (tor : Bool)
    (mc mp : Int) (hK : P.KMER < P.MIN_CONTIG_LENGTH) (hmc : 0 ≤ mc) :
    ∀ (roots : List Nat) (d d1 : Driver), d.contig_count ≤ mc →
    assemble_roots P g fuel tor mc mp roots d = Outcome.done d1 → d1.contig_count ≤ mc := by
  intro roots
  induction roots with
  | nil =>
    intro d d1 h hr
    simp only [assemble_roots, Outcome.done.injEq] at hr
    subst hr; exact h
  | cons root roots ih =>
    intro d d1 h hr
    rw [assemble_roots_cons] at hr
    cases h1 : build_contigs P g fuel root 0 d.fp mp mc tor true with
    | fatal => simp [h1] at hr
    | timeout => simp [h1] at hr
    | done x =>
      obtain ⟨status, cnt, fp1⟩ := x
      simp only [h1] at hr
      by_cases hst : status = Status.OK
      · simp only [hst, if_true] at hr
        cases h2 : build_contigs P g fuel root d.contig_count fp1 mp mc tor false with
        | fatal => simp [h2] at hr
        | timeout => simp [h2] at hr
        | done y =>
          obtain ⟨s2, c2, fp2⟩ := y
          have l2 := build_contigs_cap P g fuel root _ fp1 mp mc tor false s2 c2 fp2 hK h h2
          simp only [h2] at hr
          simp at hr
          exact ih ⟨c2, fp2, false⟩ d1 l2 hr
      · simp only [hst, if_false] at hr
        split at hr
        · cases hr; exact hmc
        · exact ih ⟨d.contig_count, fp1, false⟩ d1 h hr

/-- C18: with the scenario constants (`KMER = 3`, `MIN_CONTIG_LENGTH = 3`)
and `max_contigs = 1`, the reads `isolatedReads` leave the roots `CCC`
(node 6) and `AAA` (node 1) after pruning.  The shadow pass of each root
returns `OK`, its counter still 0.  The emission pass of `CCC` writes one
record and returns `TOO_MANY_CONTIGS`, a status `assemble` does not look at;
the emission pass of `AAA` then writes a second record.  `assemble` returns 2
and leaves two records in the file, one more than the cap; the root loop
leaves two records as well when it takes the two roots in the other order. -/
theorem C18_cap_exceeded :
    identify_root_nodes isolatedGraph = [6, 1] ∧
    build_contigs scenarioParams isolatedGraph 50 6 0 [] 100 1 false true
      = Outcome.done (Status.OK, 0, []) ∧
    build_contigs scenarioParams isolatedGraph 50 6 0 [] 100 1 false false
      = Outcome.done (Status.TOO_MANY_CONTIGS, 1, [⟨0, false, [67, 67, 67]⟩]) ∧
    build_contigs scenarioParams isolatedGraph 50 1 0 [⟨0, false, [67, 67, 67]⟩] 100 1
        false true
      = Outcome.done (Status.OK, 0, [⟨0, false, [67, 67, 67]⟩]) ∧
    build_contigs scenarioParams isolatedGraph 50 1 1 [⟨0, false, [67, 67, 67]⟩] 100 1
        false false
      = Outcome.done (Status.TOO_MANY_CONTIGS, 2,
          [⟨0, false, [67, 67, 67]⟩, ⟨1, false, [65, 65, 65]⟩]) ∧
    assemble scenarioParams 50 isolatedReads false 1 100
      = Outcome.done (2, [⟨0, false, [67, 67, 67]⟩, ⟨1, false, [65, 65, 65]⟩]) ∧
    assemble_roots scenarioParams isolatedGraph 50 false 1 100 [1, 6] ⟨0, [], false⟩
      = Outcome.done ⟨2, [⟨0, false, [65, 65, 65]⟩, ⟨1, false, [67, 67, 67]⟩], false⟩ := by
  decide!

/-- When `KMER < MIN_CONTIG_LENGTH` (as with the default constants 63 and
101) the first iteration of a pass writes nothing, and for every input and
every `max_contigs >= 0` the file `assemble` leaves has at most `max_contigs`
records. -/
theorem global_cap_of_short_kmer (P : Params) (fuel : Nat) (input : List (List Nat))
    (truncate_on_repeat : Bool) (max_contigs max_paths_from_root n : Int)
    (out : List record) (hK : P.KMER < P.MIN_CONTIG_LENGTH) (hmc : 0 ≤ max_contigs)
    (h : assemble P fuel input truncate_on_repeat max_contigs max_paths_from_root
      = Outcome.done (n, out)) :
    ((out.length : Nat) : Int) ≤ max_contigs := by
  unfold assemble at h
  split at h
  · exact Outcome.noConfusion h
  · rename_i g0 _
    unfold assemble_graph at h
    split at h
    · exact Outcome.noConfusion h
    · exact Outcome.noConfusion h
    · rename_i d hd
      obtain ⟨h1, _⟩ := assemble_roots_numbered P (prune_graph P g0) fuel truncate_on_repeat
        max_contigs max_paths_from_root _ ⟨0, [], false⟩ d ⟨rfl, rfl⟩ rfl hd
      have hcap := assemble_roots_cap P (prune_graph P g0) fuel truncate_on_repeat
        max_contigs max_paths_from_root hK hmc _ ⟨0, [], false⟩ d hmc hd
      injection h with h
      injection h with ha hb
      subst ha hb
      cases ht : d.truncate_output with
      | false =>
        simp only [Bool.false_eq_true, if_false]
        rw [← (h1 ht).1]
        exact hcap
      | true =>
        simp only [if_true, List.length_nil]
        exact hmc

theorem global_cap_of_short_kmer_example :
    (⟨5, 3, 4, 1, 100⟩ : Params).KMER < (⟨5, 3, 4, 1, 100⟩ : Params).MIN_CONTIG_LENGTH ∧
    assemble ⟨5, 3, 4, 1, 100⟩ 50 abortReads false 1 100
      = Outcome.done (1, [⟨0, false, [67, 67, 67, 71]⟩]) ∧
    (((([⟨0, false, [67, 67, 67, 71]⟩] : List record).length : Nat)) : Int) ≤ 1 :=
  ⟨by decide, by decide!,
    global_cap_of_short_kmer ⟨5, 3, 4, 1, 100⟩ 50 abortReads false 1 100 1
      [⟨0, false, [67, 67, 67, 71]⟩] (by decide) (by decide) (by decide!)⟩

/-! ## C19: the pruner computes the induced subgraph -/

theorem erase_filter_not_mem (l pr : List Nat) (n : Nat) (hl : l.Nodup) :
    (l.filter (fun j => decide (j ∉ pr))).erase n
      = l.filter (fun j => decide (j ∉ n :: pr)) := by
  rw [(hl.filter _).erase_eq_filter n, List.filter_filter]
  apply List.filter_congr
  intro x _
  by_cases h1 : x = n
  · simp [h1]
  · by_cases h2 : x ∈ pr
    · simp [h1, h2]
    · simp [h1, h2]

theorem PrunedTo_step (g h : Graph) (hg : WF g) (pr : List Nat) (key : List Nat) (n : Nat)
    (hp : PrunedTo g pr h) (hin : (key, n) ∈ g.table) (hn : n ∉ pr) :
    PrunedTo g (n :: pr) (prune_node h key n) := by
  have hinh : (key, n) ∈ h.table := by
    rw [hp.table, List.mem_filter]
    exact ⟨hin, by simpa using hn⟩
  have hlt := (hp.wf.entry (key, n) hinh).1
  obtain ⟨ht, _, _, hf⟩ := prune_node_spec h hp.wf key n hlt
  refine ⟨prune_node_WF h hp.wf key n hinh, ?_, ?_, ?_, ?_⟩
  · rw [ht, hp.table, List.filter_filter]
    apply List.filter_congr
    intro e he
    have hiff := entry_key_iff g hg key n hin e he
    by_cases h1 : e.2 = n
    · have : e.1 = key := hiff.2 h1
      simp [h1, this]
    · have : ¬ e.1 = key := fun hc => h1 (hiff.1 hc)
      by_cases h2 : e.2 ∈ pr
      · simp [h1, h2, this]
      · simp [h1, h2, this]
  · intro k
    obtain ⟨a1, a2, a3, _⟩ := hf k
    obtain ⟨b1, b2, b3⟩ := hp.data k
    exact ⟨a2.trans b1, a3.trans b2, a1.trans b3⟩
  · intro k
    rw [(hf k).2.2.2.2.1, hp.to_list k]
    by_cases h1 : k = n
    · simp [h1]
    · by_cases h2 : k ∈ pr
      · simp [h1, h2]
      · have h3 : k ∉ n :: pr := by simp [h1, h2]
        rw [if_neg h1, if_neg h2, if_neg h3]
        exact erase_filter_not_mem _ pr n (hg.to_nodup k)
  · intro k
    rw [(hf k).2.2.2.2.2, hp.from_list k]
    by_cases h1 : k = n
    · simp [h1]
    · by_cases h2 : k ∈ pr
      · simp [h1, h2]
      · have h3 : k ∉ n :: pr := by simp [h1, h2]
        rw [if_neg h1, if_neg h2, if_neg h3]
        exact erase_filter_not_mem _ pr n (hg.from_nodup k)

theorem PrunedTo_perm (g h : Graph) (pr pr1 : List Nat) (hp : PrunedTo g pr h)
    (hm : ∀ j, j ∈ pr ↔ j ∈ pr1) : PrunedTo g pr1 h := by
  have e : (fun (j : Nat) => decide (j ∉ pr)) = (fun j => decide (j ∉ pr1)) := by
    funext j; simp [hm j]
  have e2 : (fun (x : List Nat × Nat) => decide (x.2 ∉ pr))
      = (fun x => decide (x.2 ∉ pr1)) := by
    funext x; simp [hm x.2]
  refine ⟨hp.wf, by rw [hp.table, e2], hp.data, ?_, ?_⟩
  · intro k; rw [hp.to_list k, e]; simp only [hm k]
  · intro k; rw [hp.from_list k, e]; simp only [hm k]

theorem prunedOf_append (P : Params) (g : Graph) (a b : List (List Nat × Nat)) :
    prunedOf P g (a ++ b) = prunedOf P g a ++ prunedOf P g b := by
  unfold prunedOf
  rw [List.filter_append, List.map_append]

/-- The loop of `prune_graph` removes exactly the weak nodes of the entries it
visits. -/
theorem prune_entries_PrunedTo (P : Params) (g : Graph) (hg : WF g) :
    ∀ (es done : List (List Nat × Nat)) (h : Graph), done ++ es = g.table →
      PrunedTo g (prunedOf P g done) h →
      PrunedTo g (prunedOf P g g.table) (prune_entries P es h) := by
  intro es
  induction es with
  | nil =>
    intro done h hd hp
    rw [List.append_nil] at hd
    rw [← hd]
    exact hp
  | cons e es ih =>
    intro done h hd hp
    unfold prune_entries
    rw [List.foldl_cons]
    have hd2 : (done ++ [e]) ++ es = g.table := by rw [List.append_assoc]; exact hd
    have hein : e ∈ g.table := by rw [← hd]; simp
    have hnd : g.table.Nodup := List.Nodup.of_map Prod.fst hg.keys_nodup
    have hfresh : e.2 ∉ prunedOf P g done := by
      intro hc
      unfold prunedOf at hc
      rw [List.mem_map] at hc
      obtain ⟨e1, he1, h12⟩ := hc
      have he1d : e1 ∈ done := List.mem_of_mem_filter he1
      have he1g : e1 ∈ g.table := by rw [← hd]; exact List.mem_append_left _ he1d
      have hk : e1.1 = e.1 := by
        rw [← (hg.entry e1 he1g).2, ← (hg.entry e hein).2, h12]
      have heq := entry_unique g hg e1 e he1g hein hk
      rw [← hd, List.nodup_append] at hnd
      exact hnd.2.2 he1d (by rw [heq]; exact List.mem_cons_self e es)
    have heq : is_weak P (h.nodeAt e.2) = is_weak P (g.nodeAt e.2) :=
      is_weak_congr P _ _ (hp.data e.2).1 (hp.data e.2).2.1
    by_cases hweak : is_weak P (h.nodeAt e.2) = true
    · rw [if_pos hweak]
      apply ih (done ++ [e]) _ hd2
      have hstep := PrunedTo_step g h hg _ e.1 e.2 hp hein hfresh
      apply PrunedTo_perm g _ _ _ hstep
      intro j
      rw [prunedOf_append]
      have : prunedOf P g [e] = [e.2] := by
        unfold prunedOf
        rw [heq] at hweak
        simp [List.filter_cons, hweak]
      rw [this]
      simp only [List.mem_cons, List.mem_append, List.mem_singleton, List.not_mem_nil, or_false]
      tauto
    · rw [if_neg hweak]
      apply ih (done ++ [e]) h hd2
      rw [prunedOf_append]
      have : prunedOf P g [e] = [] := by
        unfold prunedOf
        rw [heq] at hweak
        simp [List.filter_cons, hweak]
      rw [this, List.append_nil]
      exact hp

theorem PrunedTo_init (g : Graph) (hg : WF g) : PrunedTo g [] g := by
  refine ⟨hg, ?_, fun k => ⟨rfl, rfl, rfl⟩, ?_, ?_⟩
  · simp
  · intro k; simp
  · intro k; simp

theorem mem_prunedOf_table (P : Params) (g : Graph) (j : Nat) :
    j ∈ prunedOf P g g.table ↔ g.inTable j ∧ is_weak P (g.nodeAt j) = true := by
  unfold prunedOf Graph.inTable
  simp only [List.mem_map, List.mem_filter]
  constructor
  · rintro ⟨e, ⟨h1, h2⟩, rfl⟩
    exact ⟨⟨e, h1, rfl⟩, h2⟩
  · rintro ⟨⟨e, h1, rfl⟩, h2⟩
    exact ⟨e, ⟨h1, h2⟩, rfl⟩

/-- C19: on a well-formed graph, every node of the map that is not weak stays
in the map through `prune_graph`, and its `toNodes` and `fromNodes` lists
afterwards are its lists before with the weak nodes removed, in the same
order; so a surviving node all of whose predecessors were weak has an empty
`fromNodes` list and is among the roots. -/
theorem C19_induced_subgraph (P : Params) (g : Graph) (hg : WF g) (key : List Nat) (n : Nat)
    (hin : (key, n) ∈ g.table) (hstrong : is_weak P (g.nodeAt n) = false) :
    (key, n) ∈ (prune_graph P g).table ∧
    ((prune_graph P g).nodeAt n).toNodes
      = (g.nodeAt n).toNodes.filter (fun j => !is_weak P (g.nodeAt j)) ∧
    ((prune_graph P g).nodeAt n).fromNodes
      = (g.nodeAt n).fromNodes.filter (fun j => !is_weak P (g.nodeAt j)) ∧
    ((∀ p ∈ (g.nodeAt n).fromNodes, is_weak P (g.nodeAt p) = true) →
      ((prune_graph P g).nodeAt n).fromNodes = [] ∧
      n ∈ identify_root_nodes (prune_graph P g)) := by
  have hp := prune_entries_PrunedTo P g hg g.table [] g rfl (PrunedTo_init g hg)
  have hpr := mem_prunedOf_table P g
  have hn : n ∉ prunedOf P g g.table := by
    intro hc
    rw [((hpr n).1 hc).2] at hstrong
    exact Bool.noConfusion hstrong
  have hmem : (key, n) ∈ (prune_graph P g).table := by
    unfold prune_graph
    rw [hp.table, List.mem_filter]
    exact ⟨hin, by simpa using hn⟩
  have hto : ((prune_graph P g).nodeAt n).toNodes
      = (g.nodeAt n).toNodes.filter (fun j => !is_weak P (g.nodeAt j)) := by
    unfold prune_graph
    rw [hp.to_list n, if_neg hn]
    apply List.filter_congr
    intro j hj
    have hjt := hg.to_in n j hj
    cases hw : is_weak P (g.nodeAt j) with
    | true => simp [(hpr j).2 ⟨hjt, hw⟩]
    | false =>
      have : j ∉ prunedOf P g g.table := fun hc => by
        rw [((hpr j).1 hc).2] at hw; exact Bool.noConfusion hw
      simp [this]
  have hfrom : ((prune_graph P g).nodeAt n).fromNodes
      = (g.nodeAt n).fromNodes.filter (fun j => !is_weak P (g.nodeAt j)) := by
    unfold prune_graph
    rw [hp.from_list n, if_neg hn]
    apply List.filter_congr
    intro j hj
    have hjt := hg.from_in n j hj
    cases hw : is_weak P (g.nodeAt j) with
    | true => simp [(hpr j).2 ⟨hjt, hw⟩]
    | false =>
      have : j ∉ prunedOf P g g.table := fun hc => by
        rw [((hpr j).1 hc).2] at hw; exact Bool.noConfusion hw
      simp [this]
  refine ⟨hmem, hto, hfrom, ?_⟩
  intro hall
  have hempty : ((prune_graph P g).nodeAt n).fromNodes = [] := by
    rw [hfrom, List.filter_eq_nil_iff]
    intro p hp2
    simp [hall p hp2]
  refine ⟨hempty, ?_⟩
  have key2 : ∀ (t : List (List Nat × Nat)) (acc : List Nat) (h2 : Graph),
      ((key, n) ∈ t ∨ n ∈ acc) → (h2.nodeAt n).fromNodes = [] →
      n ∈ t.foldl (fun roots e =>
        if (h2.nodeAt e.2).fromNodes.isEmpty then e.2 :: roots else roots) acc := by
    intro t
    induction t with
    | nil =>
      intro acc h2 hor _
      rcases hor with x | x
      · exact absurd x (List.not_mem_nil _)
      · exact x
    | cons e t ih =>
      intro acc h2 hor hemp
      rw [List.foldl_cons]
      apply ih _ h2 _ hemp
      rcases hor with x | x
      · rcases List.mem_cons.1 x with y | y
        · right
          rw [← y]
          simp [hemp]
        · exact Or.inl y
      · right
        split
        · exact List.mem_cons_of_mem _ x
        · exact x
  exact key2 _ [] _ (Or.inl hmem) hempty

theorem C19_induced_subgraph_witness :
    WF branchGraph ∧ ([65, 65, 84], 1) ∈ branchGraph.table ∧
    is_weak scenarioParams (branchGraph.nodeAt 1) = false ∧
    ((prune_graph scenarioParams branchGraph).nodeAt 1).toNodes
      = (branchGraph.nodeAt 1).toNodes.filter
          (fun j => !is_weak scenarioParams (branchGraph.nodeAt j)) :=
  ⟨(build_graph_WF scenarioParams branchReads branchGraph (by rfl)).1, by decide!, by decide!,
    (C19_induced_subgraph scenarioParams branchGraph
      (build_graph_WF scenarioParams branchReads branchGraph (by rfl)).1 [65, 65, 84] 1
      (by decide!) (by decide!)).2.1⟩

/-! ## The graph builder: the edges -/

theorem offsets_eq_range (P : Params) : offsets P = List.range (nOff P) := by
  unfold nOff offsets
  split
  · simp
  · rfl

theorem nOff_pos_iff (P : Params) (i : Nat) :
    i < nOff P ↔ P.KMER ≤ P.READ_LENGTH ∧ i ≤ P.READ_LENGTH - P.KMER := by
  unfold nOff offsets
  split
  · rename_i h; simp [h]; omega
  · rename_i h; simp [h]

theorem foldlO_range_inv {σ : Type} (f : σ → Nat → Option σ) (I : Nat → σ → Prop) :
    ∀ (n : Nat), (∀ m s s1, m < n → I m s → f s m = some s1 → I (m + 1) s1) →
    ∀ (s s1 : σ), I 0 s → foldlO f s (List.range n) = some s1 → I n s1 := by
  intro n
  induction n with
  | zero =>
    intro _ s s1 h0 h
    simp only [List.range_zero, foldlO, Option.some.injEq] at h
    subst h; exact h0
  | succ n ih =>
    intro hstep s s1 h0 h
    rw [List.range_succ, foldlO_append] at h
    cases hf : foldlO f s (List.range n) with
    | none => rw [hf] at h; exact Option.noConfusion h
    | some s2 =>
      rw [hf] at h
      simp only [Option.some_bind, foldlO] at h
      have h2 := ih (fun m s s1 hm => hstep m s s1 (by omega)) s s2 h0 hf
      cases hfn : f s2 n with
      | none => rw [hfn] at h; exact Option.noConfusion h
      | some s3 =>
        rw [hfn] at h
        simp only [Option.some.injEq] at h
        subst h
        exact hstep n s2 s3 (by omega) h2 hfn

/-- What the probe does to the map, the k-mers and the `toNodes` lists. -/
theorem probe_shape (ga gm : Graph) (k : List Nat) (s curr : Nat) (h : WF ga)
    (hp : probe ga k s = some (gm, curr)) :
    (gm.nodeAt curr).seq = k ∧
    (∀ j, gm.inTable j ↔ ga.inTable j ∨ j = curr) ∧
    (∀ j, ga.inTable j → (gm.nodeAt j).seq = (ga.nodeAt j).seq ∧
      (gm.nodeAt j).toNodes = (ga.nodeAt j).toNodes) ∧
    (ga.inTable curr ∨ (k ∉ ga.table.map Prod.fst ∧ ¬ ga.inTable curr ∧
      (gm.nodeAt curr).toNodes = [])) := by
  obtain ⟨_, hcase⟩ := probe_cases ga gm k s curr hp
  rcases hcase with ⟨hl, hcurr, ht, ha⟩ | ⟨hl, ht, ha⟩
  · have hk : k ∉ ga.table.map Prod.fst := (lookup_eq_none_iff ga.table k).1 hl
    have hn := nodeAt_of_arena_append ga gm _ ha
    have hnew : gm.nodeAt curr = ⟨k, 1, [], [], s, false⟩ := by
      rw [hn, hcurr]; simp
    have hnot : ¬ ga.inTable curr := by
      intro hc
      have := inTable_lt ga h curr hc
      omega
    refine ⟨by rw [hnew], ?_, ?_, Or.inr ⟨hk, hnot, by rw [hnew]⟩⟩
    · intro j
      unfold Graph.inTable
      rw [ht]
      simp only [List.map_append, List.mem_append, List.map_cons, List.map_nil,
        List.mem_singleton]
    · intro j hj
      have := inTable_lt ga h j hj
      rw [hn]
      simp [this]
  · have hmem := lookup_eq_some_mem ga.table k curr hl
    have hclt := (h.entry (k, curr) hmem).1
    have hn := nodeAt_of_arena_set ga gm curr _ ha
    have hinc : ga.inTable curr := by
      unfold Graph.inTable; rw [List.mem_map]; exact ⟨(k, curr), hmem, rfl⟩
    have hsame : ∀ j, (gm.nodeAt j).seq = (ga.nodeAt j).seq ∧
        (gm.nodeAt j).toNodes = (ga.nodeAt j).toNodes := by
      intro j
      rw [hn]
      split
      · rename_i hc; rw [← hc.1]; exact ⟨rfl, rfl⟩
      · exact ⟨rfl, rfl⟩
    refine ⟨?_, ?_, fun j _ => hsame j, Or.inl hinc⟩
    · rw [(hsame curr).1]; exact (h.entry (k, curr) hmem).2
    · intro j
      unfold Graph.inTable
      rw [ht]
      constructor
      · exact Or.inl
      · rintro (x | x)
        · exact x
        · rw [x]; exact hinc

theorem add_kmer_edges (P : Params) (s : Nat) (st st1 : Graph × Option Nat) (m : Nat)
    (done : List (List Nat)) (r : List Nat) (h : BuildInv st)
    (hr : st.1.reads.getD s [] = r) (he : EdgeInv P done r m st)
    (hkeys : ∀ k, ((∃ r1 ∈ done, ∃ i, i < nOff P ∧ k = kmerAt P r1 i) ∨
      (∃ i, i < m ∧ k = kmerAt P r i)) → k ∈ st.1.table.map Prod.fst)
    (hstep : add_kmer P s st m = some st1) : EdgeInv P done r (m + 1) st1 := by
  obtain ⟨g, prev⟩ := st
  obtain ⟨g1, prev1⟩ := st1
  obtain ⟨hwf, hcov, hprev⟩ := h
  obtain ⟨hedge, hp0, hp1⟩ := he
  simp only at hr hkeys hedge hp0 hp1
  obtain ⟨ga, gm, curr, hat, haa, har, hp, hprev1, hg1⟩ :=
    add_kmer_cases P s g prev m g1 prev1 hstep
  rw [hr] at hp
  have hna : ∀ j, ga.nodeAt j = g.nodeAt j := by
    intro j; unfold Graph.nodeAt; rw [haa]
  have hga : WF ga := WF_congr g ga hwf hat (by rw [haa])
    (fun j => by rw [hna]) (fun j => by rw [hna]) (fun j => by rw [hna])
  have hin : ∀ i, ga.inTable i ↔ g.inTable i := by
    intro i; unfold Graph.inTable; rw [hat]
  have hcga : Covered ga := by
    intro i hi; rw [haa] at hi; exact (hin i).2 (hcov i hi)
  obtain ⟨hwm, _, hcurr, hmono⟩ := probe_WF ga gm _ s curr hga hcga hp
  obtain ⟨hseqc, hinm, hold, hnew⟩ := probe_shape ga gm _ s curr hga hp
  have hfol : ∀ (a b : List Nat), (Follows P done a b ∨
      ∃ i, i + 1 < m ∧ a = kmerAt P r i ∧ b = kmerAt P r (i + 1)) →
      a ∈ g.table.map Prod.fst ∧ b ∈ g.table.map Prod.fst := by
    intro a b hab
    rcases hab with ⟨r1, hr1, i, hi, ha, hb⟩ | ⟨i, hi, ha, hb⟩
    · exact ⟨hkeys a (Or.inl ⟨r1, hr1, i, by omega, ha⟩),
        hkeys b (Or.inl ⟨r1, hr1, i + 1, hi, hb⟩)⟩
    · exact ⟨hkeys a (Or.inr ⟨i, by omega, ha⟩), hkeys b (Or.inr ⟨i + 1, hi, hb⟩)⟩
  -- the edges after the probe
  have hA : ∀ A B, gm.inTable A → gm.inTable B →
      (B ∈ (gm.nodeAt A).toNodes ↔
        Follows P done (gm.nodeAt A).seq (gm.nodeAt B).seq ∨
        ∃ i, i + 1 < m ∧ (gm.nodeAt A).seq = kmerAt P r i ∧
          (gm.nodeAt B).seq = kmerAt P r (i + 1)) := by
    intro A B hAin hBin
    by_cases hAold : g.inTable A
    · obtain ⟨sa, ta⟩ := hold A ((hin A).2 hAold)
      rw [sa, ta, hna]
      by_cases hBold : g.inTable B
      · obtain ⟨sb, _⟩ := hold B ((hin B).2 hBold)
        rw [sb, hna]
        exact hedge A B hAold hBold
      · have hBc : B = curr := by
          rcases (hinm B).1 hBin with x | x
          · exact absurd ((hin B).1 x) hBold
          · exact x
        rcases hnew with x | ⟨hk, _, _⟩
        · rw [hBc] at hBold; exact absurd ((hin curr).1 x) hBold
        · constructor
          · intro hmem
            exact absurd (hwf.to_in A B hmem) hBold
          · intro hrhs
            have := (hfol _ _ hrhs).2
            rw [hBc, hseqc, ← hat] at this
            exact absurd this hk
    · have hAc : A = curr := by
        rcases (hinm A).1 hAin with x | x
        · exact absurd ((hin A).1 x) hAold
        · exact x
      rcases hnew with x | ⟨hk, _, hempty⟩
      · rw [hAc] at hAold; exact absurd ((hin curr).1 x) hAold
      · rw [hAc, hempty]
        constructor
        · intro hmem; exact absurd hmem (List.not_mem_nil B)
        · intro hrhs
          have := (hfol _ _ hrhs).1
          rw [hseqc, ← hat] at this
          exact absurd this hk
  have hin1 : ∀ i, g1.inTable i ↔ gm.inTable i := by
    intro i; unfold Graph.inTable; rw [hg1, link_prev_table]
  have hclt := inTable_lt gm hwm curr hcurr
  refine ⟨?_, fun hc => by omega, ?_⟩
  · intro A B hAin hBin
    change g1.inTable A at hAin
    change g1.inTable B at hBin
    change B ∈ (g1.nodeAt A).toNodes ↔ Follows P done (g1.nodeAt A).seq (g1.nodeAt B).seq ∨
      ∃ i, i + 1 < m + 1 ∧ (g1.nodeAt A).seq = kmerAt P r i ∧
        (g1.nodeAt B).seq = kmerAt P r (i + 1)
    have hAm := (hin1 A).1 hAin
    have hBm := (hin1 B).1 hBin
    cases hpv : prev with
    | none =>
      have hm0 : m = 0 := by
        by_contra hc
        obtain ⟨p, hp2, _⟩ := hp1 (by omega)
        rw [hpv] at hp2
        exact Option.noConfusion hp2
      have hgg : g1 = gm := by rw [hg1, hpv]; rfl
      rw [hgg, hA A B hAm hBm, hm0]
      constructor
      · rintro (x | ⟨i, hi, _⟩)
        · exact Or.inl x
        · omega
      · rintro (x | ⟨i, hi, _⟩)
        · exact Or.inl x
        · omega
    | some p =>
      have hmpos : 0 < m := by
        by_contra hc
        have := hp0 (by omega)
        rw [hpv] at this
        exact Option.noConfusion this
      obtain ⟨p2, hp2, hpin, hpseq⟩ := hp1 hmpos
      rw [hpv] at hp2
      injection hp2 with hp2
      subst hp2
      have hpm : gm.inTable p := hmono p ((hin p).2 hpin)
      have hplt := inTable_lt gm hwm p hpm
      have hgg : g1 = link_nodes gm p curr := by rw [hg1, hpv]; rfl
      have hs1 : ∀ j, (g1.nodeAt j).seq = (gm.nodeAt j).seq := by
        intro j; rw [hgg]; exact link_nodes_seq gm p curr hplt hclt j
      have hpseqm : (gm.nodeAt p).seq = kmerAt P r (m - 1) := by
        rw [(hold p ((hin p).2 hpin)).1, hna]; exact hpseq
      rw [hs1, hs1, hgg, link_nodes_mem_to gm hwm p curr hpm hcurr, hA A B hAm hBm]
      constructor
      · rintro ((x | ⟨i, hi, e1, e2⟩) | ⟨rfl, rfl⟩)
        · exact Or.inl x
        · exact Or.inr ⟨i, by omega, e1, e2⟩
        · refine Or.inr ⟨m - 1, by omega, hpseqm, ?_⟩
          have : m - 1 + 1 = m := by omega
          rw [this]; exact hseqc
      · rintro (x | ⟨i, hi, e1, e2⟩)
        · exact Or.inl (Or.inl x)
        · by_cases him : i + 1 < m
          · exact Or.inl (Or.inr ⟨i, him, e1, e2⟩)
          · have hi2 : i = m - 1 := by omega
            have hi3 : i + 1 = m := by omega
            rw [hi2] at e1
            rw [hi3] at e2
            right
            exact ⟨hwm.seq_inj A p (inTable_lt gm hwm A hAm) hplt (e1.trans hpseqm.symm),
              hwm.seq_inj B curr (inTable_lt gm hwm B hBm) hclt (e2.trans hseqc.symm)⟩
  · intro _
    refine ⟨curr, hprev1, (hin1 curr).2 hcurr, ?_⟩
    change (g1.nodeAt curr).seq = kmerAt P r (m + 1 - 1)
    have e : m + 1 - 1 = m := by omega
    rw [e]
    cases hpv : prev with
    | none =>
      have hgg : g1 = gm := by rw [hg1, hpv]; rfl
      rw [hgg]; exact hseqc
    | some p =>
      have hpm : gm.inTable p := hmono p ((hin p).2 (hprev p hpv))
      have hgg : g1 = link_nodes gm p curr := by rw [hg1, hpv]; rfl
      rw [hgg, link_nodes_seq gm p curr (inTable_lt gm hwm p hpm) hclt]
      exact hseqc

theorem mem_kmersOf (P : Params) (r k : List Nat) :
    k ∈ kmersOf P r ↔ ∃ i, i < nOff P ∧ k = kmerAt P r i := by
  unfold kmersOf
  rw [offsets_eq_range, List.mem_map]
  constructor
  · rintro ⟨i, hi, rfl⟩
    exact ⟨i, List.mem_range.1 hi, rfl⟩
  · rintro ⟨i, hi, rfl⟩
    exact ⟨i, List.mem_range.2 hi, rfl⟩

theorem add_to_graph_full (P : Params) (s : Nat) (g g1 : Graph) (done : List (List Nat))
    (r : List Nat) (h : WF g) (hc : Covered g) (hd : DataInv (occsFrom P 0 done) g)
    (hs : s < g.reads.length) (hr : g.reads.getD s [] = r) (he : EdgeAll P done g)
    (hstep : add_to_graph P s g = some g1) : EdgeAll P (done ++ [r]) g1 := by
  unfold add_to_graph at hstep
  cases hf : foldlO (add_kmer P s) (g, none) (offsets P) with
  | none => rw [hf] at hstep; exact Option.noConfusion hstep
  | some st1 =>
    rw [hf] at hstep
    simp only [Option.map_some', Option.some.injEq] at hstep
    rw [offsets_eq_range] at hf
    have := foldlO_range_inv (add_kmer P s)
      (fun m st => BuildInv st ∧ st.1.reads = g.reads ∧
        DataInv (occsFrom P 0 done ++ (List.range m).map (fun i => (kmerAt P r i, s))) st.1 ∧
        EdgeInv P done r m st)
      (nOff P)
      (fun m st st2 _ hI hst => by
        obtain ⟨h1, h2, h3, h4⟩ := hI
        obtain ⟨h5, h6⟩ := add_kmer_data P s st st2 m _ h1 h3 (by rw [h2]; exact hs) hst
        have hr2 : st.1.reads.getD s [] = r := by rw [h2]; exact hr
        refine ⟨add_kmer_inv P s st st2 m h1 hst, h5.trans h2, ?_, ?_⟩
        · rw [hr2] at h6
          rw [List.range_succ, List.map_append, ← List.append_assoc]
          exact h6
        · apply add_kmer_edges P s st st2 m done r h1 hr2 h4 _ hst
          intro k hk
          rw [h3.keys k, List.map_append, List.mem_append, mem_occsFrom]
          rcases hk with ⟨r1, hr1, i, hi, rfl⟩ | ⟨i, hi, rfl⟩
          · exact Or.inl ⟨r1, hr1, (mem_kmersOf P r1 _).2 ⟨i, hi, rfl⟩⟩
          · right
            rw [List.map_map, List.mem_map]
            exact ⟨i, List.mem_range.2 hi, rfl⟩)
      (g, none) st1
      ⟨⟨h, hc, fun p hp => Option.noConfusion hp⟩, rfl, by simpa using hd,
        ⟨fun A B hA hB => by
          rw [he A B hA hB]
          constructor
          · exact Or.inl
          · rintro (x | ⟨i, hi, _⟩)
            · exact x
            · omega,
         fun _ => rfl, fun hc => by omega⟩⟩ hf
    obtain ⟨_, _, _, hE, _, _⟩ := this
    rw [← hstep]
    intro A B hA hB
    rw [hE A B hA hB]
    unfold Follows
    constructor
    · rintro (⟨r1, hr1, x⟩ | ⟨i, hi, e1, e2⟩)
      · exact ⟨r1, List.mem_append_left _ hr1, x⟩
      · exact ⟨r, by simp, i, hi, e1, e2⟩
    · rintro ⟨r1, hr1, i, hi, e1, e2⟩
      rcases List.mem_append.1 hr1 with x | x
      · exact Or.inl ⟨r1, x, i, hi, e1, e2⟩
      · simp at x
        subst x
        exact Or.inr ⟨i, hi, e1, e2⟩

theorem add_read_full (P : Params) (done : List (List Nat)) (r : List Nat) (g g1 : Graph)
    (h : ReadInv P done g ∧ EdgeAll P done g) (hstep : add_read P g r = some g1) :
    ReadInv P (done ++ [r]) g1 ∧ EdgeAll P (done ++ [r]) g1 := by
  refine ⟨add_read_data P done r g g1 h.1 hstep, ?_⟩
  obtain ⟨⟨hwf, hcov, hreads, hd⟩, he⟩ := h
  unfold add_read at hstep
  split at hstep
  · exact Option.noConfusion hstep
  · rename_i ga p ha
    obtain ⟨hp, har, hat, haa⟩ := allocate_read_some g ga r p ha
    have hna : ∀ j, ga.nodeAt j = g.nodeAt j := by
      intro j; unfold Graph.nodeAt; rw [haa]
    have hga : WF ga := WF_congr g ga hwf hat (by rw [haa])
      (fun j => by rw [hna]) (fun j => by rw [hna]) (fun j => by rw [hna])
    have hin : ∀ i, ga.inTable i ↔ g.inTable i := by
      intro i; unfold Graph.inTable; rw [hat]
    have hcga : Covered ga := by
      intro i hi; rw [haa] at hi; exact (hin i).2 (hcov i hi)
    have hdga : DataInv (occsFrom P 0 done) ga := DataInv_reads_append _ g ga r hd hat haa har
    have hplt : p < ga.reads.length := by rw [har, hp, List.length_append]; simp
    have hget : ga.reads.getD p [] = r := by
      rw [har, hp, List.getD_eq_getElem?_getD, List.getElem?_append_right (le_refl _)]
      simp
    have hega : EdgeAll P done ga := by
      intro A B hA hB
      rw [hna, hna]
      exact he A B ((hin A).1 hA) ((hin B).1 hB)
    exact add_to_graph_full P p ga g1 done r hga hcga hdga hplt hget hega hstep

/-- After `build_graph`, the edges are the pairs of k-mers that follow each
other in a read. -/
theorem build_graph_edges (P : Params) (reads : List (List Nat)) (g : Graph)
    (h : build_graph P reads init_pool = some g) : EdgeAll P reads g := by
  have := foldlO_inv (add_read P) (fun done g => ReadInv P done g ∧ EdgeAll P done g)
    (fun done r g g1 hI hs => add_read_full P done r g g1 hI hs) reads [] init_pool g
    ⟨⟨WF_init_pool.1, WF_init_pool.2, rfl,
      ⟨fun k => Iff.rfl, fun o ho => absurd ho (List.not_mem_nil o),
        fun e he => absurd he (List.not_mem_nil e), fun e he => absurd he (List.not_mem_nil e),
        fun e he => absurd he (List.not_mem_nil e)⟩⟩,
      fun A B hA _ => absurd hA (List.not_mem_nil A)⟩ h
  simpa using this.2

theorem kmerAt_overlap (P : Params) (r : List Nat) (i : Nat) :
    (kmerAt P r i).drop 1 = (kmerAt P r (i + 1)).take (P.KMER - 1) := by
  unfold kmerAt
  rw [List.take_take, Nat.min_eq_left (Nat.sub_le _ _), List.drop_take, ← List.drop_drop]

/-! ## C17: the edges of the de Bruijn graph -/

/-- C17: after `build_graph` on reads of length `READ_LENGTH`, for all nodes
`A` and `B` of the map, `B` is in `A.toNodes` if and only if some read
contains the k-mer of `A` at an offset `i` and the k-mer of `B` at offset
`i + 1` (both within the read); consequently, for every edge the last
`KMER - 1` bytes of `A.seq` are the first `KMER - 1` bytes of `B.seq`. -/
theorem C17_edges (P : Params) (reads : List (List Nat)) (g : Graph)
    (hlen : ∀ r ∈ reads, r.length = P.READ_LENGTH)
    (h : build_graph P reads init_pool = some g) (A B : Nat)
    (hA : g.inTable A) (hB : g.inTable B) :
    (B ∈ (g.nodeAt A).toNodes ↔
      ∃ r ∈ reads, ∃ i, i + 1 + P.KMER ≤ r.length ∧
        (g.nodeAt A).seq = kmerAt P r i ∧ (g.nodeAt B).seq = kmerAt P r (i + 1)) ∧
    (B ∈ (g.nodeAt A).toNodes →
      (g.nodeAt A).seq.drop 1 = (g.nodeAt B).seq.take (P.KMER - 1)) := by
  have he := build_graph_edges P reads g h A B hA hB
  have hiff : Follows P reads (g.nodeAt A).seq (g.nodeAt B).seq ↔
      ∃ r ∈ reads, ∃ i, i + 1 + P.KMER ≤ r.length ∧
        (g.nodeAt A).seq = kmerAt P r i ∧ (g.nodeAt B).seq = kmerAt P r (i + 1) := by
    unfold Follows
    constructor
    · rintro ⟨r, hr, i, hi, e1, e2⟩
      have := (nOff_pos_iff P (i + 1)).1 hi
      exact ⟨r, hr, i, by rw [hlen r hr]; omega, e1, e2⟩
    · rintro ⟨r, hr, i, hi, e1, e2⟩
      rw [hlen r hr] at hi
      exact ⟨r, hr, i, (nOff_pos_iff P (i + 1)).2 ⟨by omega, by omega⟩, e1, e2⟩
  refine ⟨he.trans hiff, ?_⟩
  intro hmem
  obtain ⟨r, _, i, _, e1, e2⟩ := he.1 hmem
  rw [e1, e2]
  exact kmerAt_overlap P r i

theorem C17_edges_witness :
    (∀ r ∈ branchReads, r.length = scenarioParams.READ_LENGTH) ∧
    build_graph scenarioParams branchReads init_pool = some branchGraph ∧
    (1 ∈ (branchGraph.nodeAt 0).toNodes →
      (branchGraph.nodeAt 0).seq.drop 1
        = (branchGraph.nodeAt 1).seq.take (scenarioParams.KMER - 1)) :=
  ⟨by decide, by rfl,
    (C17_edges scenarioParams branchReads branchGraph (by decide) (by rfl) 0 1
      (by decide!) (by decide!)).2⟩

/-! ## C1: the enumeration of the paths from a root -/

theorem SinkPath_head (g : Graph) (a : Nat) (p : List Nat) (h : SinkPath g a p) :
    ∃ q, p = a :: q := by
  cases h with
  | sink _ => exact ⟨[], rfl⟩
  | step _ t q _ _ => exact ⟨q, rfl⟩

theorem SinkPath_sink_iff (g : Graph) (a : Nat) (hs : (g.nodeAt a).toNodes = [])
    (p : List Nat) : SinkPath g a p ↔ p = [a] := by
  constructor
  · intro h
    cases h with
    | sink _ => rfl
    | step _ t q ht _ => rw [hs] at ht; exact absurd ht (List.not_mem_nil t)
  · intro h; rw [h]; exact SinkPath.sink a hs

theorem SinkPath_interior_iff (g : Graph) (a : Nat) (hs : (g.nodeAt a).toNodes ≠ [])
    (p : List Nat) :
    SinkPath g a p ↔ ∃ t ∈ (g.nodeAt a).toNodes, ∃ q, SinkPath g t q ∧ p = a :: q := by
  constructor
  · intro h
    cases h with
    | sink => rename_i h0; exact absurd h0 hs
    | step _ t q ht hq => exact ⟨t, ht, q, hq, rfl⟩
  · rintro ⟨t, ht, q, hq, rfl⟩
    exact SinkPath.step a t q ht hq

theorem spell_cons (P : Params) (g : Graph) (a t : Nat) (q : List Nat)
    (hq : SinkPath g t q) :
    spell P g (a :: q) = (g.nodeAt a).seq.headD 0 :: spell P g q := by
  obtain ⟨q1, rfl⟩ := SinkPath_head g t q hq
  rfl

theorem emitted_append (P : Params) (g : Graph) (pre : List Nat) (a b : List (List Nat)) :
    emitted P g pre (a ++ b) = emitted P g pre a ++ emitted P g pre b := by
  unfold emitted
  rw [List.map_append, List.filter_append]

theorem emitted_child (P : Params) (g : Graph) (pre : List Nat) (a t : Nat)
    (ps : List (List Nat)) (hps : ∀ p ∈ ps, SinkPath g t p) :
    emitted P g (pre ++ [(g.nodeAt a).seq.headD 0]) ps
      = emitted P g pre (ps.map (fun q => a :: q)) := by
  unfold emitted
  rw [List.map_map]
  congr 1
  apply List.map_congr_left
  intro q hq
  simp only [Function.comp]
  rw [spell_cons P g a t q (hps q hq)]
  simp

theorem Fresh_child (g : Graph) (c : contig) (t : Nat) (h : Fresh g c)
    (ht : t ∈ (g.nodeAt c.curr_node).toNodes) :
    Fresh g (copy_contig (advance g c) t) := by
  intro w hw
  have hw2 : Walk g c.curr_node (c.curr_node :: w) := Walk.step _ t w ht hw
  obtain ⟨h1, h2⟩ := h _ hw2
  rw [List.map_cons, List.nodup_cons] at h1
  refine ⟨h1.2, ?_⟩
  intro n hn
  simp only [copy_contig, advance, List.mem_cons, not_or]
  refine ⟨?_, h2 n (List.mem_cons_of_mem _ hn)⟩
  intro hc
  apply h1.1
  rw [← hc]
  exact List.mem_map_of_mem _ hn

theorem Fresh_not_visited (g : Graph) (c : contig) (h : Fresh g c) :
    is_node_visited g c c.curr_node = false := by
  have := (h [c.curr_node] (Walk.single _)).2 c.curr_node (List.mem_singleton.2 rfl)
  unfold is_node_visited
  simpa using this

theorem run_loop_zero_cond (P : Params) (g : Graph) (mp mc : Int) (sr sh : Bool) (r : Run)
    (h : r.contigs.length > 0 ∧ r.status = Status.OK) :
    run_loop P g mp mc sr sh 0 r = Outcome.timeout := by
  rw [run_loop, if_pos h]

/-- The loop, started with the contig `c` on top of `rest` and ending with
status `OK`, first deals with every path from the current node of `c` to a
sink, writing the spellings that are long enough, and then goes on with
`rest`. -/
theorem run_subtree (P : Params) (g : Graph) (mp mc : Int)
    (hdup : ∀ i, (g.nodeAt i).toNodes.Nodup) :
    ∀ (n fuel : Nat), fuel ≤ n → ∀ (c : contig) (rest : List contig) (r r' : Run),
      r.contigs = c :: rest → r.status = Status.OK → Fresh g c →
      run_loop P g mp mc false false fuel r = Outcome.done r' → r'.status = Status.OK →
      ∃ (ps : List (List Nat)) (fuel' : Nat) (r'' : Run), fuel' < fuel ∧ ps.Nodup ∧
        (∀ p, p ∈ ps ↔ SinkPath g c.curr_node p) ∧
        r''.contigs = rest ∧ r''.status = Status.OK ∧
        r''.fp.map record.seq = r.fp.map record.seq ++ emitted P g c.seq ps ∧
        run_loop P g mp mc false false fuel' r'' = Outcome.done r' := by
  intro n
  induction n with
  | zero =>
    intro fuel hf c rest r r' hc hOK _ hrun _
    have : fuel = 0 := by omega
    subst this
    rw [run_loop_zero_cond P g mp mc false false r ⟨by rw [hc]; simp, hOK⟩] at hrun
    exact Outcome.noConfusion hrun
  | succ n ih =>
    intro fuel hf c rest r r' hc hOK hfresh hrun hfin
    cases fuel with
    | zero =>
      rw [run_loop_zero_cond P g mp mc false false r ⟨by rw [hc]; simp, hOK⟩] at hrun
      exact Outcome.noConfusion hrun
    | succ k =>
      have hk : k ≤ n := by omega
      rw [run_loop_succ P g mp mc false false k r ⟨by rw [hc]; simp, hOK⟩] at hrun
      cases hst : step P g mp mc false false r with
      | none => rw [hst] at hrun; exact Outcome.noConfusion hrun
      | some r1 =>
        rw [hst] at hrun
        simp only at hrun
        have h1OK : r1.status = Status.OK := by
          by_contra hne
          rw [run_loop_done P g mp mc false false k r1 (fun hcd => hne hcd.2)] at hrun
          cases hrun
          exact hne hfin
        obtain ⟨r2, hv, hr1⟩ := step_cons P g mp mc false false r r1 c rest hc hst
        rw [hr1] at h1OK
        obtain ⟨h2OK, hb1, hb2⟩ := check_bounds_status_OK mp mc r2 h1OK
        rw [check_bounds_below mp mc r2 hb1 hb2] at hr1
        subst hr1
        have hvis := Fresh_not_visited g c hfresh
        by_cases hsink : (g.nodeAt c.curr_node).toNodes.isEmpty = true
        · rw [visit_sink P g false false c rest r hvis hsink] at hv
          have hnil : (g.nodeAt c.curr_node).toNodes = [] := List.isEmpty_iff.1 hsink
          refine ⟨[[c.curr_node]], k, r1, by omega, List.nodup_singleton _, ?_, ?_, h2OK, ?_,
            hrun⟩
          · intro p
            rw [SinkPath_sink_iff g c.curr_node hnil p, List.mem_singleton]
          · cases hv; rfl
          · cases hv
            simp only [Bool.not_false, if_true, output_contig, emitted, List.map_cons,
              List.map_nil, spell, ge_iff_le, List.filter_cons, List.filter_nil,
              decide_eq_true_eq]
            split
            · simp
            · simp
        · simp only [Bool.not_eq_true] at hsink
          have hne : (g.nodeAt c.curr_node).toNodes ≠ [] := by
            intro hc2; rw [hc2] at hsink; exact Bool.noConfusion hsink
          rw [visit_interior P g false false c rest r hvis hsink] at hv
          split at hv
          · exact Option.noConfusion hv
          · have multi : ∀ (L : List Nat), L.Nodup →
                (∀ t ∈ L, t ∈ (g.nodeAt c.curr_node).toNodes) →
                ∀ (fuel : Nat), fuel ≤ n → ∀ (r0 : Run),
                r0.contigs = L.map (copy_contig (advance g c)) ++ rest →
                r0.status = Status.OK →
                run_loop P g mp mc false false fuel r0 = Outcome.done r' →
                ∃ (ps : List (List Nat)) (fuel' : Nat) (r'' : Run), fuel' ≤ fuel ∧ ps.Nodup ∧
                  (∀ p, p ∈ ps ↔ ∃ t ∈ L, ∃ q, SinkPath g t q ∧ p = c.curr_node :: q) ∧
                  r''.contigs = rest ∧ r''.status = Status.OK ∧
                  r''.fp.map record.seq = r0.fp.map record.seq ++ emitted P g c.seq ps ∧
                  run_loop P g mp mc false false fuel' r'' = Outcome.done r' := by
              intro L
              induction L with
              | nil =>
                intro _ _ fuel _ r0 h0c h0OK h0run
                refine ⟨[], fuel, r0, le_refl _, List.nodup_nil, ?_, by simpa using h0c, h0OK,
                  by simp [emitted], h0run⟩
                intro p
                simp
              | cons t L ihL =>
                intro hnd hsub fuel hfl r0 h0c h0OK h0run
                rw [List.map_cons, List.cons_append] at h0c
                have htin := hsub t (List.mem_cons_self t L)
                obtain ⟨ps1, f1, r1', hf1, hnd1, hmem1, hc1, hOK1, hfp1, hrun1⟩ :=
                  ih fuel hfl (copy_contig (advance g c) t) _ r0 r' h0c h0OK
                    (Fresh_child g c t hfresh htin) h0run hfin
                obtain ⟨ps2, f2, r2', hf2, hnd2, hmem2, hc2, hOK2, hfp2, hrun2⟩ :=
                  ihL (List.nodup_cons.1 hnd).2 (fun x hx => hsub x (List.mem_cons_of_mem t hx))
                    f1 (by omega) r1' hc1 hOK1 hrun1
                have hsp1 : ∀ q ∈ ps1, SinkPath g t q := fun q hq => (hmem1 q).1 hq
                refine ⟨ps1.map (fun q => c.curr_node :: q) ++ ps2, f2, r2', by omega, ?_, ?_,
                  hc2, hOK2, ?_, hrun2⟩
                · rw [List.nodup_append]
                  refine ⟨hnd1.map (fun a b hab => by injection hab), hnd2, ?_⟩
                  intro p hp1 hp2
                  rw [List.mem_map] at hp1
                  obtain ⟨q, hq, rfl⟩ := hp1
                  obtain ⟨t2, ht2, q2, hq2, heq⟩ := (hmem2 _).1 hp2
                  injection heq with _ heq
                  subst heq
                  obtain ⟨x1, hx1⟩ := SinkPath_head g t q (hsp1 q hq)
                  obtain ⟨x2, hx2⟩ := SinkPath_head g t2 q hq2
                  rw [hx1] at hx2
                  injection hx2 with hx2 _
                  rw [← hx2] at ht2
                  exact (List.nodup_cons.1 hnd).1 ht2
                · intro p
                  rw [List.mem_append, List.mem_map, hmem2]
                  constructor
                  · rintro (⟨q, hq, rfl⟩ | ⟨t2, ht2, q2, hq2, rfl⟩)
                    · exact ⟨t, List.mem_cons_self t L, q, hsp1 q hq, rfl⟩
                    · exact ⟨t2, List.mem_cons_of_mem t ht2, q2, hq2, rfl⟩
                  · rintro ⟨t2, ht2, q2, hq2, rfl⟩
                    rcases List.mem_cons.1 ht2 with x | x
                    · subst x
                      exact Or.inl ⟨q2, (hmem1 q2).2 hq2, rfl⟩
                    · exact Or.inr ⟨t2, x, q2, hq2, rfl⟩
                · rw [hfp2, hfp1, emitted_append, List.append_assoc]
                  congr 2
                  exact emitted_child P g c.seq c.curr_node t ps1 hsp1
            cases hv
            obtain ⟨ps, f2, r2', hf2, hnd2, hmem2, hc2, hOK2, hfp2, hrun2⟩ :=
              multi (g.nodeAt c.curr_node).toNodes.reverse
                (List.nodup_reverse.2 (hdup c.curr_node))
                (fun t ht => List.mem_reverse.1 ht) k hk _
                (by simp only [List.map_reverse]) h2OK hrun
            refine ⟨ps, f2, r2', by omega, hnd2, ?_, hc2, hOK2, hfp2, hrun2⟩
            intro p
            rw [hmem2 p, SinkPath_interior_iff g c.curr_node hne p]
            constructor
            · rintro ⟨t, ht, x⟩
              exact ⟨t, List.mem_reverse.1 ht, x⟩
            · rintro ⟨t, ht, x⟩
              exact ⟨t, List.mem_reverse.2 ht, x⟩

theorem Walk_inTable (g : Graph) (h : WF g) : ∀ (w : List Nat) (a : Nat), g.inTable a →
    Walk g a w → ∀ n ∈ w, g.inTable n := by
  intro w
  induction w with
  | nil => intro a _ _ n hn; exact absurd hn (List.not_mem_nil n)
  | cons b w ih =>
    intro a ha hw n hn
    cases hw with
    | single _ =>
      rw [List.mem_singleton] at hn
      rw [hn]; exact ha
    | step _ t q ht hq =>
      rcases List.mem_cons.1 hn with x | x
      · rw [x]; exact ha
      · exact ih t (h.to_in _ t ht) hq n x

theorem Fresh_root (g : Graph) (h : WF g) (root : Nat) (hroot : g.inTable root)
    (hacyc : ∀ w, Walk g root w → w.Nodup) : Fresh g (new_contig root) := by
  intro w hw
  refine ⟨?_, fun n _ hc => absurd hc (List.not_mem_nil _)⟩
  have hin := Walk_inTable g h w root hroot hw
  apply List.Nodup.map_on _ (hacyc w hw)
  intro x hx y hy hxy
  exact h.seq_inj x y (inTable_lt g h x (hin x hx)) (inTable_lt g h y (hin y hy)) hxy

theorem spell_length_le (P : Params) (g : Graph) :
    ∀ p : List Nat, p ≠ [] → (spell P g p).length + 1 ≤ p.length + P.KMER
  | [], h => absurd rfl h
  | [a], _ => by
    simp only [spell, List.length_take, List.length_singleton]
    omega
  | a :: b :: q, _ => by
    have ih := spell_length_le P g (b :: q) (List.cons_ne_nil b q)
    simp only [spell, List.length_cons] at ih ⊢
    omega

theorem SinkPath_ne_nil (g : Graph) (a : Nat) (p : List Nat) (h : SinkPath g a p) :
    p ≠ [] := by
  cases h <;> exact List.cons_ne_nil _ _

/-- C1: on a graph that satisfies the data-model invariants (one node per
k-mer, symmetric duplicate-free adjacency lists), for a root from which no
walk revisits a node, and when every path from the root to a sink leaves room
in the contig buffer for the k-mer of the sink and the terminator (`size +
KMER < MAX_CONTIG_SIZE` at the sink, `size` being the number of nodes before
it): if `build_contigs` in emission mode (`shadow` and `stopOnRepeat` false)
returns `OK`, then the sequences it has appended to the file are the spellings
of the paths from the root to a sink whose spelling has at least
`MIN_CONTIG_LENGTH` bytes, each path taken once: there is a duplicate-free
list `ps` of exactly the root-to-sink paths such that the new sequences are
the long enough ones among the spellings of `ps`, in order, and each spelling
is shorter than `MAX_CONTIG_SIZE`. -/
theorem C1_paths_enumerated (P : Params) (g : Graph) (hwf : WF g) (root : Nat)
    (hroot : g.inTable root) (hacyc : ∀ w, Walk g root w → w.Nodup)
    (hbuf : ∀ p, SinkPath g root p → (p.length - 1) + P.KMER < P.MAX_CONTIG_SIZE)
    (fuel : Nat) (cnt : Int) (fp : List record) (max_paths_from_root max_contigs cnt1 : Int)
    (fp1 : List record)
    (h : build_contigs P g fuel root cnt fp max_paths_from_root max_contigs false false
      = Outcome.done (Status.OK, cnt1, fp1)) :
    ∃ ps : List (List Nat), ps.Nodup ∧ (∀ p, p ∈ ps ↔ SinkPath g root p) ∧
      fp1.map record.seq = fp.map record.seq ++
        (ps.map (spell P g)).filter (fun s => decide (P.MIN_CONTIG_LENGTH ≤ s.length)) ∧
      ∀ p ∈ ps, (spell P g p).length < P.MAX_CONTIG_SIZE := by
  unfold build_contigs at h
  split at h
  · rename_i r' hrun
    injection h with h
    injection h with hst h2
    injection h2 with _ hfp
    obtain ⟨ps, f2, r2, _, hnd, hmem, hc2, _, hfp2, hrun2⟩ :=
      run_subtree P g max_paths_from_root max_contigs hwf.to_nodup fuel fuel (le_refl _)
        (new_contig root) [] _ r' rfl rfl (Fresh_root g hwf root hroot hacyc) hrun hst
    rw [run_loop_done P g _ _ false false f2 r2 (by rw [hc2]; simp)] at hrun2
    injection hrun2 with hrun2
    subst hrun2
    refine ⟨ps, hnd, hmem, ?_, ?_⟩
    · rw [← hfp, hfp2]
      simp [emitted, new_contig]
    · intro p hp
      have hs := (hmem p).1 hp
      have h1 := spell_length_le P g p (SinkPath_ne_nil g root p hs)
      have h2 := hbuf p hs
      have h3 : 0 < p.length := List.length_pos.2 (SinkPath_ne_nil g root p hs)
      omega
  · exact Outcome.noConfusion h
  · exact Outcome.noConfusion h

theorem branchGraph_acyclic : ∀ w, Walk branchGraph 0 w → w.Nodup := by
  have e0 : (branchGraph.nodeAt 0).toNodes = [1] := by decide!
  have e1 : (branchGraph.nodeAt 1).toNodes = [3, 2] := by decide!
  have e2 : (branchGraph.nodeAt 2).toNodes = [] := by decide!
  have e3 : (branchGraph.nodeAt 3).toNodes = [] := by decide!
  intro w hw
  cases hw with
  | single _ => simp
  | step _ t q ht hq =>
    rw [e0, List.mem_singleton] at ht
    subst ht
    cases hq with
    | single _ => decide
    | step _ t2 q2 ht2 hq2 =>
      rw [e1] at ht2
      simp only [List.mem_cons, List.mem_singleton, List.not_mem_nil, or_false] at ht2
      rcases ht2 with x | x
      · subst x
        cases hq2 with
        | single _ => decide
        | step _ t3 q3 ht3 _ => rw [e3] at ht3; exact absurd ht3 (List.not_mem_nil _)
      · subst x
        cases hq2 with
        | single _ => decide
        | step _ t3 q3 ht3 _ => rw [e2] at ht3; exact absurd ht3 (List.not_mem_nil _)

theorem branchGraph_sink_paths :
    ∀ p, SinkPath branchGraph 0 p → p = [0, 1, 3] ∨ p = [0, 1, 2] := by
  have e0 : (branchGraph.nodeAt 0).toNodes = [1] := by decide!
  have e1 : (branchGraph.nodeAt 1).toNodes = [3, 2] := by decide!
  have e2 : (branchGraph.nodeAt 2).toNodes = [] := by decide!
  have e3 : (branchGraph.nodeAt 3).toNodes = [] := by decide!
  intro p hp
  cases hp with
  | sink _ => rename_i h0; rw [e0] at h0; exact absurd h0 (List.cons_ne_nil _ _)
  | step _ t q ht hq =>
    rw [e0, List.mem_singleton] at ht
    subst ht
    cases hq with
    | sink _ => rename_i h1; rw [e1] at h1; exact absurd h1 (List.cons_ne_nil _ _)
    | step _ t2 q2 ht2 hq2 =>
      rw [e1] at ht2
      simp only [List.mem_cons, List.mem_singleton, List.not_mem_nil, or_false] at ht2
      rcases ht2 with x | x
      · subst x
        cases hq2 with
        | sink _ => exact Or.inl rfl
        | step _ t3 q3 ht3 _ => rw [e3] at ht3; exact absurd ht3 (List.not_mem_nil _)
      · subst x
        cases hq2 with
        | sink _ => exact Or.inr rfl
        | step _ t3 q3 ht3 _ => rw [e2] at ht3; exact absurd ht3 (List.not_mem_nil _)

theorem C1_paths_enumerated_witness :
    WF branchGraph ∧ branchGraph.inTable 0 ∧ (∀ w, Walk branchGraph 0 w → w.Nodup) ∧
    (∀ p, SinkPath branchGraph 0 p →
      (p.length - 1) + scenarioParams.KMER < scenarioParams.MAX_CONTIG_SIZE) ∧
    build_contigs scenarioParams branchGraph 20 0 0 [] 1000 10 false false
      = Outcome.done (Status.OK, 2,
          [⟨0, false, [65, 65, 65, 84, 84]⟩, ⟨1, false, [65, 65, 65, 84, 71]⟩]) ∧
    ∃ ps : List (List Nat), ps.Nodup ∧ (∀ p, p ∈ ps ↔ SinkPath branchGraph 0 p) ∧
      ([⟨0, false, [65, 65, 65, 84, 84]⟩, ⟨1, false, [65, 65, 65, 84, 71]⟩]
          : List record).map record.seq
        = ([] : List record).map record.seq ++
          (ps.map (spell scenarioParams branchGraph)).filter
            (fun s => decide (scenarioParams.MIN_CONTIG_LENGTH ≤ s.length)) ∧
      ∀ p ∈ ps, (spell scenarioParams branchGraph p).length < scenarioParams.MAX_CONTIG_SIZE :=
  ⟨(build_graph_WF scenarioParams branchReads branchGraph (by rfl)).1, by decide!,
    branchGraph_acyclic,
    fun p hp => by rcases branchGraph_sink_paths p hp with x | x <;> subst x <;> decide,
    by decide!,
    C1_paths_enumerated scenarioParams branchGraph
      (build_graph_WF scenarioParams branchReads branchGraph (by rfl)).1 0 (by decide!)
      branchGraph_acyclic
      (fun p hp => by rcases branchGraph_sink_paths p hp with x | x <;> subst x <;> decide)
      20 0 [] 1000 10 2
      [⟨0, false, [65, 65, 65, 84, 84]⟩, ⟨1, false, [65, 65, 65, 84, 71]⟩] (by decide!)⟩

/-! ## C2: a read with pairwise distinct k-mers is spelled back -/

theorem nodeOf_mem (g : Graph) (k : List Nat) (h : k ∈ g.table.map Prod.fst) :
    (k, nodeOf g k) ∈ g.table := by
  unfold nodeOf
  cases hl : g.table.lookup k with
  | none => exact absurd h ((lookup_eq_none_iff g.table k).1 hl)
  | some v => exact lookup_eq_some_mem g.table k v hl

theorem eq_singleton_of_mem_iff (l : List Nat) (b : Nat) (hnd : l.Nodup)
    (h : ∀ x, x ∈ l ↔ x = b) : l = [b] := by
  cases l with
  | nil => exact absurd ((h b).2 rfl) (List.not_mem_nil b)
  | cons a t =>
    have ha : a = b := (h a).1 (List.mem_cons_self a t)
    subst ha
    cases t with
    | nil => rfl
    | cons a2 t2 =>
      have h2 : a2 = a := (h a2).1 (List.mem_cons_of_mem a (List.mem_cons_self a2 t2))
      rw [h2] at hnd
      exact absurd (List.mem_cons_self a t2) (List.nodup_cons.1 hnd).1

theorem kmers_inj (P : Params) (r : List Nat) (hd : (kmersOf P r).Nodup) (i j : Nat)
    (hi : i < nOff P) (hj : j < nOff P) (h : kmerAt P r i = kmerAt P r j) : i = j := by
  unfold kmersOf at hd
  rw [offsets_eq_range] at hd
  exact List.inj_on_of_nodup_map hd (List.mem_range.2 hi) (List.mem_range.2 hj) h

/-- The graph of a single read with pairwise distinct k-mers is a chain: the
node of the k-mer at offset `i` is in the map, carries that k-mer, and its
`toNodes` list is the node of the next k-mer, or is empty at the last offset. -/
theorem chain_graph (P : Params) (r : List Nat) (g : Graph)
    (hd : (kmersOf P r).Nodup) (h : build_graph P [r] init_pool = some g) (i : Nat)
    (hi : i < nOff P) :
    g.inTable (nodeOf g (kmerAt P r i)) ∧
    (g.nodeAt (nodeOf g (kmerAt P r i))).seq = kmerAt P r i ∧
    (g.nodeAt (nodeOf g (kmerAt P r i))).toNodes =
      if i + 1 < nOff P then [nodeOf g (kmerAt P r (i + 1))] else [] := by
  obtain ⟨hwf, _, _, hdata⟩ := build_graph_inv P [r] g h
  have hedge := build_graph_edges P [r] g h
  have hkey : ∀ j, j < nOff P → kmerAt P r j ∈ g.table.map Prod.fst := by
    intro j hj
    rw [hdata.keys, mem_occsFrom]
    exact ⟨r, List.mem_singleton.2 rfl, (mem_kmersOf P r _).2 ⟨j, hj, rfl⟩⟩
  have hnode : ∀ j, j < nOff P → g.inTable (nodeOf g (kmerAt P r j)) ∧
      (g.nodeAt (nodeOf g (kmerAt P r j))).seq = kmerAt P r j := by
    intro j hj
    have hm := nodeOf_mem g _ (hkey j hj)
    refine ⟨?_, (hwf.entry _ hm).2⟩
    unfold Graph.inTable
    rw [List.mem_map]
    exact ⟨_, hm, rfl⟩
  obtain ⟨hin, hseq⟩ := hnode i hi
  refine ⟨hin, hseq, ?_⟩
  have hmem : ∀ B, B ∈ (g.nodeAt (nodeOf g (kmerAt P r i))).toNodes ↔
      i + 1 < nOff P ∧ B = nodeOf g (kmerAt P r (i + 1)) := by
    intro B
    constructor
    · intro hB
      have hBin := hwf.to_in _ B hB
      obtain ⟨r1, hr1, i1, hi1, e1, e2⟩ := (hedge _ B hin hBin).1 hB
      rw [List.mem_singleton] at hr1
      subst hr1
      rw [hseq] at e1
      have := kmers_inj P r1 hd i i1 hi (by omega) e1
      subst this
      refine ⟨hi1, ?_⟩
      obtain ⟨hin2, hseq2⟩ := hnode (i + 1) hi1
      exact hwf.seq_inj B _ (inTable_lt g hwf B hBin) (inTable_lt g hwf _ hin2)
        (e2.trans hseq2.symm)
    · rintro ⟨hi1, rfl⟩
      obtain ⟨hin2, hseq2⟩ := hnode (i + 1) hi1
      exact (hedge _ _ hin hin2).2 ⟨r, List.mem_singleton.2 rfl, i, hi1, hseq, hseq2⟩
  by_cases hi1 : i + 1 < nOff P
  · rw [if_pos hi1]
    apply eq_singleton_of_mem_iff _ _ (hwf.to_nodup _)
    intro x
    rw [hmem x]
    exact ⟨fun hx => hx.2, fun hx => ⟨hi1, hx⟩⟩
  · rw [if_neg hi1]
    apply List.eq_nil_iff_forall_not_mem.2
    intro x hx
    exact hi1 ((hmem x).1 hx).1

theorem kmerAt_head (P : Params) (r : List Nat) (j : Nat) (hK : 0 < P.KMER) :
    r.take j ++ [(kmerAt P r j).headD 0] = r.take j ++ [r.getD j 0] := by
  unfold kmerAt
  congr 2
  cases hdr : r.drop j with
  | nil =>
    have : r.length ≤ j := List.drop_eq_nil_iff.1 hdr
    rw [List.getD_eq_default _ _ this]
    simp
  | cons a t =>
    have hlt : j < r.length := by
      by_contra hc
      rw [List.drop_eq_nil_iff.2 (by omega)] at hdr
      exact List.noConfusion hdr
    have ha : r.getD j 0 = a := by
      rw [List.getD_eq_getElem _ _ hlt]
      have := List.getElem_drop' (L := r) (i := j) (j := 0) (by simpa using hlt)
      simp only [hdr, List.getElem_cons_zero, Nat.add_zero] at this
      exact this
    rw [ha]
    obtain ⟨k, hk⟩ : ∃ k, P.KMER = k + 1 := ⟨P.KMER - 1, by omega⟩
    rw [hk]
    rfl

theorem take_succ_getD (r : List Nat) (j : Nat) (hj : j < r.length) :
    r.take j ++ [r.getD j 0] = r.take (j + 1) := by
  rw [List.take_succ, List.getD_eq_getElem _ _ hj, List.getElem?_eq_getElem hj]
  rfl

theorem KMER_pos_of_distinct (P : Params) (r : List Nat) (hd : (kmersOf P r).Nodup)
    (h2 : 1 < nOff P) : 0 < P.KMER := by
  by_contra hc
  have hK : P.KMER = 0 := by omega
  have := kmers_inj P r hd 0 1 (by omega) h2 (by unfold kmerAt; rw [hK]; rfl)
  omega

/-- One step along the chain. -/
theorem chain_step (P : Params) (r : List Nat) (g : Graph) (cnt : Int) (fp : List record)
    (mp mc : Int) (hlen : r.length = P.READ_LENGTH)
    (hd : (kmersOf P r).Nodup) (h : build_graph P [r] init_pool = some g)
    (hmax : P.READ_LENGTH < P.MAX_CONTIG_SIZE) (hmc : cnt < mc) (hmp : (nOff P : Int) < mp)
    (j : Nat) (hj : j + 1 < nOff P) :
    step P g mp mc false false (chainState P g r cnt fp j)
      = some (chainState P g r cnt fp (j + 1)) := by
  obtain ⟨_, hseq, hto⟩ := chain_graph P r g hd h j (by omega)
  rw [if_pos hj] at hto
  have hKL := (nOff_pos_iff P (j + 1)).1 hj
  have hvis : is_node_visited g
      ⟨r.take j, j, false, nodeOf g (kmerAt P r j), ((List.range j).map (kmerAt P r)).reverse⟩
      (nodeOf g (kmerAt P r j)) = false := by
    unfold is_node_visited
    simp only [hseq]
    rw [Bool.eq_false_iff]
    intro hc
    simp only [List.contains_eq_any_beq, List.any_eq_true, List.mem_reverse, List.mem_map,
      List.mem_range, beq_iff_eq] at hc
    obtain ⟨x, ⟨i, hi, rfl⟩, he⟩ := hc
    have := kmers_inj P r hd i j (by omega) (by omega) he.symm
    omega
  have hne : (g.nodeAt (nodeOf g (kmerAt P r j))).toNodes.isEmpty = false := by
    rw [hto]; rfl
  have hv := visit_interior P g false false _ [] (chainState P g r cnt fp j) hvis hne
  have hsz : ¬ (j + 1 ≥ P.MAX_CONTIG_SIZE) := by omega
  simp only [hsz, if_false] at hv
  rw [step_of_visit P g mp mc false false (chainState P g r cnt fp j) _ _ [] rfl hv]
  congr 1
  rw [check_bounds_below mp mc _ (by simpa [chainState] using hmc)
    (by simp only [chainState, hto, List.length_singleton]; push_cast; omega)]
  have hK := KMER_pos_of_distinct P r hd (by omega)
  simp only [chainState, hto, List.map_cons, List.map_nil, List.reverse_cons, List.reverse_nil,
    List.nil_append, List.append_nil, copy_contig, advance, hseq, List.length_singleton,
    List.singleton_append]
  rw [kmerAt_head P r j hK, take_succ_getD r j (by omega)]
  simp only [List.range_succ, List.map_append, List.map_cons, List.map_nil,
    List.reverse_append, List.reverse_cons, List.reverse_nil, List.nil_append,
    List.singleton_append]
  have e : (1 : Int) + (j : Int) + ((1 : Nat) : Int) = 1 + ((j + 1 : Nat) : Int) := by
    push_cast; ring
  rw [e]

theorem chain_iterate (P : Params) (r : List Nat) (g : Graph) (cnt : Int) (fp : List record)
    (mp mc : Int) (hlen : r.length = P.READ_LENGTH)
    (hd : (kmersOf P r).Nodup) (h : build_graph P [r] init_pool = some g)
    (hmax : P.READ_LENGTH < P.MAX_CONTIG_SIZE) (hmc : cnt < mc) (hmp : (nOff P : Int) < mp) :
    ∀ j, j < nOff P →
      iterate P g mp mc false false j (chainState P g r cnt fp 0)
        = some (chainState P g r cnt fp j) := by
  have key : ∀ m j, j + m < nOff P →
      iterate P g mp mc false false m (chainState P g r cnt fp j)
        = some (chainState P g r cnt fp (j + m)) := by
    intro m
    induction m with
    | zero => intro j _; rfl
    | succ m ih =>
      intro j hj
      rw [iterate_succ P g mp mc false false m _ _ ⟨by simp [chainState], rfl⟩
        (chain_step P r g cnt fp mp mc hlen hd h hmax hmc hmp j (by omega))]
      have := ih (j + 1) (by omega)
      rw [this]
      congr 2
      omega
  intro j hj
  have := key j 0 (by omega)
  rw [Nat.zero_add] at this
  exact this

theorem chainState_zero (P : Params) (g : Graph) (r : List Nat) (cnt : Int)
    (fp : List record) :
    chainState P g r cnt fp 0 = start (nodeOf g (kmerAt P r 0)) cnt fp := by
  simp [chainState, start, new_contig]

theorem chain_last (P : Params) (r : List Nat) (g : Graph) (cnt : Int) (fp : List record)
    (mp mc : Int) (hlen : r.length = P.READ_LENGTH) (hKL : P.KMER ≤ P.READ_LENGTH)
    (hd : (kmersOf P r).Nodup) (h : build_graph P [r] init_pool = some g)
    (hmin : P.MIN_CONTIG_LENGTH ≤ P.READ_LENGTH)
    (hmc : cnt + 1 < mc) (hmp : (nOff P : Int) < mp) :
    step P g mp mc false false (chainState P g r cnt fp (nOff P - 1))
      = some ⟨[], cnt + 1, fp ++ [⟨cnt, false, r⟩], 1 + ((nOff P - 1 : Nat) : Int),
          Status.OK⟩ := by
  have hn : nOff P = P.READ_LENGTH - P.KMER + 1 := by
    unfold nOff offsets; rw [if_pos hKL]; simp
  have hlast : nOff P - 1 < nOff P := by omega
  obtain ⟨_, hseq, hto⟩ := chain_graph P r g hd h (nOff P - 1) hlast
  rw [if_neg (by omega)] at hto
  have hvis : is_node_visited g
      ⟨r.take (nOff P - 1), nOff P - 1, false, nodeOf g (kmerAt P r (nOff P - 1)),
        ((List.range (nOff P - 1)).map (kmerAt P r)).reverse⟩
      (nodeOf g (kmerAt P r (nOff P - 1))) = false := by
    unfold is_node_visited
    simp only [hseq]
    rw [Bool.eq_false_iff]
    intro hc
    simp only [List.contains_eq_any_beq, List.any_eq_true, List.mem_reverse, List.mem_map,
      List.mem_range, beq_iff_eq] at hc
    obtain ⟨x, ⟨i, hi, rfl⟩, he⟩ := hc
    have := kmers_inj P r hd i (nOff P - 1) (by omega) hlast he.symm
    omega
  have hsink : (g.nodeAt (nodeOf g (kmerAt P r (nOff P - 1)))).toNodes.isEmpty = true := by
    rw [hto]; rfl
  have hv := visit_sink P g false false _ [] (chainState P g r cnt fp (nOff P - 1)) hvis hsink
  rw [step_of_visit P g mp mc false false (chainState P g r cnt fp (nOff P - 1)) _ _ [] rfl hv]
  congr 1
  have hspell : r.take (nOff P - 1) ++ (kmerAt P r (nOff P - 1)).take P.KMER = r := by
    unfold kmerAt
    rw [List.take_take, Nat.min_self]
    have e : nOff P - 1 = P.READ_LENGTH - P.KMER := by omega
    rw [e]
    have : (r.drop (P.READ_LENGTH - P.KMER)).take P.KMER = r.drop (P.READ_LENGTH - P.KMER) := by
      apply List.take_of_length_le
      rw [List.length_drop]; omega
    rw [this, List.take_append_drop]
  have hout : output_contig P
      ⟨r.take (nOff P - 1) ++ (g.nodeAt (nodeOf g (kmerAt P r (nOff P - 1)))).seq.take P.KMER,
        nOff P - 1, false, nodeOf g (kmerAt P r (nOff P - 1)),
        ((List.range (nOff P - 1)).map (kmerAt P r)).reverse⟩ cnt fp
      = (cnt + 1, fp ++ [⟨cnt, false, r⟩]) := by
    unfold output_contig
    simp only [hseq, hspell]
    rw [if_pos (by rw [hlen]; exact hmin)]
  simp only [chainState, Bool.not_false, if_true, hout]
  exact check_bounds_below mp mc _ (by simpa using hmc) (by
    show (1 : Int) + ((nOff P - 1 : Nat) : Int) < mp
    have : ((nOff P - 1 : Nat) : Int) = (nOff P : Int) - 1 := by
      rw [Nat.cast_sub (by omega)]; rfl
    rw [this]; omega)

/-! ### The claim -/

/-- C2: for every read of length `READ_LENGTH` whose `READ_LENGTH - KMER + 1`
k-mers are pairwise distinct, with `MIN_CONTIG_LENGTH <= READ_LENGTH`, the read
fitting the contig buffer, and the bounds not reached (the counter stays below
`max_contigs`, the number of k-mers is below `max_paths_from_root`): on the
graph `build_graph` makes of that single read, no node pruned, `build_contigs`
in emission mode from the node of the first k-mer returns `OK` (given at least
one unit of fuel per k-mer) having written exactly one record, untagged, whose
sequence is the read. -/
theorem C2_single_read_spelled_back (P : Params) (r : List Nat) (g : Graph) (cnt : Int)
    (fp : List record) (max_paths_from_root max_contigs : Int) (fuel : Nat)
    (hlen : r.length = P.READ_LENGTH) (hKL : P.KMER ≤ P.READ_LENGTH)
    (hd : (kmersOf P r).Nodup) (hmin : P.MIN_CONTIG_LENGTH ≤ P.READ_LENGTH)
    (hmax : P.READ_LENGTH < P.MAX_CONTIG_SIZE)
    (hmc : cnt + 1 < max_contigs)
    (hmp : ((P.READ_LENGTH - P.KMER + 1 : Nat) : Int) < max_paths_from_root)
    (hfuel : P.READ_LENGTH - P.KMER + 1 ≤ fuel)
    (h : build_graph P [r] init_pool = some g) :
    build_contigs P g fuel (nodeOf g (kmerAt P r 0)) cnt fp max_paths_from_root max_contigs
        false false
      = Outcome.done (Status.OK, cnt + 1, fp ++ [⟨cnt, false, r⟩]) := by
  have hn : nOff P = P.READ_LENGTH - P.KMER + 1 := by
    unfold nOff offsets; rw [if_pos hKL]; simp
  rw [← hn] at hmp hfuel
  have hit := chain_iterate P r g cnt fp max_paths_from_root max_contigs hlen hd h hmax
    (by omega) hmp (nOff P - 1) (by omega)
  rw [chainState_zero] at hit
  have hlast := chain_last P r g cnt fp max_paths_from_root max_contigs hlen hKL hd h hmin
    hmc hmp
  obtain ⟨m, hm⟩ : ∃ m, fuel = (nOff P - 1) + (m + 1) := ⟨fuel - nOff P, by omega⟩
  have hrun := iterate_run_loop P g max_paths_from_root max_contigs false false (nOff P - 1)
    _ _ hit (m + 1)
  rw [run_loop_succ P g _ _ false false m _ ⟨by simp [chainState], rfl⟩, hlast] at hrun
  simp only at hrun
  rw [run_loop_done P g _ _ false false m _ (by simp)] at hrun
  unfold build_contigs
  change (match run_loop P g max_paths_from_root max_contigs false false fuel
      (start (nodeOf g (kmerAt P r 0)) cnt fp) with
    | Outcome.done r => Outcome.done (r.status, r.contig_count, r.fp)
    | Outcome.fatal => Outcome.fatal
    | Outcome.timeout => Outcome.timeout) = _
  rw [hm, hrun]

theorem C2_single_read_spelled_back_witness :
    build_graph scenarioParams [[65, 65, 65, 84, 84]] init_pool
      = some ((build_graph scenarioParams [[65, 65, 65, 84, 84]] init_pool).getD init_pool) ∧
    build_contigs scenarioParams
        ((build_graph scenarioParams [[65, 65, 65, 84, 84]] init_pool).getD init_pool) 5
        (nodeOf ((build_graph scenarioParams [[65, 65, 65, 84, 84]] init_pool).getD init_pool)
          (kmerAt scenarioParams [65, 65, 65, 84, 84] 0)) 0 [] 100 10 false false
      = Outcome.done (Status.OK, 0 + 1, [] ++ [⟨0, false, [65, 65, 65, 84, 84]⟩]) :=
  ⟨by rfl, C2_single_read_spelled_back scenarioParams [65, 65, 65, 84, 84] _ 0 [] 100 10 5
    (by decide) (by decide) (by decide) (by decide) (by decide) (by decide) (by decide)
    (by decide) (by rfl)⟩

/-! ## C22: when `hasMultipleUniqueReads` is set -/

/-- The first occurrence of a k-mer in the trace of `build_graph` lies in the
first read that holds the k-mer. -/
theorem find?_occsFrom (P : Params) (k : List Nat) :
    ∀ (reads : List (List Nat)) (s p : Nat),
    (occsFrom P s reads).find? (fun o => o.1 == k) = some (k, p) →
    s ≤ p ∧ reads[p - s]? = reads.find? (fun r => decide (k ∈ kmersOf P r)) := by
  intro reads
  induction reads with
  | nil => intro s p h; simp [occsFrom] at h
  | cons r rs ih =>
    intro s p h
    rw [occsFrom, List.find?_append] at h
    by_cases hk : k ∈ kmersOf P r
    · have h1 : ((kmersOf P r).map (fun k => (k, s))).find? (fun o => o.1 == k)
          = some (k, s) := by
        rw [List.find?_map]
        cases hf : (kmersOf P r).find? ((fun o : List Nat × Nat => o.1 == k) ∘ fun k => (k, s)) with
        | none =>
          rw [List.find?_eq_none] at hf
          exact absurd (by simp) (hf k hk)
        | some x =>
          have := List.find?_some hf
          simp only [Function.comp_apply, beq_iff_eq] at this
          rw [this]; rfl
      rw [h1] at h
      simp only [Option.or_some, Option.some.injEq, Prod.mk.injEq, true_and] at h
      subst h
      refine ⟨le_refl _, ?_⟩
      rw [Nat.sub_self, List.find?_cons_of_pos _ (by simpa using hk)]
      simp
    · have h1 : ((kmersOf P r).map (fun k => (k, s))).find? (fun o => o.1 == k) = none := by
        rw [List.find?_eq_none]
        intro o ho hc
        rw [List.mem_map] at ho
        obtain ⟨x, hx, rfl⟩ := ho
        simp only [beq_iff_eq] at hc
        exact hk (hc ▸ hx)
      rw [h1, Option.none_or] at h
      obtain ⟨hle, hget⟩ := ih (s + 1) p h
      refine ⟨by omega, ?_⟩
      have e : p - s = (p - (s + 1)) + 1 := by omega
      rw [e, List.getElem?_cons_succ, hget, List.find?_cons_of_neg _ (by simpa using hk)]

theorem find?_ext_mem {α : Type} (p q : α → Bool) :
    ∀ (l : List α), (∀ x ∈ l, p x = q x) → l.find? p = l.find? q := by
  intro l
  induction l with
  | nil => intro _; rfl
  | cons a l ih =>
    intro h
    rw [List.find?_cons, List.find?_cons, h a (List.mem_cons_self a l),
      ih (fun x hx => h x (List.mem_cons_of_mem a hx))]

/-- C22: for every list of reads of length `READ_LENGTH` and every node of the
map after `build_graph`, with `r0` the first read in input order in which the
k-mer of the node occurs: `hasMultipleUniqueReads` is set if and only if the
k-mer occurs in some read whose bytes differ from those of `r0`; and when
every read in which the k-mer occurs has the bytes of `r0` (one read, or
copies of it), the flag is unset and `prune_graph` removes the node from the
map, whatever its frequency. -/
theorem C22_flag_iff_distinct_bytes (P : Params) (reads : List (List Nat)) (g : Graph)
    (hlen : ∀ r ∈ reads, r.length = P.READ_LENGTH)
    (h : build_graph P reads init_pool = some g) (k : List Nat) (n : Nat)
    (he : (k, n) ∈ g.table) :
    ∃ r0, firstReadWith k reads = some r0 ∧
      ((g.nodeAt n).hasMultipleUniqueReads = true ↔ ∃ r ∈ reads, k <:+: r ∧ r ≠ r0) ∧
      ((∀ r ∈ reads, k <:+: r → r = r0) →
        (g.nodeAt n).hasMultipleUniqueReads = false ∧
        k ∉ (prune_graph P g).table.map Prod.fst ∧ ¬ (prune_graph P g).inTable n) := by
  obtain ⟨hwf, _, hreads, hd⟩ := build_graph_inv P reads g h
  have hkey : k ∈ (occsFrom P 0 reads).map Prod.fst :=
    (hd.keys k).1 (List.mem_map.2 ⟨(k, n), he, rfl⟩)
  have hklen : k.length = P.KMER := by
    obtain ⟨r, hr, hk⟩ := (mem_occsFrom P k reads 0).1 hkey
    exact ((mem_kmersOf_iff P r k (hlen r hr)).1 hk).1
  have hinf : ∀ r ∈ reads, (k ∈ kmersOf P r ↔ k <:+: r) := fun r hr =>
    ⟨fun hk => ((mem_kmersOf_iff P r k (hlen r hr)).1 hk).2,
      fun hk => (mem_kmersOf_iff P r k (hlen r hr)).2 ⟨hklen, hk⟩⟩
  have hfirst := hd.first (k, n) he
  simp only at hfirst
  have hslot : (g.nodeAt n).contributingRead < reads.length := by
    have := hd.slots _ (List.mem_of_find?_eq_some hfirst)
    rw [hreads] at this
    exact this
  obtain ⟨_, hget⟩ := find?_occsFrom P k reads 0 _ hfirst
  rw [Nat.sub_zero, List.getElem?_eq_getElem hslot] at hget
  have hr0 : reads.getD (g.nodeAt n).contributingRead [] = reads[(g.nodeAt n).contributingRead] := by
    rw [List.getD_eq_getElem?_getD, List.getElem?_eq_getElem hslot]; rfl
  have hflag : (g.nodeAt n).hasMultipleUniqueReads = true ↔
      ∃ r ∈ reads, k <:+: r ∧ r ≠ reads[(g.nodeAt n).contributingRead] := by
    have := hd.flag (k, n) he
    simp only at this
    rw [this, hreads, hr0]
    constructor
    · rintro ⟨o, ho, hok, hne⟩
      obtain ⟨ok, p⟩ := o
      simp only at hok hne
      subst hok
      obtain ⟨_, r, hr, hk⟩ := (mem_occsFrom_pair P ok reads 0 p).1 ho
      rw [Nat.sub_zero] at hr
      have hmem : r ∈ reads := List.mem_iff_getElem?.2 ⟨p, hr⟩
      refine ⟨r, hmem, (hinf r hmem).1 hk, ?_⟩
      rw [List.getD_eq_getElem?_getD, hr] at hne
      exact hne
    · rintro ⟨r, hr, hk, hne⟩
      obtain ⟨p, hp⟩ := List.mem_iff_getElem?.1 hr
      refine ⟨(k, p), (mem_occsFrom_pair P k reads 0 p).2
        ⟨Nat.zero_le _, r, by simpa using hp, (hinf r hr).2 hk⟩, rfl, ?_⟩
      simp only
      rw [List.getD_eq_getElem?_getD, hp]
      exact hne
  refine ⟨reads[(g.nodeAt n).contributingRead], ?_, hflag, ?_⟩
  · unfold firstReadWith
    rw [hget]
    exact find?_ext_mem _ _ reads (fun r hr => by
      simp only [decide_eq_decide]; exact (hinf r hr).symm)
  · intro hall
    have hfalse : (g.nodeAt n).hasMultipleUniqueReads = false := by
      rw [Bool.eq_false_iff]
      intro hc
      obtain ⟨r, hr, hk, hne⟩ := hflag.1 hc
      exact hne (hall r hr hk)
    obtain ⟨_, _, hnw, hsub⟩ := prune_graph_spec P g hwf
    have hnot : ¬ (prune_graph P g).inTable n := by
      intro hin
      unfold Graph.inTable at hin
      rw [List.mem_map] at hin
      obtain ⟨e, hein, hen⟩ := hin
      have := hnw e hein
      rw [hen] at this
      unfold is_weak at this
      rw [hfalse] at this
      simp at this
    refine ⟨hfalse, ?_, hnot⟩
    intro hin
    rw [List.mem_map] at hin
    obtain ⟨e, hein, hek⟩ := hin
    have := (entry_key_iff g hwf k n he e (hsub e hein)).1 hek
    exact hnot (List.mem_map.2 ⟨e, hein, this⟩)

theorem C22_flag_iff_distinct_bytes_witness :
    (∀ r ∈ twinReads, r.length = scenarioParams.READ_LENGTH) ∧
    build_graph scenarioParams twinReads init_pool = some twinGraph ∧
    ([65, 65, 65], 0) ∈ twinGraph.table ∧
    ∃ r0, firstReadWith [65, 65, 65] twinReads = some r0 ∧
      ((twinGraph.nodeAt 0).hasMultipleUniqueReads = true ↔
        ∃ r ∈ twinReads, [65, 65, 65] <:+: r ∧ r ≠ r0) ∧
      ((∀ r ∈ twinReads, [65, 65, 65] <:+: r → r = r0) →
        (twinGraph.nodeAt 0).hasMultipleUniqueReads = false ∧
        [65, 65, 65] ∉ (prune_graph scenarioParams twinGraph).table.map Prod.fst ∧
        ¬ (prune_graph scenarioParams twinGraph).inTable 0) :=
  ⟨by decide, by rfl, by decide!,
    C22_flag_iff_distinct_bytes scenarioParams twinReads twinGraph (by decide) (by rfl)
      [65, 65, 65] 0 (by decide!)⟩

/-! ## C21: the emission pass follows the shadow pass -/

/-- The branch the loop body takes, the stack and the path counter it leaves,
and the status before the bound checks do not depend on the mode, the counter
or the file. -/
theorem visit_sim (P : Params) (g : Graph) (sr : Bool) (c : contig) (rest : List contig)
    (rs re vs : Run) (hp : rs.paths_from_root = re.paths_from_root)
    (hst : rs.status = re.status) (hv : visit P g sr true c rest rs = some vs) :
    ∃ ve, visit P g sr false c rest re = some ve ∧ ve.contigs = vs.contigs ∧
      ve.paths_from_root = vs.paths_from_root ∧ ve.status = vs.status := by
  cases h1 : is_node_visited g c c.curr_node with
  | true =>
    rw [visit_repeat P g sr true c rest rs h1] at hv
    rw [visit_repeat P g sr false c rest re h1]
    cases hv
    exact ⟨_, rfl, rfl, hp.symm, by simp only [hst]⟩
  | false =>
    cases h2 : (g.nodeAt c.curr_node).toNodes.isEmpty with
    | true =>
      rw [visit_sink P g sr true c rest rs h1 h2] at hv
      rw [visit_sink P g sr false c rest re h1 h2]
      cases hv
      exact ⟨_, rfl, rfl, hp.symm, hst.symm⟩
    | false =>
      rw [visit_interior P g sr true c rest rs h1 h2] at hv
      rw [visit_interior P g sr false c rest re h1 h2]
      split at hv
      · exact Option.noConfusion hv
      · rename_i hsz
        rw [if_neg hsz]
        cases hv
        exact ⟨_, rfl, rfl, by simp only [hp], hst.symm⟩

theorem check_bounds_status_cases (mp mc : Int) (r : Run) (hs : r.status = Status.OK)
    (hp : r.paths_from_root < mp) :
    (check_bounds mp mc r).status = Status.OK ∨
    (check_bounds mp mc r).status = Status.TOO_MANY_CONTIGS := by
  have e2 : ¬ r.paths_from_root ≥ mp := by omega
  unfold check_bounds
  by_cases h1 : r.contig_count ≥ mc
  · right; simp only [h1, e2, if_true, if_false]
  · left; simp only [h1, e2, if_false]; exact hs

/-- One iteration of the shadow pass that leaves the status `OK` is matched
by the iteration of the emission pass on the same stack and path counter,
which leaves `OK` or `TOO_MANY_CONTIGS`. -/
theorem step_sim (P : Params) (g : Graph) (mp mc : Int) (sr : Bool) (rs re rs1 : Run)
    (hc : rs.contigs = re.contigs) (hp : rs.paths_from_root = re.paths_from_root)
    (hs : rs.status = Status.OK) (he : re.status = Status.OK)
    (hne : re.contigs.length > 0)
    (hstep : step P g mp mc sr true rs = some rs1) (hok : rs1.status = Status.OK) :
    ∃ re1, step P g mp mc sr false re = some re1 ∧ rs1.contigs = re1.contigs ∧
      rs1.paths_from_root = re1.paths_from_root ∧
      (re1.status = Status.OK ∨ re1.status = Status.TOO_MANY_CONTIGS) := by
  cases hcs : re.contigs with
  | nil => rw [hcs] at hne; exact absurd hne (by simp)
  | cons c rest =>
    obtain ⟨vs, hv, rfl⟩ := step_cons P g mp mc sr true rs rs1 c rest (hc.trans hcs) hstep
    obtain ⟨ve, hve, h1, h2, h3⟩ := visit_sim P g sr c rest rs re vs hp (hs.trans he.symm) hv
    obtain ⟨hvs, _, hvp⟩ := check_bounds_status_OK mp mc vs hok
    refine ⟨check_bounds mp mc ve, step_of_visit P g mp mc sr false re ve c rest hcs hve, ?_, ?_,
      check_bounds_status_cases mp mc ve (h3.trans hvs) (by rw [h2]; exact hvp)⟩
    · rw [check_bounds_contigs, check_bounds_contigs, h1]
    · rw [check_bounds_paths, check_bounds_paths, h2]

/-- When the shadow pass ends with `OK`, the emission pass from a state with
the same stack and path counter ends, within the same number of iterations,
with `OK` or `TOO_MANY_CONTIGS`. -/
theorem run_follows (P : Params) (g : Graph) (mp mc : Int) (sr : Bool) :
    ∀ (fuel : Nat) (rs re rs' : Run), rs.contigs = re.contigs →
      rs.paths_from_root = re.paths_from_root → rs.status = Status.OK →
      (re.status = Status.OK ∨ re.status = Status.TOO_MANY_CONTIGS) →
      run_loop P g mp mc sr true fuel rs = Outcome.done rs' → rs'.status = Status.OK →
      ∃ re', run_loop P g mp mc sr false fuel re = Outcome.done re' ∧
        (re'.status = Status.OK ∨ re'.status = Status.TOO_MANY_CONTIGS) := by
  intro fuel
  induction fuel with
  | zero =>
    intro rs re rs' hc hp hs he h hok
    by_cases hcond : re.contigs.length > 0 ∧ re.status = Status.OK
    · rw [run_loop_zero_cond P g mp mc sr true rs ⟨by rw [hc]; exact hcond.1, hs⟩] at h
      exact Outcome.noConfusion h
    · exact ⟨re, run_loop_done P g mp mc sr false 0 re hcond, he⟩
  | succ f ih =>
    intro rs re rs' hc hp hs he h hok
    by_cases hcond : re.contigs.length > 0 ∧ re.status = Status.OK
    · rw [run_loop_succ P g mp mc sr true f rs ⟨by rw [hc]; exact hcond.1, hs⟩] at h
      cases hstep : step P g mp mc sr true rs with
      | none => rw [hstep] at h; exact Outcome.noConfusion h
      | some rs1 =>
        rw [hstep] at h
        simp only at h
        have hok1 : rs1.status = Status.OK := by
          by_contra hn
          rw [run_loop_done P g mp mc sr true f rs1 (fun x => hn x.2)] at h
          injection h with h
          rw [h] at hn
          exact hn hok
        obtain ⟨re1, hse, h1, h2, h3⟩ :=
          step_sim P g mp mc sr rs re rs1 hc hp hs hcond.2 hcond.1 hstep hok1
        rw [run_loop_succ P g mp mc sr false f re hcond, hse]
        exact ih rs1 re1 rs' h1 h2 hok1 h3 h hok
    · exact ⟨re, run_loop_done P g mp mc sr false (f + 1) re hcond, he⟩

/-- When the shadow pass ends with `OK`, every iteration the emission pass
makes is an iteration the shadow pass makes, on the same stack and with the
same path counter. -/
theorem iterate_follows (P : Params) (g : Graph) (mp mc : Int) (sr : Bool) :
    ∀ (n fuel : Nat) (rs re rs' re_n : Run), rs.contigs = re.contigs →
      rs.paths_from_root = re.paths_from_root → rs.status = Status.OK →
      run_loop P g mp mc sr true fuel rs = Outcome.done rs' → rs'.status = Status.OK →
      iterate P g mp mc sr false n re = some re_n →
      ∃ rs_n, iterate P g mp mc sr true n rs = some rs_n ∧ rs_n.contigs = re_n.contigs ∧
        rs_n.paths_from_root = re_n.paths_from_root := by
  intro n
  induction n with
  | zero =>
    intro fuel rs re rs' re_n hc hp _ _ _ hi
    simp only [iterate, Option.some.injEq] at hi
    subst hi
    exact ⟨rs, rfl, hc, hp⟩
  | succ n ih =>
    intro fuel rs re rs' re_n hc hp hs h hok hi
    obtain ⟨hcond, re1, hse, hi1⟩ := iterate_succ_some P g mp mc sr false n re re_n hi
    have hconds : rs.contigs.length > 0 ∧ rs.status = Status.OK := ⟨by rw [hc]; exact hcond.1, hs⟩
    cases fuel with
    | zero =>
      rw [run_loop_zero_cond P g mp mc sr true rs hconds] at h
      exact Outcome.noConfusion h
    | succ f =>
      rw [run_loop_succ P g mp mc sr true f rs hconds] at h
      cases hstep : step P g mp mc sr true rs with
      | none => rw [hstep] at h; exact Outcome.noConfusion h
      | some rs1 =>
        rw [hstep] at h
        simp only at h
        have hok1 : rs1.status = Status.OK := by
          by_contra hn
          rw [run_loop_done P g mp mc sr true f rs1 (fun x => hn x.2)] at h
          injection h with h
          rw [h] at hn
          exact hn hok
        obtain ⟨re1', hse', h1, h2, _⟩ :=
          step_sim P g mp mc sr rs re rs1 hc hp hs hcond.2 hcond.1 hstep hok1
        rw [hse] at hse'
        injection hse' with hse'
        subst hse'
        rw [iterate_succ P g mp mc sr true n rs rs1 hconds hstep]
        exact ih f rs1 re1 rs' re_n h1 h2 hok1 h hok hi1

/-- C21: for every graph, root and parameter setting, if the shadow pass of
`build_contigs`, called as `assemble` calls it, returns `OK`, then the
emission pass `assemble` runs next on the same root with the same parameters
returns, with the status `OK` or `TOO_MANY_CONTIGS` (never
`TOO_MANY_PATHS_FROM_ROOT` or `STOPPED_ON_REPEAT`); `assemble` drops that
status: it goes on to the next root with the counter and the file the emission
pass left; and every iteration the emission pass makes before it stops is an
iteration of the shadow pass on the same stack with the same path counter. -/
theorem C21_emission_follows_shadow (P : Params) (g : Graph) (fuel root : Nat) (d : Driver)
    (root_nodes : List Nat) (truncate_on_repeat : Bool)
    (max_contigs max_paths_from_root : Int) (n1 : Int) (fp1 : List record)
    (h : build_contigs P g fuel root 0 d.fp max_paths_from_root max_contigs
      truncate_on_repeat true = Outcome.done (Status.OK, n1, fp1)) :
    (∃ st count2 fp2,
      build_contigs P g fuel root d.contig_count fp1 max_paths_from_root max_contigs
          truncate_on_repeat false = Outcome.done (st, count2, fp2) ∧
      (st = Status.OK ∨ st = Status.TOO_MANY_CONTIGS) ∧
      assemble_roots P g fuel truncate_on_repeat max_contigs max_paths_from_root
          (root :: root_nodes) d
        = assemble_roots P g fuel truncate_on_repeat max_contigs max_paths_from_root
          root_nodes ⟨count2, fp2, false⟩) ∧
    (∀ n re, iterate P g max_paths_from_root max_contigs truncate_on_repeat false n
        (start root d.contig_count fp1) = some re →
      ∃ rs, iterate P g max_paths_from_root max_contigs truncate_on_repeat true n
          (start root 0 d.fp) = some rs ∧
        rs.contigs = re.contigs ∧ rs.paths_from_root = re.paths_from_root) := by
  obtain ⟨_, hfp⟩ := build_contigs_shadow P g fuel root 0 d.fp max_paths_from_root
    max_contigs truncate_on_repeat Status.OK n1 fp1 h
  subst hfp
  have hrun : ∃ rs', run_loop P g max_paths_from_root max_contigs truncate_on_repeat true fuel
      (start root 0 d.fp) = Outcome.done rs' ∧ rs'.status = Status.OK := by
    have h2 := h
    unfold build_contigs at h2
    split at h2
    · rename_i r' hr
      injection h2 with h2
      injection h2 with hst _
      exact ⟨r', hr, hst⟩
    · exact Outcome.noConfusion h2
    · exact Outcome.noConfusion h2
  obtain ⟨rs', hrs, hok⟩ := hrun
  refine ⟨?_, ?_⟩
  · obtain ⟨re', hre, hst⟩ := run_follows P g max_paths_from_root max_contigs
      truncate_on_repeat fuel (start root 0 d.fp) (start root d.contig_count d.fp) rs'
      rfl rfl rfl (Or.inl rfl) hrs hok
    have hem : build_contigs P g fuel root d.contig_count d.fp max_paths_from_root
        max_contigs truncate_on_repeat false
          = Outcome.done (re'.status, re'.contig_count, re'.fp) := by
      unfold build_contigs
      change (match run_loop P g max_paths_from_root max_contigs truncate_on_repeat false fuel
          (start root d.contig_count d.fp) with
        | Outcome.done r => Outcome.done (r.status, r.contig_count, r.fp)
        | Outcome.fatal => Outcome.fatal
        | Outcome.timeout => Outcome.timeout) = _
      rw [hre]
    refine ⟨re'.status, re'.contig_count, re'.fp, hem, hst, ?_⟩
    rw [assemble_roots_cons, h]
    simp only [hem, if_true]
    rw [if_neg (by simp)]
  · intro n re hi
    exact iterate_follows P g max_paths_from_root max_contigs truncate_on_repeat n fuel
      (start root 0 d.fp) (start root d.contig_count d.fp) rs' re rfl rfl rfl hrs hok hi

theorem C21_emission_follows_shadow_witness :
    build_contigs scenarioParams branchGraph 20 0 0 (Driver.mk 0 [] false).fp 1000 1
      false true = Outcome.done (Status.OK, 0, []) ∧
    ((∃ st count2 fp2,
      build_contigs scenarioParams branchGraph 20 0 (Driver.mk 0 [] false).contig_count []
          1000 1 false false = Outcome.done (st, count2, fp2) ∧
      (st = Status.OK ∨ st = Status.TOO_MANY_CONTIGS) ∧
      assemble_roots scenarioParams branchGraph 20 false 1 1000 (0 :: []) (Driver.mk 0 [] false)
        = assemble_roots scenarioParams branchGraph 20 false 1 1000 [] ⟨count2, fp2, false⟩) ∧
    (∀ n re, iterate scenarioParams branchGraph 1000 1 false false n
        (start 0 (Driver.mk 0 [] false).contig_count []) = some re →
      ∃ rs, iterate scenarioParams branchGraph 1000 1 false true n
          (start 0 0 (Driver.mk 0 [] false).fp) = some rs ∧
        rs.contigs = re.contigs ∧ rs.paths_from_root = re.paths_from_root)) :=
  ⟨by decide!, C21_emission_follows_shadow scenarioParams branchGraph 20 0 (Driver.mk 0 [] false)
    [] false 1 1000 0 [] (by decide!)⟩

end Abra
